import Mathlib

/-!
Verification development for the hammer configuration database
(`src/hammer_config/config_src.py`).

The Python source is shallowly embedded: Python dictionaries become
insertion-ordered association lists (`List (String × Val)`), mutation becomes
explicit state passing, and every raising code path returns `Except Err`.
The constructors of `Err` tag the raise sites of the source with the error
taxonomy of the specification (invalid-directive, invalid-value, missing-key,
lazy-cycle, rename-unsupported, ...).

External collaborators of the source (the file system read by `transclude`
and the JSON parser used by `json2list`) are modelled as an explicit
environment `ExtEnv` of pure functions, threaded through the evaluator.
-/

set_option autoImplicit false

universe u


/-- Values of the configuration system: Python's null/bool/int/str/list.
Mappings never occur inside a flattened dictionary, so they are not part of
this type; the nested (un-flattened) shape used by `unpack`/`reverse_unpack`
is the separate type `NVal` below.  (Python floats are not exercised by any
directive and are omitted.) -/
inductive Val where
  | null : Val
  | bool (b : Bool) : Val
  | int (n : Int) : Val
  | str (s : String) : Val
  | vlist (xs : List Val) : Val

mutual

/-- Decidable equality of values. -/
def Val.decEq : (a b : Val) → Decidable (a = b)
  | .null, .null => isTrue rfl
  | .bool a, .bool b =>
    if h : a = b then isTrue (by rw [h]) else isFalse (by intro hc; cases hc; exact h rfl)
  | .int a, .int b =>
    if h : a = b then isTrue (by rw [h]) else isFalse (by intro hc; cases hc; exact h rfl)
  | .str a, .str b =>
    if h : a = b then isTrue (by rw [h]) else isFalse (by intro hc; cases hc; exact h rfl)
  | .vlist a, .vlist b =>
    match Val.decEqList a b with
    | isTrue h => isTrue (by rw [h])
    | isFalse h => isFalse (by intro hc; cases hc; exact h rfl)
  | .null, .bool _ | .null, .int _ | .null, .str _ | .null, .vlist _ => isFalse nofun
  | .bool _, .null | .bool _, .int _ | .bool _, .str _ | .bool _, .vlist _ => isFalse nofun
  | .int _, .null | .int _, .bool _ | .int _, .str _ | .int _, .vlist _ => isFalse nofun
  | .str _, .null | .str _, .bool _ | .str _, .int _ | .str _, .vlist _ => isFalse nofun
  | .vlist _, .null | .vlist _, .bool _ | .vlist _, .int _ | .vlist _, .str _ => isFalse nofun

/-- Decidable equality of value lists. -/
def Val.decEqList : (a b : List Val) → Decidable (a = b)
  | [], [] => isTrue rfl
  | [], _ :: _ => isFalse nofun
  | _ :: _, [] => isFalse nofun
  | x :: xs, y :: ys =>
    match Val.decEq x y, Val.decEqList xs ys with
    | isTrue h1, isTrue h2 => isTrue (by rw [h1, h2])
    | isFalse h1, _ => isFalse (by intro hc; injection hc; exact h1 (by assumption))
    | _, isFalse h2 => isFalse (by intro hc; injection hc; exact h2 (by assumption))

end

instance : DecidableEq Val := Val.decEq

/-- Error kinds, following the taxonomy of the specification (§7); each
constructor is the tag of one or more `raise`/`assert` sites of the source. -/
inductive Err where
  /-- `ValueError`s about directive names: unknown directive, `dynamic*`
  prefix, multiple lazy directives, non-lazy after lazy, and the `TypeError`
  for a non-string directive entry. -/
  | invalidDirective (msg : String)
  /-- `ValueError`s about value shapes (append to non-list, crossref on
  numbers/bools, json decode problems, non-string/non-list meta value). -/
  | invalidValue (msg : String)
  /-- Python `KeyError` from a dictionary subscript or `del`. -/
  | missingKey (k : String)
  /-- Python `TypeError` from an operation on a wrongly-typed value. -/
  | typeErr (msg : String)
  /-- Python `AssertionError` from an `assert` statement. -/
  | assertionFailed (msg : String)
  /-- Python `NotImplementedError`. -/
  | notImplemented (msg : String)
  /-- "There appears to be a loop of lazy settings". -/
  | lazyCycle
  /-- "Failed to rename lazy setting which depends on itself". -/
  | renameUnsupported (setting : String)
  /-- Dead-code `assert False, "Cannot have blank key"` in `reverse_unpack`. -/
  | blankKey
  /-- I/O failure (file not found / unreadable). -/
  | ioErr (msg : String)
deriving DecidableEq

/-! ## Association lists: the embedding of Python `dict`

Python dictionaries preserve insertion order; `d[k] = v` keeps the position
of an existing key and appends a fresh key at the end; `del d[k]` removes the
entry.  All keys in this development are strings. -/

/-- Lookup (`d[k]` / `d.get(k)`): first entry with the given key. -/
def aget? {β : Type u} : List (String × β) → String → Option β
  | [], _ => none
  | (k', v) :: rest, k => if k' = k then some v else aget? rest k

/-- Assignment `d[k] = v`: replace in place, or append a fresh key. -/
def aset {β : Type u} : List (String × β) → String → β → List (String × β)
  | [], k, v => [(k, v)]
  | (k', v') :: rest, k, v =>
    if k' = k then (k, v) :: rest else (k', v') :: aset rest k v

/-- Removal `del d[k]` (total version; removes the first entry if present). -/
def aerase {β : Type u} : List (String × β) → String → List (String × β)
  | [], _ => []
  | (k', v') :: rest, k => if k' = k then rest else (k', v') :: aerase rest k

/-- The keys of a dictionary, in order. -/
def akeys {β : Type u} (d : List (String × β)) : List String := d.map Prod.fst

/-- Python dicts have pairwise-distinct keys. -/
def NodupKeys {β : Type u} (d : List (String × β)) : Prop := (akeys d).Nodup

instance {β : Type u} (d : List (String × β)) : Decidable (NodupKeys d) := by
  unfold NodupKeys; infer_instance

/-- A flattened configuration dictionary. -/
abbrev Dict := List (String × Val)

/-- Python `del d[k]`, raising `KeyError` when the key is absent. -/
def ddel (d : Dict) (k : String) : Except Err Dict :=
  if (aget? d k).isSome then .ok (aerase d k) else .error (.missingKey k)

/-- Python `d.update(u)`: assign every entry of `u` into `d`, in order. -/
def dupdate (d u : Dict) : Dict := u.foldl (fun acc kv => aset acc kv.1 kv.2) d

/-! ## String helpers

All string reasoning goes through `String.data` and plain list functions, so
that the kernel can evaluate everything and proofs stay elementary. -/

/-- `s.startswith p`. -/
def strStartsWith (s p : String) : Bool := p.data.isPrefixOf s.data

/-- `s.endswith p`. -/
def strEndsWith (s p : String) : Bool := p.data.isSuffixOf s.data

/-- `s[len(p):]` for a known prefix `p` (Python slicing by `len(p)`). -/
def stripPrefixStr (s p : String) : String := ⟨s.data.drop p.data.length⟩

/-- `s[:-len(p)]` for a known suffix `p` (Python slicing by `-len(p)`). -/
def stripSuffixStr (s p : String) : String :=
  ⟨s.data.take (s.data.length - p.data.length)⟩

/-- Special key used for meta directives which require config paths. -/
def _CONFIG_PATH_KEY : String := "_config_path"

/-- Special key tracking the next available integer suffix. -/
def _NEXT_FREE_INDEX_KEY : String := "_next_free_index"

/-! ## Decimal rendering of integers (Python `str(int)`) -/

/-- The decimal digit character for `n < 10`. -/
def digitChar (n : Nat) : Char := Char.ofNat (48 + n)

/-- Decimal digits, most significant first; structurally fuelled so that the
kernel can evaluate it (the fuel `n + 1` always suffices since a number has
at most `n + 1` digits). -/
def natCharsGo : Nat → Nat → List Char
  | 0, _ => []
  | fuel + 1, n =>
    if n < 10 then [digitChar n]
    else natCharsGo fuel (n / 10) ++ [digitChar (n % 10)]

/-- Decimal digits of a natural number, most significant first. -/
def natChars (n : Nat) : List Char := natCharsGo (n + 1) n

/-- Python `str` of an integer. -/
def intRepr (i : Int) : String :=
  if i < 0 then ⟨'-' :: natChars i.natAbs⟩ else ⟨natChars i.natAbs⟩

/-- Python `int(x)` on a configuration value: ints pass through, bools map to
0/1, strings of digits parse, anything else raises. -/
def pyInt (v : Val) : Except Err Int :=
  match v with
  | .int n => .ok n
  | .bool b => .ok (if b then 1 else 0)
  | .str s =>
    let core := if s.data.take 1 = ['-'] then s.data.drop 1 else s.data
    if core ≠ [] ∧ core.all Char.isDigit then
      let n : Nat := core.foldl (fun acc c => acc * 10 + (c.toNat - 48)) 0
      .ok (if s.data.take 1 = ['-'] then -(n : Int) else (n : Int))
    else .error (.invalidValue "invalid literal for int()")
  | _ => .error (.typeErr "int() argument must be a string or a number")

/-- Python `str(value)` for scalar configuration values (list rendering is
approximated; no directive semantics in this development depends on it). -/
def pyStr : Val → String
  | .str s => s
  | .int n => intRepr n
  | .bool b => if b then "True" else "False"
  | .null => "None"
  | .vlist _ => "[...]"

/-- `os.path.join(a, b)` for the cases arising here: an absolute second
component wins; an empty first component disappears; otherwise join with a
single slash. -/
def joinPath (a b : String) : String :=
  if strStartsWith b "/" then b
  else if a = "" then b
  else if strEndsWith a "/" then a ++ b
  else a ++ "/" ++ b

/-! ## The `${...}` variable-expansion scanner

Embeds the regex `\${([a-zA-Z_\-\d.]+)}` together with the scanning
discipline of `re.finditer`/`re.sub`: non-overlapping matches found left to
right, the scan resuming one character further on a failed match attempt. -/

/-- The regex character class `[a-zA-Z_\-\d.]`. -/
def isVarChar (c : Char) : Bool :=
  ('a' ≤ c && c ≤ 'z') || ('A' ≤ c && c ≤ 'Z') || c = '_' || c = '-' ||
    c.isDigit || c = '.'

/-- Fuelled scanner for `re.finditer` matches of the expansion regex; each
step consumes at least one character, so fuel `length + 1` always suffices
(the fuel-exhausted branch is unreachable). -/
def scanNamesGo : Nat → List Char → List String
  | 0, _ => []
  | _ + 1, [] => []
  | fuel + 1, '$' :: '{' :: r2 =>
    let nm := r2.takeWhile isVarChar
    match r2.dropWhile isVarChar with
    | '}' :: tail =>
      if nm.isEmpty then scanNamesGo fuel ('{' :: r2)
      else ⟨nm⟩ :: scanNamesGo fuel tail
    | _ => scanNamesGo fuel ('{' :: r2)
  | fuel + 1, _ :: rest => scanNamesGo fuel rest

/-- All names matched by `\${([a-zA-Z_\-\d.]+)}`, in order (`re.finditer`). -/
def scanNames (l : List Char) : List String := scanNamesGo (l.length + 1) l

/-- Fuelled worker for `re.sub` over the expansion regex (fuel as in
`scanNamesGo`). -/
def substScanGo (f : String → Except Err String) : Nat → List Char → Except Err (List Char)
  | 0, _ => .ok []
  | _ + 1, [] => .ok []
  | fuel + 1, '$' :: '{' :: r2 =>
    let nm := r2.takeWhile isVarChar
    match r2.dropWhile isVarChar with
    | '}' :: tail =>
      if nm.isEmpty then do
        let r ← substScanGo f fuel ('{' :: r2)
        .ok ('$' :: r)
      else do
        let repl ← f ⟨nm⟩
        let r ← substScanGo f fuel tail
        .ok (repl.data ++ r)
    | _ => do
      let r ← substScanGo f fuel ('{' :: r2)
      .ok ('$' :: r)
  | fuel + 1, c :: rest => do
    let r ← substScanGo f fuel rest
    .ok (c :: r)

/-- `re.sub(\${([a-zA-Z_\-\d.]+)}, f, ·)` where the replacement callback may
raise (it indexes the config dictionary in `subst`). -/
def substScan (f : String → Except Err String) (l : List Char) : Except Err (List Char) :=
  substScanGo f (l.length + 1) l

/-- `subst_str(input_str, replacement_func)`. -/
def subst_str (s : String) (f : String → Except Err String) : Except Err String := do
  let r ← substScan f s.data
  .ok ⟨r⟩

/-! ## External collaborators

`transclude` reads the file system and `json2list` parses JSON; both are
out-of-scope collaborators of the source, modelled as pure functions. -/

/-- External environment: file contents by path (`none` = unreadable) and a
JSON parser (`none` = parse failure). -/
structure ExtEnv where
  fs : String → Option String
  jparse : String → Option Val

/-- Miscellaneous parameters involved in executing a meta directive.
`meta_path` holds `meta_dict.get("_config_path", "unspecified")`, whose value
is an arbitrary configuration value at runtime. -/
structure MetaDirectiveParams where
  meta_path : Val
deriving DecidableEq

/-! ## The meta-directive registry (`get_meta_directives`) -/

/-- `append_action`: append a list to the current value of `key`, treating an
absent key as the empty list. -/
def append_action (config_dict : Dict) (key : String) (value : Val)
    (_params : MetaDirectiveParams) : Except Err Dict :=
  let config_dict :=
    if (aget? config_dict key).isNone then aset config_dict key (.vlist [])
    else config_dict
  match aget? config_dict key with
  | some (.vlist cur) =>
    match value with
    | .vlist xs => .ok (aset config_dict key (.vlist (cur ++ xs)))
    | _ => .error (.invalidValue "Trying to append to list with non-list")
  | _ => .error (.invalidValue "Trying to append to non-list setting")

/-- `append_rename`. -/
def append_rename (_key : String) (value : Val) (_target replacement : String) :
    Except Err (Option (Val × String)) :=
  .ok (some (.vlist [.str replacement, value], "crossappend"))

/-- `crossappend_decode`: a list of exactly two elements, a target-setting
name and a list to append. -/
def crossappend_decode (value : Val) : Except Err (String × List Val) :=
  match value with
  | .vlist [.str target, .vlist av] => .ok (target, av)
  | .vlist [_, .vlist _] =>
    .error (.assertionFailed "crossappend target setting must be a string")
  | .vlist [_, _] => .error (.assertionFailed "crossappend must append a list")
  | _ => .error (.assertionFailed "crossappend takes a list of two elements")

/-- `crossappend_action`. -/
def crossappend_action (config_dict : Dict) (key : String) (value : Val)
    (_params : MetaDirectiveParams) : Except Err Dict := do
  let (target, av) ← crossappend_decode value
  match aget? config_dict target with
  | none => .error (.missingKey target)
  | some (.vlist cur) => .ok (aset config_dict key (.vlist (cur ++ av)))
  | some _ => .error (.typeErr "can only concatenate list to list")

/-- `crossappend_targets`. -/
def crossappend_targets (_key : String) (value : Val) : Except Err (List String) := do
  let (target, _) ← crossappend_decode value
  .ok [target]

/-- `crossappend_rename`. -/
def crossappend_rename (_key : String) (value : Val) (target replacement : String) :
    Except Err (Option (Val × String)) := do
  let (ct, av) ← crossappend_decode value
  .ok (some (.vlist [.str (if ct = target then replacement else ct), .vlist av],
             "crossappend"))

/-- `crossappendref_decode`: a list of exactly two setting names. -/
def crossappendref_decode (value : Val) : Except Err (String × String) :=
  match value with
  | .vlist [.str target, .str ak] => .ok (target, ak)
  | .vlist [_, .str _] =>
    .error (.assertionFailed "crossappendref target setting must be a string")
  | .vlist [_, _] =>
    .error (.assertionFailed "crossappend append list setting must be a string")
  | _ => .error (.assertionFailed "crossappendref takes a list of two elements")

/-- `crossappendref_action`. -/
def crossappendref_action (config_dict : Dict) (key : String) (value : Val)
    (_params : MetaDirectiveParams) : Except Err Dict := do
  let (target, ak) ← crossappendref_decode value
  match aget? config_dict target with
  | none => .error (.missingKey target)
  | some tv =>
    match aget? config_dict ak with
    | none => .error (.missingKey ak)
    | some av =>
      match tv, av with
      | .vlist t, .vlist a => .ok (aset config_dict key (.vlist (t ++ a)))
      | _, _ => .error (.typeErr "can only concatenate list to list")

/-- `crossappendref_targets`. -/
def crossappendref_targets (_key : String) (value : Val) : Except Err (List String) := do
  let (target, ak) ← crossappendref_decode value
  .ok [target, ak]

/-- `crossappendref_rename`. -/
def crossappendref_rename (_key : String) (value : Val) (target replacement : String) :
    Except Err (Option (Val × String)) := do
  let (t, a) ← crossappendref_decode value
  .ok (some (.vlist [.str (if t = target then replacement else t),
                     .str (if a = target then replacement else a)],
             "crossappendref"))

/-- The replacement callback of `subst_action`: `lambda key: config_dict[key]`
(`re.sub` then requires the result to be a string). -/
def substLookup (config_dict : Dict) (name : String) : Except Err String :=
  match aget? config_dict name with
  | none => .error (.missingKey name)
  | some (.str s) => .ok s
  | some _ => .error (.typeErr "re.sub replacement must return a string")

/-- `subst_action`: substitute `${...}` in a string, or element-wise in a
list of strings. -/
def subst_action (config_dict : Dict) (key : String) (value : Val)
    (_params : MetaDirectiveParams) : Except Err Dict :=
  match value with
  | .str s => do
    let r ← subst_str s (substLookup config_dict)
    .ok (aset config_dict key (.str r))
  | .vlist xs => do
    let rs ← xs.mapM (fun x =>
      match x with
      | Val.str s => do
        let r ← subst_str s (substLookup config_dict)
        pure (Val.str r)
      | _ => .error (.typeErr "expected string or bytes-like object"))
    .ok (aset config_dict key (.vlist rs))
  | _ => .error (.typeErr "expected string or bytes-like object")

/-- `subst_targets`: every name matched by the expansion regex.  The source
asserts that the value is a string. -/
def subst_targets (_key : String) (value : Val) : Except Err (List String) :=
  match value with
  | .str s => .ok (scanNames s.data)
  | _ => .error (.assertionFailed "subst_targets: value must be a string")

/-- `subst_rename`. -/
def subst_rename (key : String) (value : Val) (target replacement : String) :
    Except Err (Option (Val × String)) :=
  match value with
  | .str s => do
    let ts ← subst_targets key (.str s)
    if target ∈ ts then do
      let nv ← subst_str s (fun k =>
        .ok (if k = target then "$\x7b" ++ replacement ++ "\x7d" else k))
      .ok (some (.str nv, "subst"))
    else
      .ok none
  | _ => .error (.assertionFailed "subst_rename: value must be a string")

/-- `crossref_action`: copy the value of the referenced setting(s); refuse
numbers and booleans. -/
def crossref_action (config_dict : Dict) (key : String) (value : Val)
    (_params : MetaDirectiveParams) : Except Err Dict :=
  match value with
  | .str s =>
    match aget? config_dict s with
    | none => .error (.missingKey s)
    | some v => .ok (aset config_dict key v)
  | .vlist xs => do
    let rs ← xs.mapM (fun x =>
      match x with
      | Val.str s =>
        match aget? config_dict s with
        | none => Except.error (Err.missingKey s)
        | some v => Except.ok v
      | _ => .error (.invalidValue
          "crossref (if used with lists) can only be used only with lists of strings"))
    .ok (aset config_dict key (.vlist rs))
  | .int _ | .bool _ =>
    .error (.invalidValue "crossref cannot be used with numbers and bools")
  | .null => .error (.notImplemented "crossref not implemented on other types yet")

/-- `crossref_targets`. -/
def crossref_targets (_key : String) (value : Val) : Except Err (List String) :=
  match value with
  | .str s => .ok [s]
  | .vlist xs =>
    xs.mapM (fun x =>
      match x with
      | Val.str s => Except.ok s
      | _ => .error (.invalidValue
          "crossref (if used with lists) can only be used only with lists of strings"))
  | .int _ | .bool _ =>
    .error (.invalidValue "crossref cannot be used with numbers and bools")
  | .null => .error (.notImplemented "crossref not implemented on other types yet")

/-- `crossref_rename`.  Note that the string case wraps the renamed reference
into a one-element list. -/
def crossref_rename (_key : String) (value : Val) (target replacement : String) :
    Except Err (Option (Val × String)) :=
  match value with
  | .str s =>
    .ok (some (.vlist [.str (if s = target then replacement else s)], "crossref"))
  | .vlist xs => do
    let rs ← xs.mapM (fun x =>
      match x with
      | Val.str s => Except.ok (Val.str (if s = target then replacement else s))
      | _ => .error (.invalidValue
          "crossref (if used with lists) can only be used only with lists of strings"))
    .ok (some (.vlist rs, "crossref"))
  | .int _ | .bool _ =>
    .error (.invalidValue "crossref cannot be used with numbers and bools")
  | .null => .error (.notImplemented "crossref not implemented on other types yet")

/-- `transclude_action`: read the file named by the value. -/
def transclude_action (ext : ExtEnv) (config_dict : Dict) (key : String) (value : Val)
    (_params : MetaDirectiveParams) : Except Err Dict :=
  match value with
  | .str path =>
    match ext.fs path with
    | some contents => .ok (aset config_dict key (.str contents))
    | none => .error (.ioErr path)
  | _ => .error (.assertionFailed "Path to file for transclusion must be a string")

/-- `transclude_rename`: no setting dependencies, value unchanged. -/
def transclude_rename (_key : String) (value : Val) (_target _replacement : String) :
    Except Err (Option (Val × String)) :=
  .ok (some (value, "transclude"))

/-- `json2list_action`: parse the value as JSON and require a list. -/
def json2list_action (ext : ExtEnv) (config_dict : Dict) (key : String) (value : Val)
    (_params : MetaDirectiveParams) : Except Err Dict :=
  match value with
  | .str s =>
    match ext.jparse s with
    | some (.vlist xs) => .ok (aset config_dict key (.vlist xs))
    | some _ => .error (.assertionFailed "json2list requires a JSON string that is a list")
    | none => .error (.invalidValue "json.loads: invalid JSON")
  | _ => .error (.assertionFailed "json2list requires a JSON string that is a list")

/-- `json2list_rename`: no setting dependencies, value unchanged. -/
def json2list_rename (_key : String) (value : Val) (_target _replacement : String) :
    Except Err (Option (Val × String)) :=
  .ok (some (value, "json2list"))

/-- `prependlocal_action`: prepend the local path of the config dict. -/
def prependlocal_action (config_dict : Dict) (key : String) (value : Val)
    (params : MetaDirectiveParams) : Except Err Dict :=
  match params.meta_path with
  | .str mp => .ok (aset config_dict key (.str (joinPath mp (pyStr value))))
  | _ => .error (.typeErr "os.path.join: expected str")

/-- `prependlocal_rename`: no setting dependencies, value unchanged. -/
def prependlocal_rename (_key : String) (value : Val) (_target _replacement : String) :
    Except Err (Option (Val × String)) :=
  .ok (some (value, "prependlocal"))

/-- A meta directive: `apply` action, dependency computation and rename, as
in the `MetaDirective` named tuple of the source. -/
structure MetaDirective where
  action : Dict → String → Val → MetaDirectiveParams → Except Err Dict
  target_settings : String → Val → Except Err (List String)
  rename_target : String → Val → String → String → Except Err (Option (Val × String))

/-- `get_meta_directives()`: the fixed registry, in source insertion order. -/
def get_meta_directives (ext : ExtEnv) : List (String × MetaDirective) :=
  [("append", ⟨append_action, fun key _ => .ok [key], append_rename⟩),
   ("crossappend", ⟨crossappend_action, crossappend_targets, crossappend_rename⟩),
   ("crossappendref",
     ⟨crossappendref_action, crossappendref_targets, crossappendref_rename⟩),
   ("subst", ⟨subst_action, subst_targets, subst_rename⟩),
   ("crossref", ⟨crossref_action, crossref_targets, crossref_rename⟩),
   ("transclude",
     ⟨transclude_action ext, fun _ _ => .ok [], transclude_rename⟩),
   ("json2list",
     ⟨json2list_action ext, fun _ _ => .ok [], json2list_rename⟩),
   ("prependlocal",
     ⟨prependlocal_action, fun _ _ => .ok [], prependlocal_rename⟩)]

/-- Registry lookup (`get_meta_directives()[name]` / `name in ...`). -/
def getDirective? (ext : ExtEnv) (name : String) : Option MetaDirective :=
  aget? (get_meta_directives ext) name

/-! ## The eager evaluator (`update_and_expand_meta`) -/

/-- `deepdict` (from `hammer_utils`, not under `src/`).
Modelled from the spec: provider dictionaries are "never mutated afterward"
and resolution is "pure over the layer snapshot"; a deep copy in a pure
embedding is the identity. -/
def deepdict (d : Dict) : Dict := d

/-- `_get_next_free_index`: read (creating it at 1 if needed) and increment
the `_next_free_index` counter of a dictionary. -/
def _get_next_free_index (d : Dict) : Except Err (Int × Dict) :=
  let d :=
    if (aget? d _NEXT_FREE_INDEX_KEY).isNone then
      aset d _NEXT_FREE_INDEX_KEY (.int 1)
    else d
  match aget? d _NEXT_FREE_INDEX_KEY with
  | some v => do
    let next_index ← pyInt v
    .ok (next_index, aset d _NEXT_FREE_INDEX_KEY (.int (next_index + 1)))
  | none => .error (.missingKey _NEXT_FREE_INDEX_KEY)

/-- One directive of the `for meta_type in meta_directives` loop of
`update_and_expand_meta`.  State: `(newdict, meta_dict, seen_lazy)`. -/
def processMetaType (ext : ExtEnv) (meta_key setting : String)
    (st : Dict × Dict × Bool) (mt : Val) : Except Err (Dict × Dict × Bool) :=
  let (newdict, meta_dict, seen_lazy) := st
  match mt with
  | .str meta_type =>
    if strStartsWith meta_type "dynamic" then
      .error (.invalidDirective
        "Dynamic meta directives were renamed to lazy meta directives after issue #134")
    else if strStartsWith meta_type "lazy" then
      match getDirective? ext (stripPrefixStr meta_type "lazy") with
      | none =>
        .error (.invalidDirective
          ("The type of lazy meta variable " ++ meta_key ++ " is not supported"))
      | some dir =>
        if seen_lazy then
          .error (.invalidDirective
            "Multiple lazy directives in a single directive array not supported yet")
        else
          match aget? meta_dict setting with
          | none => .error (.missingKey setting)
          | some mval => do
            let targets ← dir.target_settings setting mval
            if setting ∈ targets then do
              let (next_index, newdict) ← _get_next_free_index newdict
              let new_base_setting := setting ++ "_" ++ intRepr next_index
              let rn ← dir.rename_target setting mval setting new_base_setting
              match rn with
              | none => .error (.renameUnsupported setting)
              | some (new_value, new_meta) =>
                match aget? newdict setting with
                | none => .error (.missingKey setting)
                | some oldv =>
                  let upd := aset (aset (aset ([] : Dict) new_base_setting oldv)
                    setting new_value) (setting ++ "_meta") (.str ("lazy" ++ new_meta))
                  let upd :=
                    match aget? newdict (setting ++ "_meta") with
                    | some oldm => aset upd (new_base_setting ++ "_meta") oldm
                    | none => upd
                  .ok (dupdate newdict upd, meta_dict, true)
            else
              let upd := aset (aset ([] : Dict) setting mval)
                (setting ++ "_meta") (.str meta_type)
              .ok (dupdate newdict upd, meta_dict, true)
    else
      if seen_lazy then
        .error (.invalidDirective "Cannot use a non-lazy meta directive after a lazy one")
      else
        match getDirective? ext meta_type with
        | none =>
          .error (.invalidDirective
            ("The type of meta variable " ++ meta_key ++ " is not supported"))
        | some dir =>
          match aget? meta_dict setting with
          | none => .error (.missingKey setting)
          | some mval => do
            let params : MetaDirectiveParams :=
              ⟨(aget? meta_dict _CONFIG_PATH_KEY).getD (.str "unspecified")⟩
            let nd ← dir.action newdict setting mval params
            match aget? nd setting with
            | none => .error (.missingKey setting)
            | some nv => .ok (nd, aset meta_dict setting nv, seen_lazy)
  | _ => .error (.invalidDirective ("meta_type was not a string"))

/-- One meta key of the `for meta_key in meta_keys` loop of
`update_and_expand_meta`.  State: `(newdict, meta_dict)`. -/
def processMetaKey (ext : ExtEnv) (st : Dict × Dict) (meta_key : String) :
    Except Err (Dict × Dict) :=
  let (newdict, meta_dict) := st
  match aget? meta_dict meta_key with
  | none => .error (.missingKey meta_key)
  | some mt => do
    let meta_directives ←
      match mt with
      | .str s => Except.ok [Val.str s]
      | .vlist l => Except.ok l
      | _ => Except.error (Err.invalidValue
          "A meta directive must either be a string or a list of strings")
    let setting := stripSuffixStr meta_key "_meta"
    let (nd, md, _) ← meta_directives.foldlM
      (processMetaType ext meta_key setting) (newdict, meta_dict, false)
    let md ← ddel md meta_key
    let md ← ddel md setting
    .ok (nd, md)

/-- `update_and_expand_meta(config_dict, meta_dict)`: expand the eager meta
directives of `meta_dict` on top of `config_dict`. -/
def update_and_expand_meta (ext : ExtEnv) (config_dict meta_dict : Dict) :
    Except Err Dict := do
  let newdict := deepdict config_dict
  let meta_dict := deepdict meta_dict
  let meta_keys := (akeys meta_dict).filter (fun k => strEndsWith k "_meta")
  let (nd, md) ← meta_keys.foldlM (processMetaKey ext) (newdict, meta_dict)
  .ok (dupdate nd (deepdict md))

/-! ## The lazy scheduler (`combine_configs`) -/

/-- The dependency graph of lazy settings:
`setting ↦ (outgoing targets, incoming dependencies)`; an edge `t → s` means
`s` depends on `t` (as in the source: `graph[t][0]` lists dependents of `t`,
`graph[s][1]` lists the dependencies of `s`). -/
abbrev GDict := List (String × (List String × List String))

/-- `graph[t][0].append(s)` (node previously ensured by the source). -/
def gAppendOut (g : GDict) (t s : String) : GDict :=
  match aget? g t with
  | some (o, i) => aset g t (o ++ [s], i)
  | none => g

/-- `graph[s][1].append(t)` (node previously ensured by the source). -/
def gAppendIn (g : GDict) (s t : String) : GDict :=
  match aget? g s with
  | some (o, i) => aset g s (o, i ++ [t])
  | none => g

/-- One meta key of the lazy-collection loop of `combine_configs` (lines
740-773 of the source).  State: `(expanded_config, lazy_metas, graph)`;
`orig` is the untouched snapshot `expanded_config_orig`. -/
def build_lazy_step (ext : ExtEnv) (orig : Dict)
    (st : Dict × Dict × GDict) (meta_key : String) :
    Except Err (Dict × Dict × GDict) :=
  let (expanded, lazy_metas, graph) := st
  match aget? expanded meta_key with
  | none => .error (.missingKey meta_key)
  | some lv =>
    match lv with
    | .str lazy_meta_type =>
      if ¬ strStartsWith lazy_meta_type "lazy" then
        .error (.assertionFailed "Should have only lazy metas left now")
      else
        let meta_type := stripPrefixStr lazy_meta_type "lazy"
        let setting := stripSuffixStr meta_key "_meta"
        let lazy_metas := aset lazy_metas meta_key (.str meta_type)
        match aget? expanded setting with
        | none => .error (.missingKey setting)
        | some sv =>
          let lazy_metas := aset lazy_metas setting sv
          let graph :=
            if (aget? graph setting).isNone then aset graph setting ([], [])
            else graph
          match getDirective? ext meta_type with
          | none => .error (.missingKey meta_type)
          | some dir => do
            let targets ← dir.target_settings setting sv
            let graph := targets.foldl (fun g target_var =>
              if (aget? orig (target_var ++ "_meta")).isSome then
                let g :=
                  if (aget? g target_var).isNone then aset g target_var ([], [])
                  else g
                gAppendIn (gAppendOut g target_var setting) setting target_var
              else g) graph
            let expanded ← ddel expanded meta_key
            let expanded ← ddel expanded setting
            .ok (expanded, lazy_metas, graph)
    | _ => .error (.typeErr "startswith: expected str")

/-- The lazy-collection loop of `combine_configs`: strip every remaining
`_meta` key into `lazy_metas` and build the dependency graph. -/
def build_lazy_state (ext : ExtEnv) (expanded_config : Dict) :
    Except Err (Dict × Dict × GDict) :=
  let orig := deepdict expanded_config
  let meta_keys := (akeys expanded_config).filter (fun k => strEndsWith k "_meta")
  meta_keys.foldlM (build_lazy_step ext orig) (expanded_config, [], [])

/-- Insertion of a string into a sorted list (ascending). -/
def insertSorted (x : String) : List String → List String
  | [] => [x]
  | y :: ys => if x ≤ y then x :: y :: ys else y :: insertSorted x ys

/-- Python `sorted` on a list of strings. -/
def sortStrings (l : List String) : List String := l.foldr insertSorted []

/-- The in-degree-zero nodes of the graph, sorted alphabetically (lines
777-781 of the source). -/
def starting_nodes (graph : GDict) : List String :=
  sortStrings ((graph.filter (fun kv => kv.2.2.isEmpty)).map Prod.fst)

/-- Kahn worklist: pop the head of the queue, decrement the in-degrees of
its dependents, enqueue those that reach zero. -/
def kahnGo (g : GDict) : Nat → List String → List (String × Nat) → List String
  | 0, _, _ => []
  | _ + 1, [], _ => []
  | fuel + 1, q :: qs, indeg =>
    let outs := match aget? g q with | some (o, _) => o | none => []
    let step := outs.foldl (fun (acc : List (String × Nat) × List String) t =>
      let n := ((aget? acc.1 t).getD 1) - 1
      (aset acc.1 t n, if n = 0 then acc.2 ++ [t] else acc.2)) (indeg, [])
    q :: kahnGo g fuel (qs ++ step.2) step.1

/-- `topological_sort` (from `hammer_utils`, not under `src/`).
Modelled from the spec: "Topologically sort using Kahn's algorithm, breaking
ties by the pre-sorted order" — a FIFO worklist seeded with the pre-sorted
start nodes. -/
def topological_sort (graph : GDict) (starting : List String) : List String :=
  let indeg := graph.map (fun kv => (kv.1, kv.2.2.length))
  let fuel := starting.length + (graph.map (fun kv => kv.2.1.length)).sum + 1
  kahnGo graph fuel starting indeg

/-- `combine_meta(config_dict, meta_setting)`: re-enter the eager evaluator
on the single-setting provider recorded in `lazy_metas`. -/
def combine_meta (ext : ExtEnv) (lazy_metas : Dict) (config_dict : Dict)
    (meta_setting : String) : Except Err Dict :=
  match aget? lazy_metas meta_setting,
        aget? lazy_metas (meta_setting ++ "_meta") with
  | none, _ => .error (.missingKey meta_setting)
  | _, none => .error (.missingKey (meta_setting ++ "_meta"))
  | some v, some m =>
    update_and_expand_meta ext config_dict
      (aset (aset ([] : Dict) meta_setting v) (meta_setting ++ "_meta") m)

/-- `combine_configs(configs)`: fold the configs through the eager
evaluator, then resolve the remaining lazy directives in topological order
and strip the reserved internal keys. -/
def combine_configs (ext : ExtEnv) (configs : List Dict) : Except Err Dict := do
  let expanded_config_reduce ← configs.foldlM (update_and_expand_meta ext) []
  let expanded_config := deepdict expanded_config_reduce
  let (expanded, lazy_metas, graph) ← build_lazy_state ext expanded_config
  let final_dict ←
    if 0 < graph.length then
      let starting := starting_nodes graph
      if starting.length = 0 then Except.error Err.lazyCycle
      else
        let settings_ordered := topological_sort graph starting
        settings_ordered.foldlM (combine_meta ext lazy_metas) expanded
    else Except.ok (deepdict expanded)
  .ok (aerase (aerase final_dict _CONFIG_PATH_KEY) _NEXT_FREE_INDEX_KEY)

/-! ## The layered database -/

/-- `HammerDatabase`: seven ordered layers (runtime is a single dictionary). -/
structure HammerDatabase where
  builtins : List Dict
  core : List Dict
  tools : List Dict
  technology : List Dict
  environment : List Dict
  project : List Dict
  runtime : Dict
deriving DecidableEq

/-- `HammerDatabase.internal_keys()`: keys that must not show up in any
final config. -/
def internal_keys : List String := [_CONFIG_PATH_KEY, _NEXT_FREE_INDEX_KEY]

/-- `HammerDatabase.get_config()`: combine an empty seed with all layers in
precedence order.  (The memoising cache of the source is pure-functionally
invisible.) -/
def HammerDatabase.get_config (ext : ExtEnv) (db : HammerDatabase) :
    Except Err Dict :=
  combine_configs ext
    ([[]] ++ db.builtins ++ db.core ++ db.tools ++ db.technology ++
      db.environment ++ db.project ++ [db.runtime])

/-! ## JSON dump (`get_database_json`)

`json.dumps(..., sort_keys=True, indent=4, separators=(',', ': '))`: only
the key-sorting is semantically relevant here; the rendering of scalars is a
faithful-in-spirit serialisation of the external `json` module. -/

/-- JSON string escaping (quotes and backslashes). -/
def jsonEscape (s : String) : String :=
  ⟨s.data.foldr (fun c acc =>
    if c = '"' ∨ c = '\\' then '\\' :: c :: acc else c :: acc) []⟩

mutual

/-- Serialise one value. -/
def jsonVal : Val → String
  | .null => "null"
  | .bool b => if b then "true" else "false"
  | .int n => intRepr n
  | .str s => "\"" ++ jsonEscape s ++ "\""
  | .vlist xs => "[" ++ jsonValList xs ++ "]"

/-- Serialise list elements, comma-separated. -/
def jsonValList : List Val → String
  | [] => ""
  | [x] => jsonVal x
  | x :: y :: rest => jsonVal x ++ ", " ++ jsonValList (y :: rest)

end

/-- Insertion of an entry into a key-sorted association list. -/
def insortPair (p : String × Val) : Dict → Dict
  | [] => [p]
  | q :: qs => if p.1 ≤ q.1 then p :: q :: qs else q :: insortPair p qs

/-- `sort_keys=True`: the entries sorted by key. -/
def sortPairsByKey (d : Dict) : Dict := d.foldr insortPair []

/-- The JSON dump of a resolved mapping, keys sorted. -/
def dumpJson (d : Dict) : String :=
  "\x7b" ++ String.intercalate ", "
    ((sortPairsByKey d).map (fun kv => "\"" ++ jsonEscape kv.1 ++ "\": " ++ jsonVal kv.2))
    ++ "\x7d"

/-- `HammerDatabase.get_database_json()`. -/
def HammerDatabase.get_database_json (ext : ExtEnv) (db : HammerDatabase) :
    Except Err String :=
  (db.get_config ext).map dumpJson

/-! ## The flattener (`unpack` / `reverse_unpack`)

Un-flattened configuration trees: leaves are flat values, nodes are nested
(insertion-ordered) mappings. -/

mutual

/-- A nested configuration value. -/
inductive NVal where
  | leaf : Val → NVal
  | node : NObj → NVal

/-- A nested mapping: ordered list of key/value entries. -/
inductive NObj where
  | nil : NObj
  | cons (k : String) (v : NVal) (rest : NObj) : NObj

end

mutual

/-- Decidable equality of nested values. -/
def NVal.decEq : (a b : NVal) → Decidable (a = b)
  | .leaf x, .leaf y =>
    if h : x = y then isTrue (by rw [h]) else isFalse (by intro hc; cases hc; exact h rfl)
  | .node x, .node y =>
    match NObj.decEq x y with
    | isTrue h => isTrue (by rw [h])
    | isFalse h => isFalse (by intro hc; cases hc; exact h rfl)
  | .leaf _, .node _ => isFalse nofun
  | .node _, .leaf _ => isFalse nofun

/-- Decidable equality of nested mappings. -/
def NObj.decEq : (a b : NObj) → Decidable (a = b)
  | .nil, .nil => isTrue rfl
  | .nil, .cons _ _ _ => isFalse nofun
  | .cons _ _ _, .nil => isFalse nofun
  | .cons k v r, .cons k' v' r' =>
    if hk : k = k' then
      match NVal.decEq v v', NObj.decEq r r' with
      | isTrue h1, isTrue h2 => isTrue (by rw [hk, h1, h2])
      | isFalse h1, _ => isFalse (by intro hc; injection hc; exact h1 (by assumption))
      | _, isFalse h2 => isFalse (by intro hc; injection hc; exact h2 (by assumption))
    else isFalse (by intro hc; injection hc; exact hk (by assumption))

end

instance : DecidableEq NVal := NVal.decEq

instance : DecidableEq NObj := NObj.decEq

/-- Lookup in a nested mapping. -/
def olookup : NObj → String → Option NVal
  | .nil, _ => none
  | .cons k' v rest, k => if k' = k then some v else olookup rest k

/-- Assignment into a nested mapping (replace in place or append). -/
def oset : NObj → String → NVal → NObj
  | .nil, k, v => .cons k v .nil
  | .cons k' v' rest, k, v =>
    if k' = k then .cons k v rest else .cons k' v' (oset rest k v)

/-- The keys of a nested mapping. -/
def okeys : NObj → List String
  | .nil => []
  | .cons k _ rest => k :: okeys rest

mutual

/-- The entry loop of `unpack`: walk the entries of `config_dict`,
accumulating `output_dict`. -/
def unpackGo (pre : String) (o : NObj) (acc : Dict) : Dict :=
  match o with
  | .nil => acc
  | .cons k v rest => unpackGo pre rest (unpackEntry pre k v acc)

/-- One entry of `unpack`: recurse into mapping values
(updating `output_dict` with the recursive flattening under the extended
dotted prefix), emit the dotted key otherwise. -/
def unpackEntry (pre : String) (k : String) (v : NVal) (acc : Dict) : Dict :=
  let real_pre := if pre = "" then "" else pre ++ "."
  match v with
  | .leaf w => aset acc (real_pre ++ k) w
  | .node sub => dupdate acc (unpackGo (real_pre ++ k) sub [])

end

/-- `unpack(config_dict, prefix="")`: flatten a nested mapping into dotted
keys. -/
def unpack (config_dict : NObj) (pre : String) : Dict :=
  unpackGo pre config_dict []

/-- `key.split(".")` on character lists; always returns at least one
segment (Python `"".split(".") == [""]`). -/
def splitDot : List Char → List (List Char)
  | [] => [[]]
  | c :: rest =>
    match splitDot rest with
    | [] => [[c]]
    | h :: t => if c = '.' then [] :: h :: t else (c :: h) :: t

/-- `key.split(".")` on strings. -/
def splitDotStr (s : String) : List String := (splitDot s.data).map String.mk

/-- `get_subdict` + final assignment of `reverse_unpack`: descend along
`dirs` (creating empty sub-mappings), then assign `last := v` in the
containing mapping.  Descending through a non-mapping raises (Python
`TypeError`). -/
def insertPath (o : NObj) (dirs : List String) (last : String) (v : Val) :
    Except Err NObj :=
  match dirs with
  | [] => .ok (oset o last (.leaf v))
  | p :: rest =>
    match olookup o p with
    | none => do
      let s ← insertPath .nil rest last v
      .ok (oset o p (.node s))
    | some (.node s) => do
      let s' ← insertPath s rest last v
      .ok (oset o p (.node s'))
    | some (.leaf _) => .error (.typeErr "item assignment on non-dict")

/-- The per-entry body of `reverse_unpack`.  (The
`assert False, "Cannot have blank key"` branch of the source is
unreachable: `split` always returns a non-empty list.) -/
def runpackStep (o : NObj) (kv : String × Val) : Except Err NObj :=
  match splitDotStr kv.1 with
  | [] => .error .blankKey
  | parts@(_ :: _) => insertPath o (parts.dropLast) (parts.getLast (by simp_all)) kv.2

/-- `reverse_unpack(input_dict)`: rebuild the nested mapping from dotted
keys, one entry at a time. -/
def reverse_unpack (input_dict : Dict) : Except Err NObj :=
  input_dict.foldlM runpackStep .nil

/-! ## Association-list lemmas -/

instance {ε : Type u} {α : Type u} [DecidableEq ε] [DecidableEq α] :
    DecidableEq (Except ε α) := fun a b =>
  match a, b with
  | .ok x, .ok y =>
    if h : x = y then isTrue (by rw [h])
    else isFalse (by intro hc; cases hc; exact h rfl)
  | .error x, .error y =>
    if h : x = y then isTrue (by rw [h])
    else isFalse (by intro hc; cases hc; exact h rfl)
  | .ok _, .error _ => isFalse nofun
  | .error _, .ok _ => isFalse nofun

/-- A trivial external environment (no readable files, no parseable JSON). -/
def noExt : ExtEnv := ⟨fun _ => none, fun _ => none⟩

/-! ## Claim C9: which directive lists raise invalid-directive -/

/-- Recogniser for the specification's invalid-directive error kind. -/
def isInvalidDirective : Err → Bool
  | .invalidDirective _ => true
  | _ => false

/-- A directive list free of the five invalid-directive conditions: every
entry a string, no `dynamic*` prefix, every name registered (after
stripping `lazy`), at most one lazy directive, and no directive after a
lazy one. -/
def goodEntries (ext : ExtEnv) : List Val → Bool
  | [] => true
  | Val.str n :: rest =>
    if strStartsWith n "dynamic" then false
    else if strStartsWith n "lazy" then
      (getDirective? ext (stripPrefixStr n "lazy")).isSome && rest.isEmpty
    else (getDirective? ext n).isSome && goodEntries ext rest
  | _ :: _ => false

/-- A meta value (a directive name or list of names) free of the five
invalid-directive conditions. -/
def goodDirectives (ext : ExtEnv) (v : Val) : Bool :=
  match v with
  | .str n => goodEntries ext [Val.str n]
  | .vlist l => goodEntries ext l
  | _ => false

def lazyMetasGood (ext : ExtEnv) (lm : Dict) : Prop :=
  ∀ k v, strEndsWith k "_meta" = true → aget? lm k = some v →
    ∃ n, v = Val.str n ∧ (getDirective? ext n).isSome = true

mutual

/-- Size of a nested value (for strong induction). -/
def NVal.osize : NVal → Nat
  | .leaf _ => 1
  | .node o => 1 + NObj.osize o

/-- Size of a nested mapping (for strong induction). -/
def NObj.osize : NObj → Nat
  | .nil => 0
  | .cons _ v rest => 1 + NVal.osize v + NObj.osize rest

end

/-- A key fit for round-tripping: non-blank, dot-free and not reserved. -/
def goodKey (k : String) : Bool :=
  !(k == "") && !(k.data.contains '.') && !(internal_keys.contains k)

mutual

/-- A nested value fit for round-tripping (no empty sub-mappings). -/
def goodNVal : NVal → Bool
  | .leaf _ => true
  | .node .nil => false
  | .node o => goodNObj o

/-- A nested mapping fit for round-tripping: good keys, no duplicate keys
at any level, no empty sub-mappings. -/
def goodNObj : NObj → Bool
  | .nil => true
  | .cons k v rest =>
    goodKey k && !((okeys rest).contains k) && goodNVal v && goodNObj rest

end

/-- Join path components with dots (inverse of `splitDotStr` on dot-free
components). -/
def joinDots : List String → String
  | [] => ""
  | a :: rest =>
    match rest with
    | [] => a
    | _ :: _ => a ++ "." ++ joinDots rest

mutual

/-- The flattened entries contributed by one nested entry under path `P`. -/
def flatEntriesVal (P : List String) (k : String) : NVal → Dict
  | .leaf w => [(joinDots (P ++ [k]), w)]
  | .node sub => flatEntries (P ++ [k]) sub

/-- The flattened entries of a nested mapping under path `P`. -/
def flatEntries (P : List String) : NObj → Dict
  | .nil => []
  | .cons k v rest => flatEntriesVal P k v ++ flatEntries P rest

end

/-- Concatenation of the entries of two nested mappings. -/
def oAppend : NObj → NObj → NObj
  | .nil, y => y
  | .cons k v rest, y => .cons k v (oAppend rest y)

/-- Descending along `P` never passes through a leaf (missing keys are
fine: insertion creates them). -/
def descends : NObj → List String → Bool
  | _, [] => true
  | o, p :: P =>
    match olookup o p with
    | none => true
    | some (.node s) => descends s P
    | some (.leaf _) => false

/-- The sub-mapping sitting at path `P` (empty where the path is absent). -/
def objAt : NObj → List String → NObj
  | o, [] => o
  | o, p :: P =>
    match olookup o p with
    | none => .nil
    | some (.node s) => objAt s P
    | some (.leaf _) => .nil

/-- Append the entries of `x` to the sub-mapping at path `P` (creating the
path if absent); grafting an empty mapping is a no-op. -/
def graftAt : NObj → List String → NObj → NObj
  | o, _, .nil => o
  | o, [], x => oAppend o x
  | o, p :: P, x =>
    match olookup o p with
    | none => oset o p (.node (graftAt .nil P x))
    | some (.node s) => oset o p (.node (graftAt s P x))
    | some (.leaf _) => o

/-- A path of non-blank, dot-free components. -/
def goodPath (P : List String) : Prop :=
  ∀ c ∈ P, ¬ c = "" ∧ '.' ∉ c.data

/-! ## Theorems -/

theorem aget?_aset_self {β : Type u} (d : List (String × β)) (k : String) (v : β) :
    aget? (aset d k v) k = some v := by
  induction d with
  | nil => simp [aget?, aset]
  | cons p rest ih =>
    obtain ⟨k', v'⟩ := p
    by_cases h : k' = k <;> simp [aget?, aset, h, ih]

theorem aget?_aset_ne {β : Type u} (d : List (String × β)) {k k' : String} (v : β)
    (h : k' ≠ k) : aget? (aset d k v) k' = aget? d k' := by
  have hkk : ¬ (k = k') := fun hc => h hc.symm
  induction d with
  | nil => simp [aget?, aset, hkk]
  | cons p rest ih =>
    obtain ⟨k0, v0⟩ := p
    by_cases h0 : k0 = k
    · subst h0; simp [aget?, aset, hkk]
    · simp [aget?, aset, h0, ih]

theorem mem_akeys_aset {β : Type u} {d : List (String × β)} {k a : String} {v : β} :
    a ∈ akeys (aset d k v) ↔ a ∈ akeys d ∨ a = k := by
  induction d with
  | nil => simp [akeys, aset]
  | cons p rest ih =>
    obtain ⟨k0, v0⟩ := p
    by_cases h0 : k0 = k
    · subst h0; simp [akeys, aset]; tauto
    · simp [akeys, aset, h0] at ih ⊢; rw [ih]; tauto

theorem mem_akeys {β : Type u} {d : List (String × β)} {a : String} :
    a ∈ akeys d ↔ ∃ b, (a, b) ∈ d := by
  simp only [akeys, List.mem_map]
  constructor
  · rintro ⟨⟨x, y⟩, hm, rfl⟩; exact ⟨y, hm⟩
  · rintro ⟨b, hb⟩; exact ⟨(a, b), hb, rfl⟩

theorem nodupKeys_cons {β : Type u} {d : List (String × β)} {k : String} {v : β} :
    NodupKeys ((k, v) :: d) ↔ k ∉ akeys d ∧ NodupKeys d := by
  simp [NodupKeys, akeys]

theorem akeys_aset_of_isSome {β : Type u} {d : List (String × β)} {k : String} (v : β)
    (h : (aget? d k).isSome) : akeys (aset d k v) = akeys d := by
  induction d with
  | nil => simp [aget?] at h
  | cons p rest ih =>
    obtain ⟨k0, v0⟩ := p
    by_cases h0 : k0 = k
    · subst h0; simp [akeys, aset]
    · simp only [aget?, h0, if_false] at h
      have := ih h
      simp only [akeys, aset, h0, if_false, List.map_cons] at this ⊢
      rw [this]

theorem mem_aset {β : Type u} {d : List (String × β)} {k a : String} {v b : β}
    (h : (a, b) ∈ aset d k v) : (a = k ∧ b = v) ∨ (a, b) ∈ d := by
  induction d with
  | nil => simp [aset] at h; tauto
  | cons p rest ih =>
    obtain ⟨k0, v0⟩ := p
    by_cases h0 : k0 = k
    · subst h0; simp [aset] at h; tauto
    · simp only [aset, h0, if_false, List.mem_cons] at h
      rcases h with h | h
      · simp [h]
      · rcases ih h with h1 | h1 <;> simp [h1]

theorem nodup_aset {β : Type u} {d : List (String × β)} (k : String) (v : β)
    (h : NodupKeys d) : NodupKeys (aset d k v) := by
  induction d with
  | nil => simp [NodupKeys, akeys, aset]
  | cons p rest ih =>
    obtain ⟨k0, v0⟩ := p
    rw [nodupKeys_cons] at h
    by_cases h0 : k0 = k
    · subst h0
      simp only [aset, if_pos rfl]
      exact nodupKeys_cons.2 h
    · simp only [aset, h0, if_false]
      refine nodupKeys_cons.2 ⟨?_, ih h.2⟩
      intro hc
      rcases mem_akeys_aset.1 hc with hc | hc
      · exact h.1 hc
      · exact h0 hc

theorem mem_aerase {β : Type u} {d : List (String × β)} {k a : String} {b : β}
    (h : (a, b) ∈ aerase d k) : (a, b) ∈ d := by
  induction d with
  | nil => simp [aerase] at h
  | cons p rest ih =>
    obtain ⟨k0, v0⟩ := p
    by_cases h0 : k0 = k
    · subst h0; simp [aerase] at h; simp [h]
    · simp only [aerase, h0, if_false, List.mem_cons] at h
      rcases h with h | h
      · simp [h]
      · simp [ih h]

theorem akeys_aerase_subset {β : Type u} {d : List (String × β)} {k a : String}
    (h : a ∈ akeys (aerase d k)) : a ∈ akeys d := by
  rw [mem_akeys] at h ⊢
  obtain ⟨b, hb⟩ := h
  exact ⟨b, mem_aerase hb⟩

theorem nodup_aerase {β : Type u} {d : List (String × β)} (k : String)
    (h : NodupKeys d) : NodupKeys (aerase d k) := by
  induction d with
  | nil => simp [NodupKeys, akeys, aerase]
  | cons p rest ih =>
    obtain ⟨k0, v0⟩ := p
    rw [nodupKeys_cons] at h
    by_cases h0 : k0 = k
    · subst h0; simp only [aerase, if_pos rfl]; exact h.2
    · simp only [aerase, h0, if_false]
      refine nodupKeys_cons.2 ⟨?_, ih h.2⟩
      intro hc
      exact h.1 (akeys_aerase_subset hc)

theorem not_mem_akeys_aerase {β : Type u} {d : List (String × β)} {k : String}
    (h : NodupKeys d) : k ∉ akeys (aerase d k) := by
  induction d with
  | nil => simp [akeys, aerase]
  | cons p rest ih =>
    obtain ⟨k0, v0⟩ := p
    rw [nodupKeys_cons] at h
    by_cases h0 : k0 = k
    · subst h0; simp only [aerase, if_pos rfl]; exact h.1
    · simp only [aerase, h0, if_false, akeys, List.map_cons, List.mem_cons]
      rintro (hc | hc)
      · exact h0 hc.symm
      · exact ih h.2 hc

theorem aget?_eq_none_iff {β : Type u} {d : List (String × β)} {k : String} :
    aget? d k = none ↔ k ∉ akeys d := by
  induction d with
  | nil => simp [aget?, akeys]
  | cons p rest ih =>
    obtain ⟨k0, v0⟩ := p
    by_cases h0 : k0 = k
    · subst h0; simp [aget?, akeys]
    · simp only [aget?, h0, if_false, akeys, List.map_cons, List.mem_cons]
      rw [ih]
      simp only [akeys]
      constructor
      · rintro hn (hc | hc)
        · exact h0 hc.symm
        · exact hn hc
      · intro hn hc
        exact hn (Or.inr hc)

theorem aget?_mem {β : Type u} {d : List (String × β)} {k : String} {v : β}
    (h : aget? d k = some v) : (k, v) ∈ d := by
  induction d with
  | nil => simp [aget?] at h
  | cons p rest ih =>
    obtain ⟨k0, v0⟩ := p
    by_cases h0 : k0 = k
    · subst h0; simp [aget?] at h; simp [h]
    · simp only [aget?, h0, if_false] at h
      simp [ih h]

theorem aget?_isSome_iff {β : Type u} {d : List (String × β)} {k : String} :
    (aget? d k).isSome ↔ k ∈ akeys d := by
  rcases h : aget? d k with _ | v
  · simpa using aget?_eq_none_iff.1 h
  · simp only [Option.isSome_some, true_iff]
    exact mem_akeys.2 ⟨v, aget?_mem h⟩

theorem aset_fresh {β : Type u} {d : List (String × β)} {k : String} (v : β)
    (h : aget? d k = none) : aset d k v = d ++ [(k, v)] := by
  induction d with
  | nil => simp [aset]
  | cons p rest ih =>
    obtain ⟨k0, v0⟩ := p
    by_cases h0 : k0 = k
    · subst h0; simp [aget?] at h
    · simp only [aget?, h0, if_false] at h
      simp [aset, h0, ih h]

theorem dupdate_nil (d : Dict) : dupdate d [] = d := rfl

theorem dupdate_cons (d : Dict) (p : String × Val) (u : Dict) :
    dupdate d (p :: u) = dupdate (aset d p.1 p.2) u := rfl

theorem mem_dupdate {d u : Dict} {a : String} {b : Val}
    (h : (a, b) ∈ dupdate d u) : (a, b) ∈ d ∨ (a, b) ∈ u := by
  induction u generalizing d with
  | nil => simp [dupdate] at h; simp [h]
  | cons p u ih =>
    rw [dupdate_cons] at h
    rcases ih h with h1 | h1
    · rcases mem_aset h1 with h2 | h2
      · right; obtain ⟨p1, p2⟩ := p; simp at h2; simp [h2]
      · simp [h2]
    · simp [h1]

theorem nodup_dupdate {d u : Dict} (h : NodupKeys d) : NodupKeys (dupdate d u) := by
  induction u generalizing d with
  | nil => simpa [dupdate] using h
  | cons p u ih => rw [dupdate_cons]; exact ih (nodup_aset _ _ h)

theorem aget?_dupdate_of_not_mem {d u : Dict} {k : String}
    (h : k ∉ akeys u) : aget? (dupdate d u) k = aget? d k := by
  induction u generalizing d with
  | nil => rfl
  | cons p u ih =>
    simp only [akeys, List.map_cons, List.mem_cons] at h
    push_neg at h
    rw [dupdate_cons, ih h.2, aget?_aset_ne _ _ h.1]

theorem aget?_dupdate_of_mem {d u : Dict} {k : String} {v : Val}
    (hn : NodupKeys u) (h : (k, v) ∈ u) : aget? (dupdate d u) k = some v := by
  induction u generalizing d with
  | nil => simp at h
  | cons p u ih =>
    obtain ⟨p1, p2⟩ := p
    rw [nodupKeys_cons] at hn
    rcases List.mem_cons.1 h with h1 | h1
    · cases h1
      rw [dupdate_cons, aget?_dupdate_of_not_mem hn.1, aget?_aset_self]
    · rw [dupdate_cons]
      exact ih hn.2 h1

theorem mem_akeys_dupdate {d u : Dict} {a : String}
    (h : a ∈ akeys (dupdate d u)) : a ∈ akeys d ∨ a ∈ akeys u := by
  rw [mem_akeys] at h
  obtain ⟨b, hb⟩ := h
  rcases mem_dupdate hb with h1 | h1
  · exact Or.inl (mem_akeys.2 ⟨b, h1⟩)
  · exact Or.inr (mem_akeys.2 ⟨b, h1⟩)

/-! ## String-suffix and prefix lemmas -/

theorem string_mk_data (s : String) : (⟨s.data⟩ : String) = s := by cases s; rfl

theorem string_data_mk (l : List Char) : (⟨l⟩ : String).data = l := rfl

theorem strEndsWith_iff {s p : String} : strEndsWith s p ↔ p.data <:+ s.data := by
  simp [strEndsWith, List.isSuffixOf_iff_suffix]

theorem strStartsWith_iff {s p : String} : strStartsWith s p ↔ p.data <+: s.data := by
  simp [strStartsWith, List.isPrefixOf_iff_prefix]

theorem strEndsWith_append (s p : String) : strEndsWith (s ++ p) p := by
  rw [strEndsWith_iff, String.data_append]
  exact List.suffix_append _ _

theorem stripSuffix_append (s p : String) : stripSuffixStr (s ++ p) p = s := by
  simp only [stripSuffixStr, String.data_append, List.length_append]
  have : s.data.length + p.data.length - p.data.length = s.data.length := by omega
  rw [this, List.take_left]

theorem strEndsWith_decompose {s p : String} (h : strEndsWith s p) :
    stripSuffixStr s p ++ p = s := by
  rw [strEndsWith_iff] at h
  obtain ⟨pre, hpre⟩ := h
  have hs : s = (⟨pre⟩ : String) ++ p := by
    apply String.ext
    rw [String.data_append, string_data_mk, hpre]
  rw [hs, stripSuffix_append]

theorem strStartsWith_append (p s : String) : strStartsWith (p ++ s) p := by
  rw [strStartsWith_iff, String.data_append]
  exact List.prefix_append _ _

theorem stripPrefix_append (p s : String) : stripPrefixStr (p ++ s) p = s := by
  simp only [stripPrefixStr, String.data_append, List.drop_left]

theorem strStartsWith_decompose {s p : String} (h : strStartsWith s p) :
    p ++ stripPrefixStr s p = s := by
  rw [strStartsWith_iff] at h
  obtain ⟨post, hpost⟩ := h
  have hs : s = p ++ (⟨post⟩ : String) := by
    apply String.ext
    rw [String.data_append, string_data_mk, hpost]
  rw [hs, stripPrefix_append]

theorem ne_append_of_ne_empty {s p : String} (h : p.data ≠ []) : s ≠ s ++ p := by
  intro hc
  have : s.data = s.data ++ p.data := by rw [← String.data_append, ← hc]
  have hl := congrArg List.length this
  rw [List.length_append] at hl
  have hp : p.data.length = 0 := by omega
  exact h (List.length_eq_zero.1 hp)

theorem self_ne_meta (s : String) : s ≠ s ++ "_meta" :=
  ne_append_of_ne_empty (by decide)

/-- Ends-with is preserved by prepending. -/
theorem strEndsWith_append_left {t p : String} (s : String)
    (h : strEndsWith t p) : strEndsWith (s ++ t) p := by
  rw [strEndsWith_iff] at h ⊢
  rw [String.data_append]
  exact h.trans (List.suffix_append _ _)

/-- A non-empty suffix determines the last element. -/
theorem getLast?_of_suffix {l s : List Char} (h : s <:+ l) (hne : s ≠ []) :
    l.getLast? = s.getLast? := by
  obtain ⟨pre, hpre⟩ := h
  rw [← hpre]
  exact List.getLast?_append_of_ne_nil pre hne

/-! ## Digits: the synthesised key `setting_N` never ends in `_meta` -/

theorem digitChar_isDigit {n : Nat} (h : n < 10) : (digitChar n).isDigit := by
  interval_cases n <;> decide

theorem natCharsGo_last {fuel n : Nat} (hf : 0 < fuel) :
    ∃ m, m < 10 ∧ (natCharsGo fuel n).getLast? = some (digitChar m) := by
  induction fuel generalizing n with
  | zero => omega
  | succ fuel ih =>
    by_cases h : n < 10
    · exact ⟨n, h, by simp [natCharsGo, h]⟩
    · refine ⟨n % 10, Nat.mod_lt _ (by omega), ?_⟩
      simp [natCharsGo, h, List.getLast?_append_of_ne_nil]

theorem natChars_last (n : Nat) :
    ∃ m, m < 10 ∧ (natChars n).getLast? = some (digitChar m) := by
  exact natCharsGo_last (by omega)

theorem natChars_ne_nil (n : Nat) : natChars n ≠ [] := by
  obtain ⟨m, _, hl⟩ := natChars_last n
  intro hc
  rw [hc] at hl
  simp at hl

theorem intRepr_last (i : Int) :
    ∃ m, m < 10 ∧ (intRepr i).data.getLast? = some (digitChar m) := by
  unfold intRepr
  by_cases h : i < 0
  · obtain ⟨m, hm, hl⟩ := natChars_last i.natAbs
    refine ⟨m, hm, ?_⟩
    simp only [h, if_true, string_data_mk]
    rw [show ('-' :: natChars i.natAbs) = ['-'] ++ natChars i.natAbs from rfl]
    rw [List.getLast?_append_of_ne_nil _ (natChars_ne_nil _)]
    exact hl
  · obtain ⟨m, hm, hl⟩ := natChars_last i.natAbs
    exact ⟨m, hm, by simp only [h, if_false, string_data_mk]; exact hl⟩

theorem intRepr_ne_nil (i : Int) : (intRepr i).data ≠ [] := by
  obtain ⟨m, _, hl⟩ := intRepr_last i
  intro hc
  rw [hc] at hl
  simp at hl

/-- The synthesised self-reference alias `setting + "_" + str(index)` never
ends in `_meta`: its last character is a decimal digit. -/
theorem newBase_not_meta (s : String) (i : Int) :
    strEndsWith (s ++ "_" ++ intRepr i) "_meta" = false := by
  by_contra hc
  rw [Bool.not_eq_false, strEndsWith_iff] at hc
  have hlast := getLast?_of_suffix hc (by decide)
  obtain ⟨m, hm, hl⟩ := intRepr_last i
  rw [String.data_append, List.getLast?_append_of_ne_nil _ (intRepr_ne_nil i), hl] at hlast
  have : ('a' : Char) = digitChar m := by
    have : (("_meta" : String).data).getLast? = some 'a' := by decide
    rw [this] at hlast
    exact Option.some_inj.1 hlast.symm
  have hd := digitChar_isDigit hm
  rw [← this] at hd
  exact absurd hd (by decide)

/-! ## Registry facts -/

/-- The eight registered directive names. -/
theorem getDirective?_name {ext : ExtEnv} {n : String} {d : MetaDirective}
    (h : getDirective? ext n = some d) :
    n = "append" ∨ n = "crossappend" ∨ n = "crossappendref" ∨ n = "subst" ∨
    n = "crossref" ∨ n = "transclude" ∨ n = "json2list" ∨ n = "prependlocal" := by
  simp only [getDirective?, get_meta_directives, aget?] at h
  by_cases e1 : "append" = n
  · exact Or.inl e1.symm
  rw [if_neg e1] at h
  by_cases e2 : "crossappend" = n
  · exact Or.inr (Or.inl e2.symm)
  rw [if_neg e2] at h
  by_cases e3 : "crossappendref" = n
  · exact Or.inr (Or.inr (Or.inl e3.symm))
  rw [if_neg e3] at h
  by_cases e4 : "subst" = n
  · exact Or.inr (Or.inr (Or.inr (Or.inl e4.symm)))
  rw [if_neg e4] at h
  by_cases e5 : "crossref" = n
  · exact Or.inr (Or.inr (Or.inr (Or.inr (Or.inl e5.symm))))
  rw [if_neg e5] at h
  by_cases e6 : "transclude" = n
  · exact Or.inr (Or.inr (Or.inr (Or.inr (Or.inr (Or.inl e6.symm)))))
  rw [if_neg e6] at h
  by_cases e7 : "json2list" = n
  · exact Or.inr (Or.inr (Or.inr (Or.inr (Or.inr (Or.inr (Or.inl e7.symm))))))
  rw [if_neg e7] at h
  by_cases e8 : "prependlocal" = n
  · exact Or.inr (Or.inr (Or.inr (Or.inr (Or.inr (Or.inr (Or.inr e8.symm))))))
  rw [if_neg e8] at h
  exact absurd h (by simp)

/-- No registered directive name carries the `lazy` or `dynamic` prefix. -/
theorem registered_not_lazy_dynamic {ext : ExtEnv} {n : String} {d : MetaDirective}
    (h : getDirective? ext n = some d) :
    strStartsWith n "lazy" = false ∧ strStartsWith n "dynamic" = false := by
  rcases getDirective?_name h with h1 | h1 | h1 | h1 | h1 | h1 | h1 | h1 <;>
    subst h1 <;> exact ⟨by decide, by decide⟩

/-- A registered directive name never ends in `_meta`. -/
theorem registered_not_meta {ext : ExtEnv} {n : String} {d : MetaDirective}
    (h : getDirective? ext n = some d) : strEndsWith n "_meta" = false := by
  rcases getDirective?_name h with h1 | h1 | h1 | h1 | h1 | h1 | h1 | h1 <;>
    subst h1 <;> decide

/-! ## Shape of directive actions

Every successful `apply` writes exactly the processed setting (plus, for
`append`, the initial `[]` default at the same key). -/

theorem append_action_shape {d d' : Dict} {k : String} {v : Val}
    {p : MetaDirectiveParams} (h : append_action d k v p = .ok d') :
    ∃ d0 w, d' = aset d0 k w ∧ (d0 = d ∨ d0 = aset d k (Val.vlist [])) := by
  simp only [append_action] at h
  split at h
  · split at h
    · cases h
      split
      · exact ⟨_, _, rfl, Or.inr rfl⟩
      · exact ⟨_, _, rfl, Or.inl rfl⟩
    · cases h
  · cases h

theorem crossappend_action_shape {d d' : Dict} {k : String} {v : Val}
    {p : MetaDirectiveParams} (h : crossappend_action d k v p = .ok d') :
    ∃ w, d' = aset d k w := by
  simp only [crossappend_action, bind, Except.bind] at h
  split at h
  · cases h
  · split at h
    · cases h
    · cases h
      exact ⟨_, rfl⟩
    · cases h

theorem crossappendref_action_shape {d d' : Dict} {k : String} {v : Val}
    {p : MetaDirectiveParams} (h : crossappendref_action d k v p = .ok d') :
    ∃ w, d' = aset d k w := by
  simp only [crossappendref_action, bind, Except.bind] at h
  split at h
  · cases h
  · split at h
    · cases h
    · split at h
      · cases h
      · split at h
        · cases h
          exact ⟨_, rfl⟩
        · cases h

theorem subst_action_shape {d d' : Dict} {k : String} {v : Val}
    {p : MetaDirectiveParams} (h : subst_action d k v p = .ok d') :
    ∃ w, d' = aset d k w := by
  simp only [subst_action, bind, Except.bind] at h
  split at h
  · split at h
    · cases h
    · cases h
      exact ⟨_, rfl⟩
  · split at h
    · cases h
    · cases h
      exact ⟨_, rfl⟩
  · cases h

theorem crossref_action_shape {d d' : Dict} {k : String} {v : Val}
    {p : MetaDirectiveParams} (h : crossref_action d k v p = .ok d') :
    ∃ w, d' = aset d k w := by
  simp only [crossref_action, bind, Except.bind] at h
  split at h
  · split at h
    · cases h
    · cases h
      exact ⟨_, rfl⟩
  · split at h
    · cases h
    · cases h
      exact ⟨_, rfl⟩
  · cases h
  · cases h
  · cases h

theorem transclude_action_shape {ext : ExtEnv} {d d' : Dict} {k : String} {v : Val}
    {p : MetaDirectiveParams} (h : transclude_action ext d k v p = .ok d') :
    ∃ w, d' = aset d k w := by
  simp only [transclude_action] at h
  split at h
  · split at h
    · cases h
      exact ⟨_, rfl⟩
    · cases h
  · cases h

theorem json2list_action_shape {ext : ExtEnv} {d d' : Dict} {k : String} {v : Val}
    {p : MetaDirectiveParams} (h : json2list_action ext d k v p = .ok d') :
    ∃ w, d' = aset d k w := by
  simp only [json2list_action] at h
  split at h
  · split at h
    · cases h
      exact ⟨_, rfl⟩
    · cases h
    · cases h
  · cases h

theorem prependlocal_action_shape {d d' : Dict} {k : String} {v : Val}
    {p : MetaDirectiveParams} (h : prependlocal_action d k v p = .ok d') :
    ∃ w, d' = aset d k w := by
  simp only [prependlocal_action] at h
  split at h
  · cases h
    exact ⟨_, rfl⟩
  · cases h

/-- Any registered directive action writes only at the processed key. -/
theorem action_shape {ext : ExtEnv} {b : String} {dir : MetaDirective}
    (hdir : getDirective? ext b = some dir) {d d' : Dict} {k : String} {v : Val}
    {p : MetaDirectiveParams} (h : dir.action d k v p = .ok d') :
    ∃ d0 w, d' = aset d0 k w ∧ (d0 = d ∨ d0 = aset d k (Val.vlist [])) := by
  rcases getDirective?_name hdir with h1 | h1 | h1 | h1 | h1 | h1 | h1 | h1 <;> subst h1
  · rw [show getDirective? ext "append" =
        some ⟨append_action, fun key _ => Except.ok [key], append_rename⟩ from rfl] at hdir
    cases hdir
    exact append_action_shape (p := p) h
  · rw [show getDirective? ext "crossappend" =
        some ⟨crossappend_action, crossappend_targets, crossappend_rename⟩ from rfl] at hdir
    cases hdir
    obtain ⟨w, hw⟩ := crossappend_action_shape (p := p) h
    exact ⟨d, w, hw, Or.inl rfl⟩
  · rw [show getDirective? ext "crossappendref" =
        some ⟨crossappendref_action, crossappendref_targets, crossappendref_rename⟩ from
        rfl] at hdir
    cases hdir
    obtain ⟨w, hw⟩ := crossappendref_action_shape (p := p) h
    exact ⟨d, w, hw, Or.inl rfl⟩
  · rw [show getDirective? ext "subst" =
        some ⟨subst_action, subst_targets, subst_rename⟩ from rfl] at hdir
    cases hdir
    obtain ⟨w, hw⟩ := subst_action_shape (p := p) h
    exact ⟨d, w, hw, Or.inl rfl⟩
  · rw [show getDirective? ext "crossref" =
        some ⟨crossref_action, crossref_targets, crossref_rename⟩ from rfl] at hdir
    cases hdir
    obtain ⟨w, hw⟩ := crossref_action_shape (p := p) h
    exact ⟨d, w, hw, Or.inl rfl⟩
  · rw [show getDirective? ext "transclude" =
        some ⟨transclude_action ext, fun _ _ => Except.ok [], transclude_rename⟩ from
        rfl] at hdir
    cases hdir
    obtain ⟨w, hw⟩ := transclude_action_shape (p := p) h
    exact ⟨d, w, hw, Or.inl rfl⟩
  · rw [show getDirective? ext "json2list" =
        some ⟨json2list_action ext, fun _ _ => Except.ok [], json2list_rename⟩ from
        rfl] at hdir
    cases hdir
    obtain ⟨w, hw⟩ := json2list_action_shape (p := p) h
    exact ⟨d, w, hw, Or.inl rfl⟩
  · rw [show getDirective? ext "prependlocal" =
        some ⟨prependlocal_action, fun _ _ => Except.ok [], prependlocal_rename⟩ from
        rfl] at hdir
    cases hdir
    obtain ⟨w, hw⟩ := prependlocal_action_shape (p := p) h
    exact ⟨d, w, hw, Or.inl rfl⟩

/-- Pairs of a successful action result: old pairs, or the processed key. -/
theorem action_pairs {ext : ExtEnv} {b : String} {dir : MetaDirective}
    (hdir : getDirective? ext b = some dir) {d d' : Dict} {k : String} {v : Val}
    {p : MetaDirectiveParams} (h : dir.action d k v p = .ok d')
    {a : String} {w : Val} (hm : (a, w) ∈ d') : (a, w) ∈ d ∨ a = k := by
  obtain ⟨d0, w0, rfl, hd0⟩ := action_shape hdir h
  rcases mem_aset hm with h1 | h1
  · exact Or.inr h1.1
  · rcases hd0 with rfl | rfl
    · exact Or.inl h1
    · rcases mem_aset h1 with h2 | h2
      · exact Or.inr h2.1
      · exact Or.inl h2

/-- Keys of a successful action result. -/
theorem action_keys {ext : ExtEnv} {b : String} {dir : MetaDirective}
    (hdir : getDirective? ext b = some dir) {d d' : Dict} {k : String} {v : Val}
    {p : MetaDirectiveParams} (h : dir.action d k v p = .ok d')
    {a : String} (hm : a ∈ akeys d') : a ∈ akeys d ∨ a = k := by
  rw [mem_akeys] at hm
  obtain ⟨w, hw⟩ := hm
  rcases action_pairs hdir h hw with h1 | h1
  · exact Or.inl (mem_akeys.2 ⟨w, h1⟩)
  · exact Or.inr h1

/-- Actions preserve key uniqueness. -/
theorem action_nodup {ext : ExtEnv} {b : String} {dir : MetaDirective}
    (hdir : getDirective? ext b = some dir) {d d' : Dict} {k : String} {v : Val}
    {p : MetaDirectiveParams} (h : dir.action d k v p = .ok d')
    (hn : NodupKeys d) : NodupKeys d' := by
  obtain ⟨d0, w0, rfl, hd0⟩ := action_shape hdir h
  rcases hd0 with rfl | rfl
  · exact nodup_aset _ _ hn
  · exact nodup_aset _ _ (nodup_aset _ _ hn)

theorem aset_aset {β : Type u} (d : List (String × β)) (k : String) (w v : β) :
    aset (aset d k w) k v = aset d k v := by
  induction d with
  | nil => simp [aset]
  | cons p rest ih =>
    obtain ⟨k0, v0⟩ := p
    by_cases h0 : k0 = k
    · subst h0; simp [aset]
    · simp [aset, h0, ih]

/-! ## Claim C10: `append` on an absent key -/

/-- C10: when the target key `k` is absent from the working dictionary,
`append_action` with a list value `v` succeeds and sets `k` to `v` itself
(the absent key is treated as an empty list); an error is raised only when
`k` is present with a non-list value or when `v` is not a list. -/
theorem C10_append_absent (d : Dict) (k : String) (v : Val)
    (p : MetaDirectiveParams) (h : aget? d k = none) :
    (∀ xs, v = Val.vlist xs → append_action d k v p = .ok (aset d k v)) ∧
    (∀ e, append_action d k v p = .error e → ∀ xs, v ≠ Val.vlist xs) ∧
    (∀ d2 e, append_action d2 k v p = .error e →
      (∃ w, aget? d2 k = some w ∧ ∀ xs, w ≠ Val.vlist xs) ∨
        (∀ xs, v ≠ Val.vlist xs)) := by
  refine ⟨?_, ?_, ?_⟩
  · rintro xs rfl
    simp only [append_action, h, Option.isNone_none, if_true, aget?_aset_self,
      List.nil_append, aset_aset]
  · intro e he xs hv
    subst hv
    simp only [append_action, h, Option.isNone_none, if_true, aget?_aset_self,
      List.nil_append, aset_aset] at he
    cases he
  · intro d2 e he
    simp only [append_action] at he
    split at he
    · split at he
      · cases he
      · rename_i hv
        right
        intro xs hxs
        exact hv xs hxs
    · rename_i hget
      left
      split at hget
      · rename_i hnone
        rw [Option.isNone_iff_eq_none] at hnone
        rw [aget?_aset_self] at hget
        exact absurd rfl (hget [])
      · rcases hval : aget? d2 k with _ | w
        · rename_i hnn
          rw [Option.isNone_iff_eq_none] at hnn
          exact absurd hval hnn
        · refine ⟨w, rfl, ?_⟩
          rw [hval] at hget
          intro xs hxs
          rw [hxs] at hget
          exact hget xs rfl

/-- C10 witness: appending `[1]` to the absent key `"k"` of the empty
dictionary yields `{"k": [1]}`. -/
theorem C10_append_absent_witness :
    append_action [] "k" (Val.vlist [Val.int 1]) ⟨Val.str "unspecified"⟩ =
      .ok (aset [] "k" (Val.vlist [Val.int 1])) :=
  (C10_append_absent [] "k" (Val.vlist [Val.int 1]) ⟨Val.str "unspecified"⟩ rfl).1
    [Val.int 1] rfl

/-! ## Claim C2: `rename` does not preserve other references -/

/-- C2: contrary to the claim, `rename` does not leave other references
intact and does not preserve the value's shape.  `subst_rename` on
`"${a}${b}"` with `a → c` strips the reference syntax from the unrelated
occurrence `${b}` (yielding `"${c}b"` instead of `"${c}${b}"`), and
`crossref_rename` on the single string reference `"x"` returns a one-element
list instead of a string. -/
theorem C2_rename_bug :
    subst_rename "k" (Val.str "${a}${b}") "a" "c" =
      .ok (some (Val.str "${c}b", "subst")) ∧
    crossref_rename "k" (Val.str "x") "x" "y" =
      .ok (some (Val.vlist [Val.str "y"], "crossref")) :=
  ⟨rfl, rfl⟩

/-! ## Claim C8: `subst` dependencies on list values -/

/-- C8: the dependency computation of `subst` matches the escape grammar on
a string value, but asserts on a list value instead of collecting the names
across its string elements; consequently a list-valued `lazysubst` cannot be
scheduled — the whole resolution errors out. -/
theorem C8_subst_targets_bug :
    subst_targets "k" (Val.str "${a}${b.c}") = .ok ["a", "b.c"] ∧
    subst_targets "k" (Val.vlist [Val.str "${a}"]) =
      .error (Err.assertionFailed "subst_targets: value must be a string") ∧
    combine_configs noExt
      [[("k", Val.vlist [Val.str "${a}"]), ("k_meta", Val.str "lazysubst"),
        ("a", Val.str "z")]] =
      .error (Err.assertionFailed "subst_targets: value must be a string") :=
  ⟨rfl, rfl, rfl⟩

theorem processMetaType_absent {ext : ExtEnv} {mk s : String} {N M : Dict}
    {sl : Bool} {mt : Val} (h : aget? M s = none) :
    ∃ e, processMetaType ext mk s (N, M, sl) mt = .error e := by
  cases mt <;> simp only [processMetaType, h]
  all_goals
    first
    | exact ⟨_, rfl⟩
    | (repeat' split
       all_goals exact ⟨_, rfl⟩)

theorem processMetaType_keys {ext : ExtEnv} {mk s : String} {N M N' M' : Dict}
    {sl sl' : Bool} {mt : Val}
    (h : processMetaType ext mk s (N, M, sl) mt = .ok (N', M', sl')) :
    akeys M' = akeys M := by
  cases mt <;> simp only [processMetaType, bind, Except.bind] at h <;> try cases h
  repeat' split at h
  all_goals try cases h
  all_goals try rfl
  all_goals exact akeys_aset_of_isSome _ (by simp_all)

theorem foldlM_processMetaType_keys {ext : ExtEnv} {mk s : String} {R : List Val}
    {N M N' M' : Dict} {sl sl' : Bool}
    (h : R.foldlM (processMetaType ext mk s) (N, M, sl) = .ok (N', M', sl')) :
    akeys M' = akeys M := by
  induction R generalizing N M sl with
  | nil => simp only [List.foldlM_nil] at h; cases h; rfl
  | cons a R ih =>
    rw [List.foldlM_cons] at h
    rcases hstep : processMetaType ext mk s (N, M, sl) a with e | ⟨N1, M1, sl1⟩
    · rw [hstep] at h; simp [bind, Except.bind] at h
    · rw [hstep] at h
      simp only [bind, Except.bind] at h
      rw [ih h, processMetaType_keys hstep]

theorem aget?_aerase_none {β : Type u} {M : List (String × β)} {s : String}
    (h : aget? M s = none) (k : String) : aget? (aerase M k) s = none :=
  aget?_eq_none_iff.2 fun hc => aget?_eq_none_iff.1 h (akeys_aerase_subset hc)

theorem processMetaKey_absent {ext : ExtEnv} {N M : Dict} {mk : String}
    (h : aget? M (stripSuffixStr mk "_meta") = none) :
    ∃ e, processMetaKey ext (N, M) mk = .error e := by
  rcases hmk : aget? M mk with _ | mt
  · exact ⟨_, by simp only [processMetaKey, bind, Except.bind, hmk]; rfl⟩
  · cases mt
    case str s' =>
      obtain ⟨e, he⟩ := @processMetaType_absent ext mk _ N _ false (Val.str s') h
      exact ⟨e, by simp only [processMetaKey, bind, Except.bind, hmk,
        List.foldlM_cons, List.foldlM_nil, he]⟩
    case vlist l =>
      rcases l with _ | ⟨a, rest⟩
      · refine ⟨Err.missingKey (stripSuffixStr mk "_meta"), ?_⟩
        simp [processMetaKey, bind, Except.bind, pure, Except.pure, hmk,
          List.foldlM_nil, ddel, aget?_aerase_none h mk]
      · obtain ⟨e, he⟩ := @processMetaType_absent ext mk _ N _ false a h
        exact ⟨e, by simp only [processMetaKey, bind, Except.bind, hmk,
          List.foldlM_cons, he]⟩
    all_goals exact ⟨_, by simp only [processMetaKey, bind, Except.bind, hmk]; rfl⟩

theorem processMetaKey_ok_elim {ext : ExtEnv} {N M N' M' : Dict} {mk : String}
    (h : processMetaKey ext (N, M) mk = .ok (N', M')) :
    ∃ mt dirs nd md b,
      aget? M mk = some mt ∧
      ((∃ s, mt = Val.str s ∧ dirs = [Val.str s]) ∨ mt = Val.vlist dirs) ∧
      List.foldlM (processMetaType ext mk (stripSuffixStr mk "_meta")) (N, M, false) dirs
        = .ok (nd, md, b) ∧
      (aget? md mk).isSome ∧
      (aget? (aerase md mk) (stripSuffixStr mk "_meta")).isSome ∧
      N' = nd ∧ M' = aerase (aerase md mk) (stripSuffixStr mk "_meta") := by
  simp only [processMetaKey, bind, Except.bind, ddel] at h
  split at h
  · cases h
  · rename_i mtv hmt
    split at h
    · rename_i s
      split at h
      · cases h
      · rename_i st hfold
        obtain ⟨nd, md, b⟩ := st
        split at h
        · cases h
        · rename_i v1 heq1
          split at heq1
          · rename_i hd1
            cases heq1
            split at h
            · cases h
            · rename_i v2 heq2
              split at heq2
              · rename_i hd2
                cases heq2
                cases h
                exact ⟨Val.str s, [Val.str s], nd, md, b, hmt,
                  Or.inl ⟨s, rfl, rfl⟩, hfold, hd1, hd2, rfl, rfl⟩
              · cases heq2
          · cases heq1
    · rename_i l
      split at h
      · cases h
      · rename_i st hfold
        obtain ⟨nd, md, b⟩ := st
        split at h
        · cases h
        · rename_i v1 heq1
          split at heq1
          · rename_i hd1
            cases heq1
            split at h
            · cases h
            · rename_i v2 heq2
              split at heq2
              · rename_i hd2
                cases heq2
                cases h
                exact ⟨Val.vlist l, l, nd, md, b, hmt, Or.inr rfl,
                  hfold, hd1, hd2, rfl, rfl⟩
              · cases heq2
          · cases heq1
    all_goals cases h

theorem processMetaKey_keys {ext : ExtEnv} {N M N' M' : Dict} {mk : String}
    (h : processMetaKey ext (N, M) mk = .ok (N', M')) {a : String}
    (ha : a ∈ akeys M') : a ∈ akeys M := by
  obtain ⟨mt, dirs, nd, md, b, _, _, hfold, _, _, _, hM'⟩ := processMetaKey_ok_elim h
  subst hM'
  have h1 := akeys_aerase_subset (akeys_aerase_subset ha)
  rwa [foldlM_processMetaType_keys hfold] at h1

theorem foldlM_processMetaKey_doom {ext : ExtEnv} {R : List String} {N M : Dict}
    {mk : String} (hmk : mk ∈ R)
    (h : aget? M (stripSuffixStr mk "_meta") = none) :
    ∃ e, R.foldlM (processMetaKey ext) (N, M) = .error e := by
  induction R generalizing N M with
  | nil => simp at hmk
  | cons r R ih =>
    rw [List.foldlM_cons]
    rcases List.mem_cons.1 hmk with rfl | hmk'
    · obtain ⟨e, he⟩ := @processMetaKey_absent ext N _ _ h
      exact ⟨e, by rw [he]; simp [bind, Except.bind]⟩
    · rcases hstep : processMetaKey ext (N, M) r with e | ⟨N1, M1⟩
      · exact ⟨e, by simp [bind, Except.bind]⟩
      · have h1 : aget? M1 (stripSuffixStr mk "_meta") = none :=
          aget?_eq_none_iff.2 fun hc =>
            aget?_eq_none_iff.1 h (processMetaKey_keys hstep hc)
        obtain ⟨e, he⟩ := ih hmk' h1
        exact ⟨e, by simpa [bind, Except.bind] using he⟩

theorem update_and_expand_meta_doom {ext : ExtEnv} {config provider : Dict}
    {mk : String} (h1 : strEndsWith mk "_meta") (h2 : mk ∈ akeys provider)
    (h3 : stripSuffixStr mk "_meta" ∉ akeys provider) :
    ∃ e, update_and_expand_meta ext config provider = .error e := by
  have hmem : mk ∈ (akeys provider).filter (fun k => strEndsWith k "_meta") :=
    List.mem_filter.2 ⟨h2, h1⟩
  obtain ⟨e, he⟩ := @foldlM_processMetaKey_doom ext _ config _ _ hmem
    (aget?_eq_none_iff.2 h3)
  exact ⟨e, by simp only [update_and_expand_meta, deepdict, bind, Except.bind, he]⟩

/-- C1 counterexample: in the fold `{} ⟶ {"k": "hi"} ⟶ {"k_meta": "append"}`
the meta key `k_meta` has its setting `k` in the strictly lower-precedence
(already-folded) layer, yet the eager evaluator raises `KeyError: k` instead
of completing: it reads `meta_dict[setting]` from the provider that carries
`k_meta`, not from the working dictionary. -/
theorem C1_counterexample :
    List.foldlM (update_and_expand_meta noExt) []
      [[("k", Val.str "hi")], [("k_meta", Val.str "append")]] =
      .error (Err.missingKey "k") := rfl

/-- C1 (amended): a meta key is only usable when its setting is present in
the same provider: if any provider of the fold carries `k_meta` without `k`,
the eager fold fails with an error, even when `k` is present in a strictly
lower-precedence layer. -/
theorem C1_same_provider_required (ext : ExtEnv) (configs : List Dict)
    (provider : Dict) (mk : String) (hp : provider ∈ configs)
    (h1 : strEndsWith mk "_meta") (h2 : mk ∈ akeys provider)
    (h3 : stripSuffixStr mk "_meta" ∉ akeys provider) :
    ∃ e, configs.foldlM (update_and_expand_meta ext) [] = .error e := by
  suffices hgen : ∀ acc : Dict, ∃ e,
      configs.foldlM (update_and_expand_meta ext) acc = .error e from hgen []
  induction configs with
  | nil => simp at hp
  | cons c rest ih =>
    intro acc
    rw [List.foldlM_cons]
    rcases List.mem_cons.1 hp with rfl | hp'
    · obtain ⟨e, he⟩ := @update_and_expand_meta_doom ext acc _ _ h1 h2 h3
      exact ⟨e, by rw [he]; simp [bind, Except.bind]⟩
    · rcases hstep : update_and_expand_meta ext acc c with e | acc'
      · exact ⟨e, by simp [bind, Except.bind]⟩
      · obtain ⟨e, he⟩ := ih hp' acc'
        exact ⟨e, by simpa [bind, Except.bind] using he⟩

/-- C1 witness: the amended theorem applied to the counterexample fold. -/
theorem C1_same_provider_required_witness :
    ∃ e, List.foldlM (update_and_expand_meta noExt) []
      [[("k", Val.str "hi")], [("k_meta", Val.str "append")]] = .error e :=
  C1_same_provider_required noExt _ [("k_meta", Val.str "append")] "k_meta"
    (by simp) (by decide) (by decide) (by decide)

/-! ## Claim C4: lazy-cycle detection -/

theorem mem_insertSorted {x b : String} {l : List String} :
    b ∈ insertSorted x l ↔ b = x ∨ b ∈ l := by
  induction l with
  | nil => simp [insertSorted]
  | cons y ys ih =>
    by_cases h : x ≤ y
    · simp only [insertSorted, h, if_true, List.mem_cons]
      try tauto
    · simp only [insertSorted, h, if_false, List.mem_cons, ih]
      try tauto

theorem sorted_insertSorted (x : String) {l : List String}
    (h : l.Sorted (· ≤ ·)) : (insertSorted x l).Sorted (· ≤ ·) := by
  induction l with
  | nil => simp [insertSorted]
  | cons y ys ih =>
    rw [List.sorted_cons] at h
    by_cases hx : x ≤ y
    · simp only [insertSorted, hx, if_true]
      rw [List.sorted_cons]
      refine ⟨?_, List.sorted_cons.2 h⟩
      intro b hb
      rcases List.mem_cons.1 hb with rfl | hb'
      · exact hx
      · exact le_trans hx (h.1 b hb')
    · simp only [insertSorted, hx, if_false]
      rw [List.sorted_cons]
      refine ⟨?_, ih h.2⟩
      intro b hb
      rcases mem_insertSorted.1 hb with rfl | hb'
      · exact le_of_not_le hx
      · exact h.1 b hb'

theorem sorted_sortStrings (l : List String) : (sortStrings l).Sorted (· ≤ ·) := by
  induction l with
  | nil => simp [sortStrings]
  | cons x xs ih => exact sorted_insertSorted x ih

/-- C4: if, after eager folding, the lazy dependency graph is non-empty and
every node has a non-empty in-degree list, resolution fails with the
lazy-cycle error; in particular the mutually-referential lazy substitutions
`x = "${y}"`, `y = "${x}"` fail with lazy-cycle; and start nodes are always
selected in alphabetically sorted order. -/
theorem C4_lazy_cycle (ext : ExtEnv) (configs : List Dict)
    (E expanded lm : Dict) (G : GDict)
    (h1 : configs.foldlM (update_and_expand_meta ext) [] = .ok E)
    (h2 : build_lazy_state ext E = .ok (expanded, lm, G))
    (h3 : 0 < G.length) (h4 : ∀ kv ∈ G, kv.2.2 ≠ []) :
    combine_configs ext configs = .error Err.lazyCycle ∧
    combine_configs noExt
      [[("x", Val.str "${y}"), ("x_meta", Val.str "lazysubst"),
        ("y", Val.str "${x}"), ("y_meta", Val.str "lazysubst")]] =
      .error Err.lazyCycle ∧
    ∀ G' : GDict, (starting_nodes G').Sorted (· ≤ ·) := by
  refine ⟨?_, rfl, fun G' => sorted_sortStrings _⟩
  have hstart : starting_nodes G = [] := by
    have hfilter : G.filter (fun kv => kv.2.2.isEmpty) = [] := by
      rw [List.filter_eq_nil_iff]
      intro kv hkv
      simpa using h4 kv hkv
    rw [starting_nodes, hfilter]
    rfl
  simp only [combine_configs, bind, Except.bind, deepdict, h1, h2,
    if_pos h3, hstart, List.length_nil, if_pos rfl, if_true]

/-- C4 witness: the theorem applied to the two-setting cycle, whose eagerly
folded form, lazy-meta snapshot and dependency graph are computed
concretely. -/
theorem C4_lazy_cycle_witness :
    combine_configs noExt
      [[("x", Val.str "${y}"), ("x_meta", Val.str "lazysubst"),
        ("y", Val.str "${x}"), ("y_meta", Val.str "lazysubst")]] =
      .error Err.lazyCycle :=
  (C4_lazy_cycle noExt
    [[("x", Val.str "${y}"), ("x_meta", Val.str "lazysubst"),
      ("y", Val.str "${x}"), ("y_meta", Val.str "lazysubst")]]
    [("x", Val.str "${y}"), ("x_meta", Val.str "lazysubst"),
     ("y", Val.str "${x}"), ("y_meta", Val.str "lazysubst")]
    []
    [("x_meta", Val.str "subst"), ("x", Val.str "${y}"),
     ("y_meta", Val.str "subst"), ("y", Val.str "${x}")]
    [("x", (["y"], ["y"])), ("y", (["x"], ["x"]))]
    rfl rfl (by decide) (by decide)).1

/-! ## Claim C6: resolution and its JSON dump are deterministic -/

theorem aget?_aerase_ne {β : Type u} {d : List (String × β)} {k k' : String}
    (h : k' ≠ k) : aget? (aerase d k) k' = aget? d k' := by
  induction d with
  | nil => simp [aerase]
  | cons p rest ih =>
    obtain ⟨k0, v0⟩ := p
    by_cases h0 : k0 = k
    · subst h0
      have hne : ¬ (k0 = k') := fun hc => h hc.symm
      simp [aerase, aget?, hne]
    · simp [aerase, aget?, h0, ih]

theorem perm_cons_aerase {β : Type u} {d : List (String × β)} {k : String} {v : β}
    (h : aget? d k = some v) : d.Perm ((k, v) :: aerase d k) := by
  induction d with
  | nil => simp [aget?] at h
  | cons p rest ih =>
    obtain ⟨k0, v0⟩ := p
    by_cases h0 : k0 = k
    · subst h0
      simp only [aget?, eq_self_iff_true, if_true, Option.some_inj] at h
      subst h
      simp [aerase]
    · simp only [aget?, h0, if_false] at h
      simp only [aerase, h0, if_false]
      exact ((ih h).cons (k0, v0)).trans (List.Perm.swap _ _ _)

theorem perm_of_lookup_eq {β : Type u} {d1 d2 : List (String × β)}
    (h1 : NodupKeys d1) (h2 : NodupKeys d2)
    (h : ∀ k, aget? d1 k = aget? d2 k) : d1.Perm d2 := by
  induction d1 generalizing d2 with
  | nil =>
    cases d2 with
    | nil => exact List.Perm.refl _
    | cons p rest =>
      obtain ⟨k, v⟩ := p
      have := h k
      simp [aget?] at this
  | cons p rest ih =>
    obtain ⟨k, v⟩ := p
    rw [nodupKeys_cons] at h1
    have hk : aget? d2 k = some v := by
      rw [← h k]; simp [aget?]
    have hperm2 := perm_cons_aerase hk
    refine List.Perm.trans (List.Perm.cons _ ?_) hperm2.symm
    refine ih h1.2 (nodup_aerase _ h2) ?_
    intro k'
    by_cases hkk : k' = k
    · subst hkk
      rw [aget?_eq_none_iff.2 h1.1,
        aget?_eq_none_iff.2 (not_mem_akeys_aerase h2)]
    · rw [aget?_aerase_ne hkk, ← h k']
      simp only [aget?]
      rw [if_neg (fun hc => hkk hc.symm)]

theorem mem_insortPair {p q : String × Val} {l : Dict} :
    q ∈ insortPair p l ↔ q = p ∨ q ∈ l := by
  induction l with
  | nil => simp [insortPair]
  | cons r rs ih =>
    by_cases h : p.1 ≤ r.1
    · simp only [insortPair, h, if_true, List.mem_cons]
      try tauto
    · simp only [insortPair, h, if_false, List.mem_cons, ih]
      try tauto

theorem perm_insortPair (p : String × Val) (l : Dict) :
    (insortPair p l).Perm (p :: l) := by
  induction l with
  | nil => simp [insortPair]
  | cons r rs ih =>
    by_cases h : p.1 ≤ r.1
    · simp [insortPair, h]
    · simp only [insortPair, h, if_false]
      exact (ih.cons r).trans (List.Perm.swap _ _ _)

theorem perm_sortPairsByKey (d : Dict) : (sortPairsByKey d).Perm d := by
  induction d with
  | nil => simp [sortPairsByKey]
  | cons p rest ih =>
    have : sortPairsByKey (p :: rest) = insortPair p (sortPairsByKey rest) := rfl
    rw [this]
    exact (perm_insortPair p _).trans (ih.cons p)

theorem sorted_insortPair (p : String × Val) {l : Dict}
    (h : l.Sorted (fun a b => a.1 ≤ b.1)) :
    (insortPair p l).Sorted (fun a b => a.1 ≤ b.1) := by
  induction l with
  | nil => simp [insortPair]
  | cons r rs ih =>
    rw [List.sorted_cons] at h
    by_cases hp : p.1 ≤ r.1
    · simp only [insortPair, hp, if_true]
      rw [List.sorted_cons]
      refine ⟨?_, List.sorted_cons.2 h⟩
      intro b hb
      rcases List.mem_cons.1 hb with rfl | hb'
      · exact hp
      · exact le_trans hp (h.1 b hb')
    · simp only [insortPair, hp, if_false]
      rw [List.sorted_cons]
      refine ⟨?_, ih h.2⟩
      intro b hb
      rcases mem_insortPair.1 hb with rfl | hb'
      · exact le_of_not_le hp
      · exact h.1 b hb'

theorem sorted_sortPairsByKey (d : Dict) :
    (sortPairsByKey d).Sorted (fun a b => a.1 ≤ b.1) := by
  induction d with
  | nil => simp [sortPairsByKey]
  | cons p rest ih => exact sorted_insortPair p ih

theorem eq_of_perm_sorted_nodup {d1 d2 : Dict} (hp : d1.Perm d2)
    (hs1 : d1.Sorted (fun a b => a.1 ≤ b.1))
    (hs2 : d2.Sorted (fun a b => a.1 ≤ b.1))
    (hn1 : NodupKeys d1) : d1 = d2 := by
  have hn2 : NodupKeys d2 := by
    unfold NodupKeys akeys at hn1 ⊢
    exact (hp.map Prod.fst).nodup_iff.1 hn1
  have strict : ∀ (d : Dict), d.Sorted (fun a b => a.1 ≤ b.1) → NodupKeys d →
      d.Sorted (fun a b => a.1 < b.1) := by
    intro d hs hn
    have hne : d.Pairwise (fun a b => a.1 ≠ b.1) := List.pairwise_map.1 hn
    exact (hs.and hne).imp fun hab => lt_of_le_of_ne hab.1 hab.2
  haveI : IsAntisymm (String × Val) (fun a b => a.1 < b.1) :=
    ⟨fun a b hab hba => absurd hba (not_lt.2 (le_of_lt hab))⟩
  exact List.eq_of_perm_of_sorted hp (strict d1 hs1 hn1) (strict d2 hs2 hn2)

/-- C6: resolution is a pure deterministic function of the layer snapshot:
equal databases produce byte-identical sorted JSON dumps, equal lists of
input configs produce equal resolved mappings, and the dump depends only on
the key-value mapping (not on any insertion order), because `json.dumps`
sorts the keys. -/
theorem C6_resolution_deterministic (ext : ExtEnv) (db1 db2 : HammerDatabase)
    (h : db1 = db2) :
    db1.get_database_json ext = db2.get_database_json ext ∧
    (∀ cs1 cs2 : List Dict, cs1 = cs2 →
      combine_configs ext cs1 = combine_configs ext cs2) ∧
    (∀ d1 d2 : Dict, NodupKeys d1 → NodupKeys d2 →
      (∀ k, aget? d1 k = aget? d2 k) → dumpJson d1 = dumpJson d2) := by
  subst h
  refine ⟨rfl, fun cs1 cs2 hcs => by rw [hcs], ?_⟩
  intro d1 d2 hn1 hn2 hget
  have hperm : d1.Perm d2 := perm_of_lookup_eq hn1 hn2 hget
  have hsorteq : sortPairsByKey d1 = sortPairsByKey d2 := by
    refine eq_of_perm_sorted_nodup ?_ (sorted_sortPairsByKey d1)
      (sorted_sortPairsByKey d2) ?_
    · exact (perm_sortPairsByKey d1).trans (hperm.trans (perm_sortPairsByKey d2).symm)
    · unfold NodupKeys akeys at hn1 ⊢
      exact ((perm_sortPairsByKey d1).map Prod.fst).nodup_iff.2 hn1
  unfold dumpJson
  rw [hsorteq]

/-- C6 witness: the empty database dumps identically to itself. -/
theorem C6_resolution_deterministic_witness :
    HammerDatabase.get_database_json noExt ⟨[], [], [], [], [], [], []⟩ =
      HammerDatabase.get_database_json noExt ⟨[], [], [], [], [], [], []⟩ :=
  (C6_resolution_deterministic noExt ⟨[], [], [], [], [], [], []⟩
    ⟨[], [], [], [], [], [], []⟩ rfl).1

/-! ## Claim C3: self-referential lazy directives -/

theorem lazy_append_not_dynamic (b : String) :
    strStartsWith ("lazy" ++ b) "dynamic" = false := by
  unfold strStartsWith
  rw [String.data_append]
  rfl

theorem ne_of_data_length {a b : String} (h : a.data.length ≠ b.data.length) :
    a ≠ b := fun hc => h (by rw [hc])

theorem append_right_inj {a b c : String} (h : a ++ c = b ++ c) : a = b := by
  apply String.ext
  have := congrArg String.data h
  rw [String.data_append, String.data_append] at this
  exact (List.append_left_inj _).mp this

theorem strStartsWith_lazy (b : String) : strStartsWith ("lazy" ++ b) "lazy" = true :=
  strStartsWith_append "lazy" b

/-- C3: when a lazy directive attached to setting `s` lists `s` among its own
declared dependencies, the eager evaluator allocates the next free index `i`
from the working dictionary, moves the prior value of `s` (and its `_meta`
companion, if one exists) to the fresh key `s_i`, stores as the new value of
`s` the directive's value rewritten by `rename(s, value, s, s_i)` together
with the lazy renamed directive name, and leaves the directive unevaluated;
if `rename` returns null, it fails with rename-unsupported. -/
theorem C3_self_reference (ext : ExtEnv) (cfg : Dict) (s b : String)
    (v oldv : Val) (dir : MetaDirective) (ts : List String) (i : Int)
    (cfg1 : Dict)
    (hs_meta : strEndsWith s "_meta" = false)
    (hdir : getDirective? ext b = some dir)
    (htargets : dir.target_settings s v = .ok ts)
    (hself : s ∈ ts)
    (hidx : _get_next_free_index cfg = .ok (i, cfg1))
    (hold : aget? cfg1 s = some oldv) :
    (dir.rename_target s v s (s ++ "_" ++ intRepr i) = .ok none →
      update_and_expand_meta ext cfg
        (aset (aset ([] : Dict) s v) (s ++ "_meta") (.str ("lazy" ++ b))) =
        .error (.renameUnsupported s)) ∧
    (∀ nv nm, dir.rename_target s v s (s ++ "_" ++ intRepr i) =
        .ok (some (nv, nm)) →
      ∃ d, update_and_expand_meta ext cfg
          (aset (aset ([] : Dict) s v) (s ++ "_meta") (.str ("lazy" ++ b))) =
          .ok d ∧
        aget? d (s ++ "_" ++ intRepr i) = some oldv ∧
        aget? d s = some nv ∧
        aget? d (s ++ "_meta") = some (.str ("lazy" ++ nm)) ∧
        (∀ mv, aget? cfg1 (s ++ "_meta") = some mv →
          aget? d (s ++ "_" ++ intRepr i ++ "_meta") = some mv)) := by
  have hprov : aset (aset ([] : Dict) s v) (s ++ "_meta")
      (Val.str ("lazy" ++ b)) = [(s, v), (s ++ "_meta", Val.str ("lazy" ++ b))] := by
    simp [aset, self_ne_meta s]
  have hfilter : (akeys [(s, v), (s ++ "_meta", Val.str ("lazy" ++ b))]).filter
      (fun k => strEndsWith k "_meta") = [s ++ "_meta"] := by
    simp [akeys, List.filter_cons, hs_meta, strEndsWith_append]
  have hir : 0 < (intRepr i).data.length := List.length_pos.2 (intRepr_ne_nil i)
  have hne_nb_s : (s ++ "_" ++ intRepr i) ≠ s := by
    refine ne_of_data_length ?_
    rw [String.data_append, String.data_append]
    simp only [List.length_append]
    have : ("_" : String).data.length = 1 := rfl
    omega
  have hne_nb_smeta : (s ++ "_" ++ intRepr i) ≠ s ++ "_meta" := by
    intro hc
    have h1 := newBase_not_meta s i
    rw [hc] at h1
    have h2 := strEndsWith_append s "_meta"
    rw [h1] at h2
    cases h2
  constructor
  · intro hrn
    have hstep : processMetaType ext (s ++ "_meta") s
        (cfg, [(s, v), (s ++ "_meta", Val.str ("lazy" ++ b))], false)
        (Val.str ("lazy" ++ b)) = .error (.renameUnsupported s) := by
      simp only [processMetaType, lazy_append_not_dynamic, strStartsWith_lazy,
        stripPrefix_append, hdir, Bool.false_eq_true, if_false, if_true, aget?,
        bind, Except.bind, htargets, if_pos hself, hidx, hrn]
    rw [hprov]
    simp only [update_and_expand_meta, deepdict, bind, Except.bind, hfilter,
      List.foldlM_cons, List.foldlM_nil, processMetaKey, aget?, self_ne_meta s,
      stripSuffix_append]
    simp [hstep, pure, Except.pure]
  · intro nv nm hrn
    have hstep : processMetaType ext (s ++ "_meta") s
        (cfg, [(s, v), (s ++ "_meta", Val.str ("lazy" ++ b))], false)
        (Val.str ("lazy" ++ b)) =
      .ok (dupdate cfg1
        (match aget? cfg1 (s ++ "_meta") with
         | some oldm =>
           aset (aset (aset (aset ([] : Dict) (s ++ "_" ++ intRepr i) oldv)
             s nv) (s ++ "_meta") (Val.str ("lazy" ++ nm)))
             (s ++ "_" ++ intRepr i ++ "_meta") oldm
         | none =>
           aset (aset (aset ([] : Dict) (s ++ "_" ++ intRepr i) oldv)
             s nv) (s ++ "_meta") (Val.str ("lazy" ++ nm))),
        [(s, v), (s ++ "_meta", Val.str ("lazy" ++ b))], true) := by
      simp only [processMetaType, lazy_append_not_dynamic, strStartsWith_lazy,
        stripPrefix_append, hdir, Bool.false_eq_true, if_false, if_true, aget?,
        bind, Except.bind, htargets, if_pos hself, hidx, hrn, hold]
    refine ⟨dupdate cfg1
        (match aget? cfg1 (s ++ "_meta") with
         | some oldm =>
           aset (aset (aset (aset ([] : Dict) (s ++ "_" ++ intRepr i) oldv)
             s nv) (s ++ "_meta") (Val.str ("lazy" ++ nm)))
             (s ++ "_" ++ intRepr i ++ "_meta") oldm
         | none =>
           aset (aset (aset ([] : Dict) (s ++ "_" ++ intRepr i) oldv)
             s nv) (s ++ "_meta") (Val.str ("lazy" ++ nm))), ?_, ?_⟩
    · rw [hprov]
      simp only [update_and_expand_meta, deepdict, bind, Except.bind, hfilter,
        List.foldlM_cons, List.foldlM_nil, processMetaKey, aget?,
        self_ne_meta s, stripSuffix_append]
      simp [hstep, pure, Except.pure, ddel, aget?, aerase, self_ne_meta s,
        dupdate_nil]
    · have hne_nbm_s : (s ++ "_" ++ intRepr i ++ "_meta") ≠ s := by
        refine ne_of_data_length ?_
        rw [String.data_append, String.data_append, String.data_append]
        simp only [List.length_append]
        have h1 : ("_" : String).data.length = 1 := rfl
        have h2 : ("_meta" : String).data.length = 5 := rfl
        omega
      have hne_nbm_smeta : (s ++ "_" ++ intRepr i ++ "_meta") ≠ s ++ "_meta" :=
        fun hc => hne_nb_s (append_right_inj hc)
      have hne_nbm_nb : (s ++ "_" ++ intRepr i ++ "_meta") ≠
          (s ++ "_" ++ intRepr i) := fun hc => self_ne_meta _ hc.symm
      rcases hm : aget? cfg1 (s ++ "_meta") with _ | mv
      · have hnod : NodupKeys (aset (aset (aset ([] : Dict)
            (s ++ "_" ++ intRepr i) oldv) s nv) (s ++ "_meta")
            (Val.str ("lazy" ++ nm))) := by
          refine nodup_aset _ _ (nodup_aset _ _ (nodup_aset _ _ ?_))
          simp [NodupKeys, akeys]
        refine ⟨?_, ?_, ?_, ?_⟩
        · refine aget?_dupdate_of_mem hnod (aget?_mem ?_)
          rw [aget?_aset_ne _ _ hne_nb_smeta, aget?_aset_ne _ _ hne_nb_s,
            aget?_aset_self]
        · refine aget?_dupdate_of_mem hnod (aget?_mem ?_)
          rw [aget?_aset_ne _ _ (self_ne_meta s), aget?_aset_self]
        · exact aget?_dupdate_of_mem hnod (aget?_mem (aget?_aset_self _ _ _))
        · intro mv hmv
          cases hmv
      · have hnod : NodupKeys (aset (aset (aset (aset ([] : Dict)
            (s ++ "_" ++ intRepr i) oldv) s nv) (s ++ "_meta")
            (Val.str ("lazy" ++ nm))) (s ++ "_" ++ intRepr i ++ "_meta") mv) := by
          refine nodup_aset _ _ (nodup_aset _ _ (nodup_aset _ _ (nodup_aset _ _ ?_)))
          simp [NodupKeys, akeys]
        refine ⟨?_, ?_, ?_, ?_⟩
        · refine aget?_dupdate_of_mem hnod (aget?_mem ?_)
          rw [aget?_aset_ne _ _ hne_nbm_nb.symm, aget?_aset_ne _ _ hne_nb_smeta,
            aget?_aset_ne _ _ hne_nb_s, aget?_aset_self]
        · refine aget?_dupdate_of_mem hnod (aget?_mem ?_)
          rw [aget?_aset_ne _ _ hne_nbm_s.symm,
            aget?_aset_ne _ _ (self_ne_meta s), aget?_aset_self]
        · refine aget?_dupdate_of_mem hnod (aget?_mem ?_)
          rw [aget?_aset_ne _ _ hne_nbm_smeta.symm, aget?_aset_self]
        · intro mv' hmv
          cases hmv
          exact aget?_dupdate_of_mem hnod (aget?_mem (aget?_aset_self _ _ _))

/-- C3 witness: a self-referential `lazysubst` on `x = "${x}"` over a prior
value `"hi"` aliases the prior value to `x_1` and stores the rewritten
template `"${x_1}"`. -/
theorem C3_self_reference_witness :
    ∃ d, update_and_expand_meta noExt [("x", Val.str "hi")]
        (aset (aset ([] : Dict) "x" (Val.str "${x}")) ("x" ++ "_meta")
          (Val.str ("lazy" ++ "subst"))) = .ok d ∧
      aget? d ("x" ++ "_" ++ intRepr 1) = some (Val.str "hi") ∧
      aget? d "x" = some (Val.str "${x_1}") ∧
      aget? d ("x" ++ "_meta") = some (Val.str ("lazy" ++ "subst")) ∧
      (∀ mv, aget? [("x", Val.str "hi"), ("_next_free_index", Val.int 2)]
          ("x" ++ "_meta") = some mv →
        aget? d ("x" ++ "_" ++ intRepr 1 ++ "_meta") = some mv) :=
  (C3_self_reference noExt [("x", Val.str "hi")] "x" "subst" (Val.str "${x}")
    (Val.str "hi") ⟨subst_action, subst_targets, subst_rename⟩ ["x"] 1
    [("x", Val.str "hi"), ("_next_free_index", Val.int 2)]
    (by decide) rfl rfl (by decide) rfl rfl).2 (Val.str "${x_1}") "subst" rfl

theorem substScanGo_err {f : String → Except Err String}
    (hf : ∀ x e, f x = .error e → isInvalidDirective e = false) :
    ∀ fuel l e, substScanGo f fuel l = .error e →
      isInvalidDirective e = false := by
  intro fuel
  induction fuel with
  | zero => intro l e h; simp [substScanGo] at h
  | succ fuel ih =>
    intro l e h
    rw [substScanGo.eq_def] at h
    simp only [bind, Except.bind] at h
    split at h
    · cases h
    · cases h
    · rename_i fl r2 heq
      have hfl : fl = fuel := by omega
      rw [hfl] at h
      split at h
      · split at h
        · rcases hs : substScanGo f fuel ('{' :: r2) with e' | r
          · rw [hs] at h
            cases h
            exact ih _ _ hs
          · rw [hs] at h
            cases h
        · rcases hfx : f ⟨List.takeWhile isVarChar r2⟩ with e' | repl
          · rw [hfx] at h
            cases h
            exact hf _ _ hfx
          · rw [hfx] at h
            rename_i tail hdrop _
            rcases hs : substScanGo f fuel tail with e' | r
            · rw [hs] at h
              cases h
              exact ih _ _ hs
            · rw [hs] at h
              cases h
      · rcases hs : substScanGo f fuel ('{' :: r2) with e' | r
        · rw [hs] at h
          cases h
          exact ih _ _ hs
        · rw [hs] at h
          cases h
    · rename_i fl cc rr hguard heq
      have hfl : fl = fuel := by omega
      rw [hfl] at h
      rcases hs : substScanGo f fuel rr with e' | r
      · rw [hs] at h
        cases h
        exact ih _ _ hs
      · rw [hs] at h
        cases h

theorem mapM_loop_err {α β : Type} {g : α → Except Err β}
    (hg : ∀ x e, g x = .error e → isInvalidDirective e = false) :
    ∀ (l : List α) (acc : List β) (e : Err),
      List.mapM.loop g l acc = .error e → isInvalidDirective e = false := by
  intro l
  induction l with
  | nil => intro acc e h; simp [List.mapM.loop, pure, Except.pure] at h
  | cons x xs ih =>
    intro acc e h
    simp only [List.mapM.loop, bind, Except.bind] at h
    rcases hx : g x with e' | b
    · rw [hx] at h
      cases h
      exact hg _ _ hx
    · rw [hx] at h
      exact ih _ _ h

theorem mapM_err {α β : Type} {g : α → Except Err β} {l : List α} {e : Err}
    (hg : ∀ x e', g x = .error e' → isInvalidDirective e' = false)
    (h : l.mapM g = .error e) : isInvalidDirective e = false :=
  mapM_loop_err hg l [] e h

theorem subst_str_err {s : String} {d : Dict} {e : Err}
    (h : subst_str s (substLookup d) = .error e) :
    isInvalidDirective e = false := by
  simp only [subst_str, bind, Except.bind] at h
  rcases hs : substScan (substLookup d) s.data with e' | r
  · rw [hs] at h
    cases h
    refine substScanGo_err ?_ _ _ _ hs
    intro x e' hx
    simp only [substLookup] at hx
    split at hx
    · cases hx; rfl
    · cases hx
    · cases hx; rfl
  · rw [hs] at h
    cases h

theorem crossappend_decode_err {v : Val} {e : Err}
    (h : crossappend_decode v = .error e) : isInvalidDirective e = false := by
  simp only [crossappend_decode] at h
  split at h <;> cases h <;> rfl

theorem crossappendref_decode_err {v : Val} {e : Err}
    (h : crossappendref_decode v = .error e) : isInvalidDirective e = false := by
  simp only [crossappendref_decode] at h
  split at h <;> cases h <;> rfl

theorem append_action_err {d : Dict} {k : String} {v : Val}
    {p : MetaDirectiveParams} {e : Err} (h : append_action d k v p = .error e) :
    isInvalidDirective e = false := by
  simp only [append_action] at h
  split at h <;> [skip; (cases h; rfl)]
  split at h <;> [cases h; (cases h; rfl)]

theorem crossappend_action_err {d : Dict} {k : String} {v : Val}
    {p : MetaDirectiveParams} {e : Err}
    (h : crossappend_action d k v p = .error e) :
    isInvalidDirective e = false := by
  simp only [crossappend_action, bind, Except.bind] at h
  split at h
  · rename_i e' hdec
    cases h
    exact crossappend_decode_err hdec
  · split at h <;> cases h <;> rfl

theorem crossappendref_action_err {d : Dict} {k : String} {v : Val}
    {p : MetaDirectiveParams} {e : Err}
    (h : crossappendref_action d k v p = .error e) :
    isInvalidDirective e = false := by
  simp only [crossappendref_action, bind, Except.bind] at h
  split at h
  · rename_i e' hdec
    cases h
    exact crossappendref_decode_err hdec
  · split at h
    · cases h; rfl
    · split at h
      · cases h; rfl
      · split at h <;> cases h <;> rfl

theorem subst_action_err {d : Dict} {k : String} {v : Val}
    {p : MetaDirectiveParams} {e : Err} (h : subst_action d k v p = .error e) :
    isInvalidDirective e = false := by
  simp only [subst_action, bind, Except.bind] at h
  split at h
  · split at h
    · rename_i hs
      cases h
      exact subst_str_err hs
    · cases h
  · split at h
    · rename_i e' hmap
      cases h
      refine mapM_err ?_ hmap
      intro x e' hx
      split at hx
      · split at hx
        · rename_i hs
          cases hx
          exact subst_str_err hs
        · cases hx
      · cases hx; rfl
    · cases h
  · cases h; rfl

theorem crossref_action_err {d : Dict} {k : String} {v : Val}
    {p : MetaDirectiveParams} {e : Err}
    (h : crossref_action d k v p = .error e) : isInvalidDirective e = false := by
  simp only [crossref_action, bind, Except.bind] at h
  split at h
  · split at h
    · cases h; rfl
    · cases h
  · split at h
    · rename_i e' hmap
      cases h
      refine mapM_err ?_ hmap
      intro x e' hx
      split at hx
      · split at hx
        · cases hx; rfl
        · cases hx
      · cases hx; rfl
    · cases h
  · cases h; rfl
  · cases h; rfl
  · cases h; rfl

theorem transclude_action_err {ext : ExtEnv} {d : Dict} {k : String} {v : Val}
    {p : MetaDirectiveParams} {e : Err}
    (h : transclude_action ext d k v p = .error e) :
    isInvalidDirective e = false := by
  simp only [transclude_action] at h
  split at h
  · split at h <;> cases h <;> rfl
  · cases h; rfl

theorem json2list_action_err {ext : ExtEnv} {d : Dict} {k : String} {v : Val}
    {p : MetaDirectiveParams} {e : Err}
    (h : json2list_action ext d k v p = .error e) :
    isInvalidDirective e = false := by
  simp only [json2list_action] at h
  split at h
  · split at h <;> cases h <;> rfl
  · cases h; rfl

theorem prependlocal_action_err {d : Dict} {k : String} {v : Val}
    {p : MetaDirectiveParams} {e : Err}
    (h : prependlocal_action d k v p = .error e) :
    isInvalidDirective e = false := by
  simp only [prependlocal_action] at h
  split at h <;> cases h <;> rfl

theorem subst_targets_err {k : String} {v : Val} {e : Err}
    (h : subst_targets k v = .error e) : isInvalidDirective e = false := by
  simp only [subst_targets] at h
  split at h <;> cases h <;> rfl

theorem crossappend_targets_err {k : String} {v : Val} {e : Err}
    (h : crossappend_targets k v = .error e) : isInvalidDirective e = false := by
  simp only [crossappend_targets, bind, Except.bind] at h
  split at h
  · rename_i e' hdec
    cases h
    exact crossappend_decode_err hdec
  · cases h

theorem crossappendref_targets_err {k : String} {v : Val} {e : Err}
    (h : crossappendref_targets k v = .error e) : isInvalidDirective e = false := by
  simp only [crossappendref_targets, bind, Except.bind] at h
  split at h
  · rename_i e' hdec
    cases h
    exact crossappendref_decode_err hdec
  · cases h

theorem crossref_targets_err {k : String} {v : Val} {e : Err}
    (h : crossref_targets k v = .error e) : isInvalidDirective e = false := by
  simp only [crossref_targets] at h
  split at h
  · cases h
  · refine mapM_err ?_ h
    intro x e' hx
    split at hx
    · cases hx
    · cases hx; rfl
  · cases h; rfl
  · cases h; rfl
  · cases h; rfl

theorem subst_rename_err {k : String} {v : Val} {t r : String} {e : Err}
    (h : subst_rename k v t r = .error e) : isInvalidDirective e = false := by
  simp only [subst_rename, bind, Except.bind] at h
  split at h
  · split at h
    · rename_i e' hts
      cases h
      exact subst_targets_err hts
    · split at h
      · split at h
        · rename_i hs
          cases h
          simp only [subst_str, substScan, bind, Except.bind] at hs
          split at hs
          · rename_i hsc
            cases hs
            exact substScanGo_err (fun x e' hx => by cases hx) _ _ _ hsc
          · cases hs
        · cases h
      · cases h
  · cases h; rfl

theorem crossappend_rename_err {k : String} {v : Val} {t r : String} {e : Err}
    (h : crossappend_rename k v t r = .error e) : isInvalidDirective e = false := by
  simp only [crossappend_rename, bind, Except.bind] at h
  split at h
  · rename_i e' hdec
    cases h
    exact crossappend_decode_err hdec
  · cases h

theorem crossappendref_rename_err {k : String} {v : Val} {t r : String} {e : Err}
    (h : crossappendref_rename k v t r = .error e) : isInvalidDirective e = false := by
  simp only [crossappendref_rename, bind, Except.bind] at h
  split at h
  · rename_i e' hdec
    cases h
    exact crossappendref_decode_err hdec
  · cases h

theorem crossref_rename_err {k : String} {v : Val} {t r : String} {e : Err}
    (h : crossref_rename k v t r = .error e) : isInvalidDirective e = false := by
  simp only [crossref_rename, bind, Except.bind] at h
  split at h
  · cases h
  · split at h
    · rename_i e' hmap
      cases h
      refine mapM_err ?_ hmap
      intro x e' hx
      split at hx
      · cases hx
      · cases hx; rfl
    · cases h
  · cases h; rfl
  · cases h; rfl
  · cases h; rfl

theorem pyInt_err {v : Val} {e : Err} (h : pyInt v = .error e) :
    isInvalidDirective e = false := by
  simp only [pyInt] at h
  split at h
  · cases h
  · cases h
  · repeat' split at h
    all_goals cases h
    all_goals rfl
  · cases h; rfl

theorem next_free_index_err {d : Dict} {e : Err}
    (h : _get_next_free_index d = .error e) : isInvalidDirective e = false := by
  simp only [_get_next_free_index, bind, Except.bind] at h
  split at h
  · split at h
    · rename_i e' hp
      cases h
      exact pyInt_err hp
    · cases h
  · cases h; rfl

/-- No registered directive action raises an invalid-directive error. -/
theorem action_err_not_invalid {ext : ExtEnv} {b : String} {dir : MetaDirective}
    (hdir : getDirective? ext b = some dir) {d : Dict} {k : String} {v : Val}
    {p : MetaDirectiveParams} {e : Err} (h : dir.action d k v p = .error e) :
    isInvalidDirective e = false := by
  rcases getDirective?_name hdir with h1 | h1 | h1 | h1 | h1 | h1 | h1 | h1 <;> subst h1
  · rw [show getDirective? ext "append" =
        some ⟨append_action, fun key _ => Except.ok [key], append_rename⟩ from rfl] at hdir
    cases hdir
    exact append_action_err (p := p) h
  · rw [show getDirective? ext "crossappend" =
        some ⟨crossappend_action, crossappend_targets, crossappend_rename⟩ from rfl] at hdir
    cases hdir
    exact crossappend_action_err (p := p) h
  · rw [show getDirective? ext "crossappendref" =
        some ⟨crossappendref_action, crossappendref_targets, crossappendref_rename⟩ from
        rfl] at hdir
    cases hdir
    exact crossappendref_action_err (p := p) h
  · rw [show getDirective? ext "subst" =
        some ⟨subst_action, subst_targets, subst_rename⟩ from rfl] at hdir
    cases hdir
    exact subst_action_err (p := p) h
  · rw [show getDirective? ext "crossref" =
        some ⟨crossref_action, crossref_targets, crossref_rename⟩ from rfl] at hdir
    cases hdir
    exact crossref_action_err (p := p) h
  · rw [show getDirective? ext "transclude" =
        some ⟨transclude_action ext, fun _ _ => Except.ok [], transclude_rename⟩ from
        rfl] at hdir
    cases hdir
    exact transclude_action_err (p := p) h
  · rw [show getDirective? ext "json2list" =
        some ⟨json2list_action ext, fun _ _ => Except.ok [], json2list_rename⟩ from
        rfl] at hdir
    cases hdir
    exact json2list_action_err (p := p) h
  · rw [show getDirective? ext "prependlocal" =
        some ⟨prependlocal_action, fun _ _ => Except.ok [], prependlocal_rename⟩ from
        rfl] at hdir
    cases hdir
    exact prependlocal_action_err (p := p) h

/-- No registered dependency computation raises invalid-directive. -/
theorem targets_err_not_invalid {ext : ExtEnv} {b : String} {dir : MetaDirective}
    (hdir : getDirective? ext b = some dir) {k : String} {v : Val} {e : Err}
    (h : dir.target_settings k v = .error e) : isInvalidDirective e = false := by
  rcases getDirective?_name hdir with h1 | h1 | h1 | h1 | h1 | h1 | h1 | h1 <;> subst h1
  · rw [show getDirective? ext "append" =
        some ⟨append_action, fun key _ => Except.ok [key], append_rename⟩ from rfl] at hdir
    cases hdir
    cases h
  · rw [show getDirective? ext "crossappend" =
        some ⟨crossappend_action, crossappend_targets, crossappend_rename⟩ from rfl] at hdir
    cases hdir
    exact crossappend_targets_err (k := k) h
  · rw [show getDirective? ext "crossappendref" =
        some ⟨crossappendref_action, crossappendref_targets, crossappendref_rename⟩ from
        rfl] at hdir
    cases hdir
    exact crossappendref_targets_err (k := k) h
  · rw [show getDirective? ext "subst" =
        some ⟨subst_action, subst_targets, subst_rename⟩ from rfl] at hdir
    cases hdir
    exact subst_targets_err (k := k) h
  · rw [show getDirective? ext "crossref" =
        some ⟨crossref_action, crossref_targets, crossref_rename⟩ from rfl] at hdir
    cases hdir
    exact crossref_targets_err (k := k) h
  · rw [show getDirective? ext "transclude" =
        some ⟨transclude_action ext, fun _ _ => Except.ok [], transclude_rename⟩ from
        rfl] at hdir
    cases hdir
    cases h
  · rw [show getDirective? ext "json2list" =
        some ⟨json2list_action ext, fun _ _ => Except.ok [], json2list_rename⟩ from
        rfl] at hdir
    cases hdir
    cases h
  · rw [show getDirective? ext "prependlocal" =
        some ⟨prependlocal_action, fun _ _ => Except.ok [], prependlocal_rename⟩ from
        rfl] at hdir
    cases hdir
    cases h

/-- No registered rename computation raises invalid-directive. -/
theorem rename_err_not_invalid {ext : ExtEnv} {b : String} {dir : MetaDirective}
    (hdir : getDirective? ext b = some dir) {k : String} {v : Val}
    {t r : String} {e : Err} (h : dir.rename_target k v t r = .error e) :
    isInvalidDirective e = false := by
  rcases getDirective?_name hdir with h1 | h1 | h1 | h1 | h1 | h1 | h1 | h1 <;> subst h1
  · rw [show getDirective? ext "append" =
        some ⟨append_action, fun key _ => Except.ok [key], append_rename⟩ from rfl] at hdir
    cases hdir
    cases h
  · rw [show getDirective? ext "crossappend" =
        some ⟨crossappend_action, crossappend_targets, crossappend_rename⟩ from rfl] at hdir
    cases hdir
    exact crossappend_rename_err (k := k) h
  · rw [show getDirective? ext "crossappendref" =
        some ⟨crossappendref_action, crossappendref_targets, crossappendref_rename⟩ from
        rfl] at hdir
    cases hdir
    exact crossappendref_rename_err (k := k) h
  · rw [show getDirective? ext "subst" =
        some ⟨subst_action, subst_targets, subst_rename⟩ from rfl] at hdir
    cases hdir
    exact subst_rename_err (k := k) h
  · rw [show getDirective? ext "crossref" =
        some ⟨crossref_action, crossref_targets, crossref_rename⟩ from rfl] at hdir
    cases hdir
    exact crossref_rename_err (k := k) h
  · rw [show getDirective? ext "transclude" =
        some ⟨transclude_action ext, fun _ _ => Except.ok [], transclude_rename⟩ from
        rfl] at hdir
    cases hdir
    cases h
  · rw [show getDirective? ext "json2list" =
        some ⟨json2list_action ext, fun _ _ => Except.ok [], json2list_rename⟩ from
        rfl] at hdir
    cases hdir
    cases h
  · rw [show getDirective? ext "prependlocal" =
        some ⟨prependlocal_action, fun _ _ => Except.ok [], prependlocal_rename⟩ from
        rfl] at hdir
    cases hdir
    cases h

theorem processMetaType_good_err {ext : ExtEnv} {mk s : String} {N M : Dict}
    {n : String} {e : Err}
    (hdyn : strStartsWith n "dynamic" = false)
    (hreg : (getDirective? ext
      (if strStartsWith n "lazy" then stripPrefixStr n "lazy" else n)).isSome = true)
    (h : processMetaType ext mk s (N, M, false) (Val.str n) = .error e) :
    isInvalidDirective e = false := by
  simp only [processMetaType, hdyn, Bool.false_eq_true, if_false,
    bind, Except.bind] at h
  by_cases hl : strStartsWith n "lazy"
  · simp only [hl, if_true] at h hreg
    rcases hdir : getDirective? ext (stripPrefixStr n "lazy") with _ | dir
    · rw [hdir] at hreg; cases hreg
    · rw [hdir] at h
      simp only at h
      rcases hms : aget? M s with _ | mval
      · rw [hms] at h
        cases h
        rfl
      · rw [hms] at h
        simp only at h
        rcases hts : dir.target_settings s mval with e' | ts
        · rw [hts] at h
          cases h
          exact targets_err_not_invalid hdir hts
        · rw [hts] at h
          simp only at h
          split at h
          · rcases hnf : _get_next_free_index N with e' | ⟨i, N1⟩
            · rw [hnf] at h
              cases h
              exact next_free_index_err hnf
            · rw [hnf] at h
              simp only at h
              rcases hrn : dir.rename_target s mval s (s ++ "_" ++ intRepr i)
                with e' | rn
              · rw [hrn] at h
                cases h
                exact rename_err_not_invalid hdir hrn
              · rw [hrn] at h
                simp only at h
                rcases rn with _ | ⟨nv, nm⟩
                · cases h
                  rfl
                · simp only at h
                  rcases hget : aget? N1 s with _ | oldv
                  · rw [hget] at h
                    cases h
                    rfl
                  · rw [hget] at h
                    cases h
          · cases h
  · simp only [hl, Bool.false_eq_true, if_false] at h hreg
    rcases hdir : getDirective? ext n with _ | dir
    · rw [hdir] at hreg; cases hreg
    · rw [hdir] at h
      simp only at h
      rcases hms : aget? M s with _ | mval
      · rw [hms] at h
        cases h
        rfl
      · rw [hms] at h
        simp only at h
        rcases hact : dir.action N s mval
            ⟨(aget? M _CONFIG_PATH_KEY).getD (Val.str "unspecified")⟩ with e' | nd
        · rw [hact] at h
          cases h
          exact action_err_not_invalid hdir hact
        · rw [hact] at h
          simp only at h
          rcases hget : aget? nd s with _ | nv
          · rw [hget] at h
            cases h
            rfl
          · rw [hget] at h
            cases h

theorem processMetaType_seen_lazy {ext : ExtEnv} {mk s : String} {N M N' M' : Dict}
    {sl' : Bool} {n : String}
    (h : processMetaType ext mk s (N, M, false) (Val.str n) = .ok (N', M', sl')) :
    sl' = strStartsWith n "lazy" := by
  simp only [processMetaType, bind, Except.bind] at h
  repeat' split at h
  all_goals cases h
  all_goals simp_all

theorem processMetaType_metaPairs {ext : ExtEnv} {mk s : String}
    {N M N' M' : Dict} {sl sl' : Bool} {mt : Val}
    (h : processMetaType ext mk s (N, M, sl) mt = .ok (N', M', sl'))
    {a : String} {w : Val} (hm : (a, w) ∈ M') : (a, w) ∈ M ∨ a = s := by
  cases mt <;> simp only [processMetaType, bind, Except.bind] at h
  all_goals try cases h
  repeat' split at h
  all_goals cases h
  all_goals
    first
    | exact Or.inl hm
    | (rcases mem_aset hm with h1 | h1
       · exact Or.inr h1.1
       · exact Or.inl h1)

theorem processMetaType_nodupM {ext : ExtEnv} {mk s : String}
    {N M N' M' : Dict} {sl sl' : Bool} {mt : Val}
    (h : processMetaType ext mk s (N, M, sl) mt = .ok (N', M', sl'))
    (hn : NodupKeys M) : NodupKeys M' := by
  cases mt <;> simp only [processMetaType, bind, Except.bind] at h
  all_goals try cases h
  repeat' split at h
  all_goals cases h
  all_goals first
    | exact hn
    | exact nodup_aset _ _ hn

theorem foldlM_pmt_metaPairs {ext : ExtEnv} {mk s : String} {dirs : List Val}
    {N M nd md : Dict} {sl b : Bool}
    (h : dirs.foldlM (processMetaType ext mk s) (N, M, sl) = .ok (nd, md, b)) :
    (∀ a w, (a, w) ∈ md → (a, w) ∈ M ∨ a = s) ∧ (NodupKeys M → NodupKeys md) := by
  induction dirs generalizing N M sl with
  | nil =>
    simp only [List.foldlM_nil] at h
    cases h
    exact ⟨fun a w hm => Or.inl hm, id⟩
  | cons d rest ih =>
    rw [List.foldlM_cons] at h
    rcases hstep : processMetaType ext mk s (N, M, sl) d with e | ⟨N1, M1, sl1⟩
    · rw [hstep] at h
      simp [bind, Except.bind] at h
    · rw [hstep] at h
      simp only [bind, Except.bind] at h
      obtain ⟨hsub, hnd⟩ := ih h
      refine ⟨fun a w hm => ?_, fun hn => hnd (processMetaType_nodupM hstep hn)⟩
      rcases hsub a w hm with h1 | h1
      · exact processMetaType_metaPairs hstep h1
      · exact Or.inr h1

theorem processMetaKey_metaPairs {ext : ExtEnv} {N M N' M' : Dict} {mk : String}
    (h : processMetaKey ext (N, M) mk = .ok (N', M')) (hn : NodupKeys M) :
    (∀ a w, (a, w) ∈ M' → (a, w) ∈ M) ∧ NodupKeys M' := by
  obtain ⟨mt, dirs, nd, md, b, hmt, _, hfold, _, _, _, hM'⟩ := processMetaKey_ok_elim h
  subst hM'
  obtain ⟨hsub, hnd⟩ := foldlM_pmt_metaPairs hfold
  have hndmd : NodupKeys md := hnd hn
  refine ⟨fun a w hm => ?_, nodup_aerase _ (nodup_aerase _ hndmd)⟩
  have hmd : (a, w) ∈ md := mem_aerase (mem_aerase hm)
  rcases hsub a w hmd with h1 | h1
  · exact h1
  · exfalso
    rw [h1] at hm
    have hkey : stripSuffixStr mk "_meta" ∈
        akeys (aerase (aerase md mk) (stripSuffixStr mk "_meta")) :=
      mem_akeys.2 ⟨w, hm⟩
    exact not_mem_akeys_aerase (nodup_aerase _ hndmd) hkey

theorem goodEntries_cons {ext : ExtEnv} {n : String} {rest : List Val} :
    goodEntries ext (Val.str n :: rest) =
      (if strStartsWith n "dynamic" then false
       else if strStartsWith n "lazy" then
         (getDirective? ext (stripPrefixStr n "lazy")).isSome && rest.isEmpty
       else (getDirective? ext n).isSome && goodEntries ext rest) := rfl

theorem ddel_err {d : Dict} {k : String} {e : Err}
    (h : ddel d k = .error e) : e = .missingKey k := by
  simp only [ddel] at h
  split at h
  · cases h
  · cases h; rfl

theorem foldlM_pmt_good {ext : ExtEnv} {mk s : String} :
    ∀ (dirs : List Val) (N M : Dict) (e : Err),
      goodEntries ext dirs = true →
      dirs.foldlM (processMetaType ext mk s) (N, M, false) = .error e →
      isInvalidDirective e = false := by
  intro dirs
  induction dirs with
  | nil =>
    intro N M e _ h
    simp [List.foldlM_nil, pure, Except.pure] at h
  | cons d rest ih =>
    intro N M e hgood h
    cases d <;> try (simp [goodEntries] at hgood)
    rename_i n
    rw [List.foldlM_cons] at h
    rcases hd : strStartsWith n "dynamic" with _ | _
    · rcases hl : strStartsWith n "lazy" with _ | _
      · simp only [hl, Bool.false_eq_true, if_false] at hgood
        rcases hstep : processMetaType ext mk s (N, M, false) (Val.str n)
          with e1 | ⟨N1, M1, sl1⟩
        · rw [hstep] at h
          simp only [bind, Except.bind] at h
          cases h
          refine processMetaType_good_err hd ?_ hstep
          rw [if_neg (by simp [hl])]
          exact hgood.2.1
        · rw [hstep] at h
          simp only [bind, Except.bind] at h
          have hsl : sl1 = false := by
            rw [processMetaType_seen_lazy hstep, hl]
          rw [hsl] at h
          exact ih N1 M1 e hgood.2.2 h
      · simp only [hl, if_true, if_pos rfl] at hgood
        rcases hstep : processMetaType ext mk s (N, M, false) (Val.str n)
          with e1 | ⟨N1, M1, sl1⟩
        · rw [hstep] at h
          simp only [bind, Except.bind] at h
          cases h
          refine processMetaType_good_err hd ?_ hstep
          rw [if_pos hl]
          exact hgood.2.1
        · rw [hstep] at h
          simp only [bind, Except.bind] at h
          rw [hgood.2.2] at h
          simp [List.foldlM_nil, pure, Except.pure] at h
    · rw [hd] at hgood
      simp at hgood

theorem processMetaKey_good_err {ext : ExtEnv} {N M : Dict} {mk : String} {e : Err}
    (hgood : ∀ kv ∈ M, strEndsWith kv.1 "_meta" = true →
      goodDirectives ext kv.2 = true)
    (hmeta : strEndsWith mk "_meta" = true)
    (h : processMetaKey ext (N, M) mk = .error e) :
    isInvalidDirective e = false := by
  simp only [processMetaKey, bind, Except.bind] at h
  split at h
  · cases h; rfl
  · rename_i mt hmt
    have hgd : goodDirectives ext mt = true :=
      hgood (mk, mt) (aget?_mem hmt) hmeta
    split at h
    · rename_i n
      split at h
      · rename_i e1 hfold
        cases h
        exact foldlM_pmt_good _ _ _ _ hgd hfold
      · rename_i v hfold
        rcases hd1 : ddel v.2.1 mk with e1 | md1
        · simp only [hd1] at h
          cases h
          rw [ddel_err hd1]
          rfl
        · simp only [hd1] at h
          rcases hd2 : ddel md1 (stripSuffixStr mk "_meta") with e2 | md2
          · simp only [hd2] at h
            cases h
            rw [ddel_err hd2]
            rfl
          · simp only [hd2] at h
            cases h
    · rename_i l
      split at h
      · rename_i e1 hfold
        cases h
        exact foldlM_pmt_good _ _ _ _ hgd hfold
      · rename_i v hfold
        rcases hd1 : ddel v.2.1 mk with e1 | md1
        · simp only [hd1] at h
          cases h
          rw [ddel_err hd1]
          rfl
        · simp only [hd1] at h
          rcases hd2 : ddel md1 (stripSuffixStr mk "_meta") with e2 | md2
          · simp only [hd2] at h
            cases h
            rw [ddel_err hd2]
            rfl
          · simp only [hd2] at h
            cases h
    all_goals
      simp [goodDirectives] at hgd

theorem foldlM_pmk_good {ext : ExtEnv} :
    ∀ (R : List String) (N M : Dict) (e : Err),
      (∀ mk ∈ R, strEndsWith mk "_meta" = true) →
      NodupKeys M →
      (∀ kv ∈ M, strEndsWith kv.1 "_meta" = true →
        goodDirectives ext kv.2 = true) →
      R.foldlM (processMetaKey ext) (N, M) = .error e →
      isInvalidDirective e = false := by
  intro R
  induction R with
  | nil =>
    intro N M e _ _ _ h
    simp [List.foldlM_nil, pure, Except.pure] at h
  | cons mk rest ih =>
    intro N M e hR hn hgood h
    rw [List.foldlM_cons] at h
    rcases hstep : processMetaKey ext (N, M) mk with e1 | ⟨N1, M1⟩
    · rw [hstep] at h
      simp only [bind, Except.bind] at h
      cases h
      exact processMetaKey_good_err hgood (hR mk (by simp)) hstep
    · rw [hstep] at h
      simp only [bind, Except.bind] at h
      obtain ⟨hsub, hnd1⟩ := processMetaKey_metaPairs hstep hn
      refine ih N1 M1 e (fun k hk => hR k (by simp [hk])) hnd1 ?_ h
      intro kv hkv hend
      exact hgood kv (hsub kv.1 kv.2 hkv) hend

/-- C9 (counterexample): the directive list `["json2list", "dynamicsubst"]`
contains a `dynamic*` name — one of the five invalid-directive conditions —
yet evaluation raises an assertion error from the earlier `json2list`
application, not an invalid-directive error.  So an invalid-directive error
is not raised "exactly when" one of the five conditions holds. -/
theorem C9_counterexample :
    update_and_expand_meta noExt []
      [("k", Val.vlist [Val.int 1]),
       ("k_meta", Val.vlist [Val.str "json2list", Val.str "dynamicsubst"])] =
      .error (Err.assertionFailed
        "json2list requires a JSON string that is a list") ∧
    strStartsWith "dynamicsubst" "dynamic" = true ∧
    isInvalidDirective (Err.assertionFailed
      "json2list requires a JSON string that is a list") = false :=
  ⟨rfl, rfl, rfl⟩

/-- C9 (amended): a meta dictionary all of whose `_meta` values are directive
lists free of the five invalid-directive conditions (every entry a string,
no `dynamic*` prefix, every name registered after stripping `lazy`, at most
one lazy directive and nothing after it) never makes the eager evaluator
raise an invalid-directive error: any error it raises is of another kind. -/
theorem C9_good_lists_no_invalid_directive (ext : ExtEnv)
    (config_dict meta_dict : Dict) (e : Err)
    (hn : NodupKeys meta_dict)
    (hgood : ∀ kv ∈ meta_dict, strEndsWith kv.1 "_meta" = true →
      goodDirectives ext kv.2 = true)
    (h : update_and_expand_meta ext config_dict meta_dict = .error e) :
    isInvalidDirective e = false := by
  simp only [update_and_expand_meta, deepdict, bind, Except.bind] at h
  rcases hfold : ((akeys meta_dict).filter
      (fun k => strEndsWith k "_meta")).foldlM
      (processMetaKey ext) (config_dict, meta_dict) with e1 | p
  · simp only [hfold] at h
    cases h
    refine foldlM_pmk_good _ _ _ _ ?_ hn hgood hfold
    intro mk hmk
    exact (List.mem_filter.1 hmk).2
  · simp only [hfold] at h
    cases h

theorem C9_good_lists_no_invalid_directive_witness :
    isInvalidDirective (Err.missingKey "k") = false :=
  C9_good_lists_no_invalid_directive noExt [] [("k_meta", Val.str "append")]
    (Err.missingKey "k") (by decide) (by decide) rfl

theorem next_free_shape {d d' : Dict} {i : Int}
    (h : _get_next_free_index d = .ok (i, d')) :
    ∃ d0, (d0 = d ∨ d0 = aset d _NEXT_FREE_INDEX_KEY (Val.int 1)) ∧
      d' = aset d0 _NEXT_FREE_INDEX_KEY (Val.int (i + 1)) := by
  simp only [_get_next_free_index, bind, Except.bind] at h
  repeat' split at h
  all_goals try cases h
  all_goals first
    | exact ⟨_, Or.inl rfl, rfl⟩
    | exact ⟨_, Or.inr rfl, rfl⟩

theorem next_free_nodup {d d' : Dict} {i : Int}
    (h : _get_next_free_index d = .ok (i, d')) (hn : NodupKeys d) :
    NodupKeys d' := by
  obtain ⟨d0, hd0, rfl⟩ := next_free_shape h
  rcases hd0 with rfl | rfl
  · exact nodup_aset _ _ hn
  · exact nodup_aset _ _ (nodup_aset _ _ hn)

theorem next_free_nodup' {d : Dict} {p : Int × Dict}
    (h : _get_next_free_index d = .ok p) (hn : NodupKeys d) : NodupKeys p.2 := by
  obtain ⟨i, d'⟩ := p
  exact next_free_nodup h hn

theorem action_nodup' {ext : ExtEnv} {b : String} {dir : MetaDirective}
    {d d' : Dict} {k : String} {v : Val} {p : MetaDirectiveParams}
    (h : dir.action d k v p = .ok d') (hdir : getDirective? ext b = some dir)
    (hn : NodupKeys d) : NodupKeys d' := action_nodup hdir h hn

theorem processMetaType_nodupN {ext : ExtEnv} {mk s : String}
    {N M N' M' : Dict} {sl sl' : Bool} {mt : Val}
    (h : processMetaType ext mk s (N, M, sl) mt = .ok (N', M', sl'))
    (hn : NodupKeys N) : NodupKeys N' := by
  cases mt <;> simp only [processMetaType, bind, Except.bind] at h
  all_goals try cases h
  repeat' split at h
  all_goals try cases h
  all_goals first
    | exact nodup_dupdate hn
    | exact nodup_dupdate (next_free_nodup' (by assumption) hn)
    | exact action_nodup' (by assumption) (by assumption) hn

theorem foldlM_pmt_nodupN {ext : ExtEnv} {mk s : String} :
    ∀ {dirs : List Val} {N M nd md : Dict} {sl b : Bool},
      dirs.foldlM (processMetaType ext mk s) (N, M, sl) = .ok (nd, md, b) →
      NodupKeys N → NodupKeys nd := by
  intro dirs
  induction dirs with
  | nil =>
    intro N M nd md sl b h hn
    simp only [List.foldlM_nil, pure, Except.pure] at h
    cases h
    exact hn
  | cons d rest ih =>
    intro N M nd md sl b h hn
    rw [List.foldlM_cons] at h
    rcases hstep : processMetaType ext mk s (N, M, sl) d with e1 | ⟨N1, M1, sl1⟩
    · rw [hstep] at h
      simp only [bind, Except.bind] at h
      cases h
    · rw [hstep] at h
      simp only [bind, Except.bind] at h
      exact ih h (processMetaType_nodupN hstep hn)

theorem processMetaKey_nodupN {ext : ExtEnv} {N M N' M' : Dict} {mk : String}
    (h : processMetaKey ext (N, M) mk = .ok (N', M')) (hn : NodupKeys N) :
    NodupKeys N' := by
  obtain ⟨mt, dirs, nd, md, b, _, _, hfold, _, _, hN', _⟩ := processMetaKey_ok_elim h
  subst hN'
  exact foldlM_pmt_nodupN hfold hn

theorem foldlM_pmk_nodup {ext : ExtEnv} :
    ∀ {R : List String} {N M N' M' : Dict},
      R.foldlM (processMetaKey ext) (N, M) = .ok (N', M') →
      NodupKeys N → NodupKeys M → NodupKeys N' ∧ NodupKeys M' := by
  intro R
  induction R with
  | nil =>
    intro N M N' M' h hn hm
    simp only [List.foldlM_nil, pure, Except.pure] at h
    cases h
    exact ⟨hn, hm⟩
  | cons mk rest ih =>
    intro N M N' M' h hn hm
    rw [List.foldlM_cons] at h
    rcases hstep : processMetaKey ext (N, M) mk with e1 | ⟨N1, M1⟩
    · rw [hstep] at h
      simp only [bind, Except.bind] at h
      cases h
    · rw [hstep] at h
      simp only [bind, Except.bind] at h
      exact ih h (processMetaKey_nodupN hstep hn)
        (processMetaKey_metaPairs hstep hm).2

theorem update_and_expand_meta_nodup {ext : ExtEnv} {C P C' : Dict}
    (h : update_and_expand_meta ext C P = .ok C')
    (hn : NodupKeys C) (hp : NodupKeys P) : NodupKeys C' := by
  simp only [update_and_expand_meta, deepdict, bind, Except.bind] at h
  rcases hfold : ((akeys P).filter (fun k => strEndsWith k "_meta")).foldlM
      (processMetaKey ext) (C, P) with e1 | ⟨nd, md⟩
  · simp only [hfold] at h
    cases h
  · simp only [hfold] at h
    cases h
    exact nodup_dupdate (foldlM_pmk_nodup hfold hn hp).1

theorem foldlM_update_nodup {ext : ExtEnv} :
    ∀ {configs : List Dict} {W W' : Dict},
      configs.foldlM (update_and_expand_meta ext) W = .ok W' →
      NodupKeys W → (∀ c ∈ configs, NodupKeys c) → NodupKeys W' := by
  intro configs
  induction configs with
  | nil =>
    intro W W' h hn _
    simp only [List.foldlM_nil, pure, Except.pure] at h
    cases h
    exact hn
  | cons c rest ih =>
    intro W W' h hn hall
    rw [List.foldlM_cons] at h
    rcases hstep : update_and_expand_meta ext W c with e1 | W1
    · rw [hstep] at h
      simp only [bind, Except.bind] at h
      cases h
    · rw [hstep] at h
      simp only [bind, Except.bind] at h
      exact ih h (update_and_expand_meta_nodup hstep hn (hall c (by simp)))
        (fun c' hc' => hall c' (by simp [hc']))

theorem ddel_ok {d d' : Dict} {k : String} (h : ddel d k = .ok d') :
    d' = aerase d k := by
  simp only [ddel] at h
  split at h
  · cases h; rfl
  · cases h

theorem build_lazy_step_elim {ext : ExtEnv} {orig E lm : Dict} {g : GDict}
    {mk : String} {E' lm' : Dict} {g' : GDict}
    (h : build_lazy_step ext orig (E, lm, g) mk = .ok (E', lm', g')) :
    ∃ lazy_meta_type sv,
      aget? E mk = some (Val.str lazy_meta_type) ∧
      strStartsWith lazy_meta_type "lazy" = true ∧
      (getDirective? ext (stripPrefixStr lazy_meta_type "lazy")).isSome = true ∧
      aget? E (stripSuffixStr mk "_meta") = some sv ∧
      lm' = aset (aset lm mk (Val.str (stripPrefixStr lazy_meta_type "lazy")))
        (stripSuffixStr mk "_meta") sv ∧
      E' = aerase (aerase E mk) (stripSuffixStr mk "_meta") := by
  simp only [build_lazy_step, bind, Except.bind] at h
  rcases hmk : aget? E mk with _ | lv
  · simp only [hmk] at h
    cases h
  simp only [hmk] at h
  rcases lv with _ | b | n | lmt | xs
  case null | bool | int | vlist => cases h
  dsimp only at h
  rcases hlz : strStartsWith lmt "lazy" with _ | _
  · rw [if_pos (by simp [hlz])] at h
    cases h
  rw [if_neg (by simp [hlz])] at h
  rcases hsv : aget? E (stripSuffixStr mk "_meta") with _ | sv
  · simp only [hsv] at h
    cases h
  simp only [hsv] at h
  rcases hdir : getDirective? ext (stripPrefixStr lmt "lazy") with _ | dir
  · simp only [hdir] at h
    cases h
  simp only [hdir] at h
  rcases htg : dir.target_settings (stripSuffixStr mk "_meta") sv with e1 | tgs
  · simp only [htg] at h
    cases h
  simp only [htg] at h
  rcases hd1 : ddel E mk with e1 | E1
  · simp only [hd1] at h
    cases h
  simp only [hd1] at h
  rcases hd2 : ddel E1 (stripSuffixStr mk "_meta") with e2 | E2
  · simp only [hd2] at h
    cases h
  simp only [hd2] at h
  cases h
  refine ⟨lmt, sv, rfl, hlz, by rw [hdir]; rfl, rfl, rfl, ?_⟩
  rw [ddel_ok hd2, ddel_ok hd1]

theorem build_doom {ext : ExtEnv} {orig : Dict} :
    ∀ {R : List String} {E lm : Dict} {g : GDict} {st : Dict × Dict × GDict},
      (∃ k, k ∈ R ∧ aget? E k = none) →
      R.foldlM (build_lazy_step ext orig) (E, lm, g) = .ok st → False := by
  intro R
  induction R with
  | nil =>
    rintro E lm g st ⟨k, hk, _⟩ _
    simp at hk
  | cons mk R ih =>
    rintro E lm g st ⟨k, hk, hnone⟩ h
    rw [List.foldlM_cons] at h
    rcases hstep : build_lazy_step ext orig (E, lm, g) mk with e1 | ⟨E1, lm1, g1⟩
    · rw [hstep] at h
      simp only [bind, Except.bind] at h
      cases h
    · rw [hstep] at h
      simp only [bind, Except.bind] at h
      obtain ⟨lmt, sv, hmkE, _, _, _, _, hE1⟩ := build_lazy_step_elim hstep
      rcases List.mem_cons.1 hk with rfl | hkR
      · rw [hmkE] at hnone
        cases hnone
      · refine ih ⟨k, hkR, ?_⟩ h
        rw [hE1]
        exact aget?_aerase_none (aget?_aerase_none hnone mk) _

theorem build_fold_props {ext : ExtEnv} {orig : Dict} :
    ∀ {R : List String} {E lm : Dict} {g : GDict} {E' lm' : Dict} {g' : GDict},
      R.foldlM (build_lazy_step ext orig) (E, lm, g) = .ok (E', lm', g') →
      (∀ k ∈ R, strEndsWith k "_meta" = true) →
      NodupKeys E →
      (∀ k ∈ akeys E, strEndsWith k "_meta" = true → k ∈ R) →
      lazyMetasGood ext lm →
      NodupKeys E' ∧ (∀ k ∈ akeys E', strEndsWith k "_meta" = false) ∧
        lazyMetasGood ext lm' := by
  intro R
  induction R with
  | nil =>
    intro E lm g E' lm' g' h _ hnE hsub hJ
    simp only [List.foldlM_nil, pure, Except.pure] at h
    cases h
    refine ⟨hnE, fun k hk => ?_, hJ⟩
    rcases he : strEndsWith k "_meta" with _ | _
    · rfl
    · exact absurd (hsub k hk he) (by simp)
  | cons mk R ih =>
    intro E lm g E' lm' g' h hR hnE hsub hJ
    rw [List.foldlM_cons] at h
    rcases hstep : build_lazy_step ext orig (E, lm, g) mk with e1 | ⟨E1, lm1, g1⟩
    · rw [hstep] at h
      simp only [bind, Except.bind] at h
      cases h
    · rw [hstep] at h
      simp only [bind, Except.bind] at h
      obtain ⟨lmt, sv, hmkE, hlzp, hreg, hsvE, hlm1, hE1⟩ :=
        build_lazy_step_elim hstep
      have hmeta_mk : strEndsWith mk "_meta" = true := hR mk (by simp)
      have hdec := strEndsWith_decompose hmeta_mk
      rcases hset : strEndsWith (stripSuffixStr mk "_meta") "_meta" with _ | _
      · -- the stripped setting is not itself a meta key: invariants carry over
        refine ih h (fun k hk => hR k (by simp [hk])) ?_ ?_ ?_
        · rw [hE1]
          exact nodup_aerase _ (nodup_aerase _ hnE)
        · intro k hk hend
          have hkE : k ∈ akeys E := by
            rw [hE1] at hk
            exact akeys_aerase_subset (akeys_aerase_subset hk)
          rcases List.mem_cons.1 (hsub k hkE hend) with rfl | hkR
          · exfalso
            rw [hE1] at hk
            exact not_mem_akeys_aerase hnE (akeys_aerase_subset hk)
          · exact hkR
        · intro k v hkend hkv
          have hks : k ≠ stripSuffixStr mk "_meta" := by
            intro hc
            rw [hc, hset] at hkend
            cases hkend
          rw [hlm1, aget?_aset_ne _ _ hks] at hkv
          by_cases hkmk : k = mk
          · subst hkmk
            rw [aget?_aset_self] at hkv
            cases hkv
            exact ⟨_, rfl, hreg⟩
          · rw [aget?_aset_ne _ _ hkmk] at hkv
            exact hJ k v hkend hkv
      · -- the stripped setting is itself a meta key: it was just deleted but
        -- still pending in the worklist, so the remaining fold must fail
        exfalso
        have hsmem : stripSuffixStr mk "_meta" ∈ akeys E := by
          rw [← aget?_isSome_iff, hsvE]
          rfl
        have hne : stripSuffixStr mk "_meta" ≠ mk := by
          intro hc
          rw [hc] at hdec
          exact self_ne_meta mk hdec.symm
        have hsR : stripSuffixStr mk "_meta" ∈ R := by
          rcases List.mem_cons.1 (hsub _ hsmem hset) with h1 | h1
          · exact absurd h1 hne
          · exact h1
        refine build_doom ⟨stripSuffixStr mk "_meta", hsR, ?_⟩ h
        rw [hE1]
        exact aget?_eq_none_iff.2 (not_mem_akeys_aerase (nodup_aerase _ hnE))

theorem build_lazy_state_props {ext : ExtEnv} {W E lm : Dict} {g : GDict}
    (h : build_lazy_state ext W = .ok (E, lm, g)) (hn : NodupKeys W) :
    NodupKeys E ∧ (∀ k ∈ akeys E, strEndsWith k "_meta" = false) ∧
      lazyMetasGood ext lm := by
  simp only [build_lazy_state, deepdict] at h
  refine build_fold_props h (fun k hk => (List.mem_filter.1 hk).2) hn
    (fun k hk hend => List.mem_filter.2 ⟨hk, hend⟩) ?_
  intro k v _ hv
  simp [aget?] at hv

theorem processMetaKey_two_key {ext : ExtEnv} {C : Dict} {t : String}
    {v : Val} {n : String} {dir : MetaDirective}
    (hdir : getDirective? ext n = some dir)
    {nd md : Dict}
    (h : processMetaKey ext (C, [(t, v), (t ++ "_meta", Val.str n)]) (t ++ "_meta")
      = .ok (nd, md)) :
    ∃ w, nd = aset C t w ∧ md = [] := by
  obtain ⟨hlz, hdy⟩ := registered_not_lazy_dynamic hdir
  have hne := self_ne_meta t
  have hget : aget? [(t, v), (t ++ "_meta", Val.str n)] (t ++ "_meta")
      = some (Val.str n) := by
    simp [aget?, hne]
  have hgett : aget? [(t, v), (t ++ "_meta", Val.str n)] t = some v := by
    simp [aget?]
  simp only [processMetaKey, bind, Except.bind, hget, stripSuffix_append,
    List.foldlM_cons, List.foldlM_nil, processMetaType, hdy, hlz,
    Bool.false_eq_true, if_false, hdir, hgett] at h
  rcases hact : dir.action C t v
      ⟨(aget? [(t, v), (t ++ "_meta", Val.str n)] _CONFIG_PATH_KEY).getD
        (Val.str "unspecified")⟩ with e1 | nd0
  · simp only [hact] at h
    cases h
  obtain ⟨d0, w, rfl, hd0⟩ := action_shape hdir hact
  have hset1 : aset [(t, v), (t ++ "_meta", Val.str n)] t w
      = [(t, w), (t ++ "_meta", Val.str n)] := by
    simp [aset]
  have hdd1 : ddel [(t, w), (t ++ "_meta", Val.str n)] (t ++ "_meta")
      = .ok [(t, w)] := by
    simp [ddel, aget?, aerase, hne]
  have hdd2 : ddel [(t, w)] t = .ok ([] : Dict) := by
    simp [ddel, aget?, aerase]
  simp only [hact, aget?_aset_self, pure, Except.pure, hset1, hdd1, hdd2] at h
  cases h
  rcases hd0 with rfl | rfl
  · exact ⟨w, rfl, rfl⟩
  · rw [aset_aset]
    exact ⟨w, rfl, rfl⟩

theorem combine_meta_step {ext : ExtEnv} {lm C C' : Dict} {t : String}
    (h : combine_meta ext lm C t = .ok C')
    (hJ : lazyMetasGood ext lm)
    (hn : NodupKeys C)
    (hm : ∀ k ∈ akeys C, strEndsWith k "_meta" = false) :
    NodupKeys C' ∧ (∀ k ∈ akeys C', strEndsWith k "_meta" = false) := by
  simp only [combine_meta] at h
  rcases hv : aget? lm t with _ | v
  · simp only [hv] at h
    cases h
  rcases hmm : aget? lm (t ++ "_meta") with _ | m
  · simp only [hv, hmm] at h
    cases h
  simp only [hv, hmm] at h
  have hends : strEndsWith (t ++ "_meta") "_meta" = true := strEndsWith_append t "_meta"
  obtain ⟨n, rfl, hreg⟩ := hJ _ m hends hmm
  obtain ⟨dir, hdir⟩ := Option.isSome_iff_exists.1 hreg
  have hP : aset (aset ([] : Dict) t v) (t ++ "_meta") (Val.str n)
      = [(t, v), (t ++ "_meta", Val.str n)] := by
    simp [aset, self_ne_meta t]
  rw [hP] at h
  rcases hend : strEndsWith t "_meta" with _ | _
  · -- the target setting is not itself a meta key: compute the update
    simp only [update_and_expand_meta, deepdict, bind, Except.bind] at h
    have hfilter : (akeys [(t, v), (t ++ "_meta", Val.str n)]).filter
        (fun k => strEndsWith k "_meta") = [t ++ "_meta"] := by
      simp [akeys, hend, hends]
    rw [hfilter, List.foldlM_cons] at h
    simp only [List.foldlM_nil] at h
    rcases hpk : processMetaKey ext (C, [(t, v), (t ++ "_meta", Val.str n)])
        (t ++ "_meta") with e1 | ⟨nd, md⟩
    · simp only [hpk] at h
      cases h
    simp only [hpk, pure, Except.pure] at h
    obtain ⟨w, rfl, rfl⟩ := processMetaKey_two_key hdir hpk
    simp only [dupdate, List.foldl_nil] at h
    cases h
    refine ⟨nodup_aset _ _ hn, fun k hk => ?_⟩
    rcases mem_akeys_aset.1 hk with h1 | rfl
    · exact hm k h1
    · exact hend
  · -- the target setting ends in `_meta`: re-expansion necessarily fails
    exfalso
    have hd := strEndsWith_decompose hend
    have hne1 : stripSuffixStr t "_meta" ≠ t := by
      intro hc
      rw [hc] at hd
      exact self_ne_meta t hd.symm
    have hne2 : stripSuffixStr t "_meta" ≠ t ++ "_meta" := by
      apply ne_of_data_length
      have hlen : (stripSuffixStr t "_meta").data.length + 5 = t.data.length := by
        have h0 := congrArg String.data hd
        have h1 := congrArg List.length h0
        simpa [String.data_append] using h1
      rw [String.data_append, List.length_append]
      have h5 : ("_meta" : String).data.length = 5 := rfl
      omega
    obtain ⟨e, he⟩ := @update_and_expand_meta_doom ext C
      [(t, v), (t ++ "_meta", Val.str n)] t hend (by simp [akeys])
      (by simp [akeys, hne1, hne2])
    rw [he] at h
    cases h

theorem foldlM_combine_meta {ext : ExtEnv} {lm : Dict} :
    ∀ {S : List String} {C C' : Dict},
      S.foldlM (combine_meta ext lm) C = .ok C' →
      lazyMetasGood ext lm → NodupKeys C →
      (∀ k ∈ akeys C, strEndsWith k "_meta" = false) →
      NodupKeys C' ∧ (∀ k ∈ akeys C', strEndsWith k "_meta" = false) := by
  intro S
  induction S with
  | nil =>
    intro C C' h _ hn hm
    simp only [List.foldlM_nil, pure, Except.pure] at h
    cases h
    exact ⟨hn, hm⟩
  | cons t rest ih =>
    intro C C' h hJ hn hm
    rw [List.foldlM_cons] at h
    rcases hstep : combine_meta ext lm C t with e1 | C1
    · rw [hstep] at h
      simp only [bind, Except.bind] at h
      cases h
    · rw [hstep] at h
      simp only [bind, Except.bind] at h
      obtain ⟨hn1, hm1⟩ := combine_meta_step hstep hJ hn hm
      exact ih h hJ hn1 hm1

theorem final_strip_props {F : Dict} (hF : NodupKeys F)
    (hm : ∀ k ∈ akeys F, strEndsWith k "_meta" = false) :
    (∀ k ∈ akeys (aerase (aerase F _CONFIG_PATH_KEY) _NEXT_FREE_INDEX_KEY),
      strEndsWith k "_meta" = false) ∧
    ∀ k ∈ internal_keys,
      k ∉ akeys (aerase (aerase F _CONFIG_PATH_KEY) _NEXT_FREE_INDEX_KEY) := by
  refine ⟨fun k hk => hm k (akeys_aerase_subset (akeys_aerase_subset hk)), ?_⟩
  intro k hk
  simp only [internal_keys, List.mem_cons, List.not_mem_nil, or_false] at hk
  rcases hk with rfl | rfl
  · intro hc
    exact not_mem_akeys_aerase hF (akeys_aerase_subset hc)
  · exact not_mem_akeys_aerase (nodup_aerase _ hF)

/-- C5: when `combine_configs` succeeds on providers with distinct keys, the
resolved mapping has no key ending in `_meta` and none of the reserved
internal keys (`_config_path`, `_next_free_index`). -/
theorem C5_resolved_no_meta_no_internal (ext : ExtEnv) (configs : List Dict)
    (D : Dict) (hn : ∀ c ∈ configs, NodupKeys c)
    (h : combine_configs ext configs = .ok D) :
    (∀ k ∈ akeys D, strEndsWith k "_meta" = false) ∧
    ∀ k ∈ internal_keys, k ∉ akeys D := by
  simp only [combine_configs, bind, Except.bind, deepdict] at h
  rcases h1 : configs.foldlM (update_and_expand_meta ext) [] with e1 | W
  · simp only [h1] at h
    cases h
  simp only [h1] at h
  have hnW : NodupKeys W :=
    foldlM_update_nodup h1 (by simp [NodupKeys, akeys]) hn
  rcases h2 : build_lazy_state ext W with e2 | ⟨E, lm, g⟩
  · simp only [h2] at h
    cases h
  simp only [h2] at h
  obtain ⟨hnE, hmE, hJ⟩ := build_lazy_state_props h2 hnW
  split at h
  · split at h
    · cases h
    · rcases h3 : (topological_sort g (starting_nodes g)).foldlM
          (combine_meta ext lm) E with e3 | F
      · simp only [h3] at h
        cases h
      simp only [h3] at h
      cases h
      obtain ⟨hnF, hmF⟩ := foldlM_combine_meta h3 hJ hnE hmE
      exact final_strip_props hnF hmF
  · cases h
    exact final_strip_props hnE hmE

theorem C5_resolved_no_meta_no_internal_witness :
    (∀ k ∈ akeys [("a", Val.str "1")], strEndsWith k "_meta" = false) ∧
    ∀ k ∈ internal_keys, k ∉ akeys [("a", Val.str "1")] :=
  C5_resolved_no_meta_no_internal noExt [[("a", Val.str "1")]]
    [("a", Val.str "1")] (by decide) rfl

theorem olookup_oset_self : ∀ (o : NObj) (k : String) (v : NVal),
    olookup (oset o k v) k = some v
  | .nil, k, v => by simp [oset, olookup]
  | .cons k' v' rest, k, v => by
    by_cases h : k' = k
    · subst h
      simp [oset, olookup]
    · simp [oset, olookup, h, olookup_oset_self rest k v]

theorem olookup_oset_ne : ∀ (o : NObj) {k k' : String} (v : NVal),
    k' ≠ k → olookup (oset o k v) k' = olookup o k'
  | .nil, k, k', v, h => by
    have hkk : ¬ (k = k') := fun hc => h hc.symm
    simp [oset, olookup, hkk]
  | .cons k0 v0 rest, k, k', v, h => by
    have hkk : ¬ (k = k') := fun hc => h hc.symm
    by_cases h0 : k0 = k
    · subst h0
      simp [oset, olookup, hkk]
    · simp [oset, olookup, h0, olookup_oset_ne rest v h]

theorem oset_oset : ∀ (o : NObj) (k : String) (v w : NVal),
    oset (oset o k v) k w = oset o k w
  | .nil, k, v, w => by simp [oset]
  | .cons k' v' rest, k, v, w => by
    by_cases h : k' = k
    · subst h
      simp [oset]
    · simp [oset, h, oset_oset rest k v w]

theorem oset_absent : ∀ {o : NObj} {k : String} (v : NVal),
    olookup o k = none → oset o k v = oAppend o (.cons k v .nil)
  | .nil, k, v, _ => by simp [oset, oAppend]
  | .cons k' v' rest, k, v, h => by
    simp only [olookup] at h
    split at h
    · cases h
    · rename_i hne
      simp only [oset, oAppend, if_neg hne]
      rw [oset_absent v h]

theorem oAppend_nil_right : ∀ o : NObj, oAppend o .nil = o
  | .nil => rfl
  | .cons k v rest => by simp [oAppend, oAppend_nil_right rest]

theorem oAppend_assoc : ∀ x y z : NObj,
    oAppend (oAppend x y) z = oAppend x (oAppend y z)
  | .nil, _, _ => rfl
  | .cons k v rest, y, z => by simp [oAppend, oAppend_assoc rest y z]

theorem olookup_oAppend_none : ∀ {x y : NObj} {k : String},
    olookup x k = none → olookup y k = none →
    olookup (oAppend x y) k = none
  | .nil, y, k, _, hy => by simpa [oAppend] using hy
  | .cons k' v rest, y, k, hx, hy => by
    simp only [olookup] at hx
    split at hx
    · cases hx
    · rename_i hne
      simp only [oAppend, olookup, if_neg hne]
      exact olookup_oAppend_none hx hy

theorem olookup_nil (k : String) : olookup .nil k = none := rfl

theorem descends_nil : ∀ P : List String, descends .nil P = true
  | [] => rfl
  | _ :: _ => rfl

theorem objAt_nil : ∀ P : List String, objAt .nil P = .nil
  | [] => rfl
  | _ :: _ => rfl

theorem graftAt_merge : ∀ (P : List String) (o x y : NObj),
    graftAt (graftAt o P x) P y = graftAt o P (oAppend x y) := by
  intro P
  induction P with
  | nil =>
    intro o x y
    cases x with
    | nil => rfl
    | cons kx vx rx =>
      cases y with
      | nil => rw [oAppend_nil_right]; rfl
      | cons ky vy ry =>
        show oAppend (oAppend o (NObj.cons kx vx rx)) (NObj.cons ky vy ry) = _
        rw [oAppend_assoc]
        rfl
  | cons p P ih =>
    intro o x y
    cases x with
    | nil => rfl
    | cons kx vx rx =>
      cases y with
      | nil => rw [oAppend_nil_right]; rfl
      | cons ky vy ry =>
        show graftAt (match olookup o p with
          | none => oset o p (.node (graftAt .nil P (NObj.cons kx vx rx)))
          | some (.node s) => oset o p (.node (graftAt s P (NObj.cons kx vx rx)))
          | some (.leaf _) => o) (p :: P) (NObj.cons ky vy ry) = _
        rcases hl : olookup o p with _ | ⟨w⟩ | s
        · show graftAt (oset o p (.node (graftAt .nil P (NObj.cons kx vx rx))))
            (p :: P) (NObj.cons ky vy ry) = _
          show (match olookup (oset o p (.node (graftAt .nil P (NObj.cons kx vx rx)))) p with
            | none => _ | some (.node s) => _ | some (.leaf _) => _) = _
          rw [olookup_oset_self]
          show oset (oset o p _) p (.node (graftAt (graftAt .nil P (NObj.cons kx vx rx)) P
            (NObj.cons ky vy ry))) = _
          rw [oset_oset, ih]
          show _ = (match olookup o p with
            | none => oset o p (.node (graftAt .nil P (oAppend (NObj.cons kx vx rx) (NObj.cons ky vy ry))))
            | some (.node s) => oset o p (.node (graftAt s P (oAppend (NObj.cons kx vx rx) (NObj.cons ky vy ry))))
            | some (.leaf _) => o)
          rw [hl]
        · show (match olookup o p with
            | none => _ | some (.node s) => _ | some (.leaf _) => o) = _
          rw [hl]
          show o = (match olookup o p with
            | none => _ | some (.node s) => _ | some (.leaf _) => o)
          rw [hl]
        · show graftAt (oset o p (.node (graftAt s P (NObj.cons kx vx rx))))
            (p :: P) (NObj.cons ky vy ry) = _
          show (match olookup (oset o p (.node (graftAt s P (NObj.cons kx vx rx)))) p with
            | none => _ | some (.node s) => _ | some (.leaf _) => _) = _
          rw [olookup_oset_self]
          show oset (oset o p _) p (.node (graftAt (graftAt s P (NObj.cons kx vx rx)) P
            (NObj.cons ky vy ry))) = _
          rw [oset_oset, ih]
          show _ = (match olookup o p with
            | none => oset o p (.node (graftAt .nil P (oAppend (NObj.cons kx vx rx) (NObj.cons ky vy ry))))
            | some (.node s) => oset o p (.node (graftAt s P (oAppend (NObj.cons kx vx rx) (NObj.cons ky vy ry))))
            | some (.leaf _) => o)
          rw [hl]

theorem objAt_graftAt : ∀ (P : List String) (o x : NObj),
    descends o P = true → objAt (graftAt o P x) P = oAppend (objAt o P) x := by
  intro P
  induction P with
  | nil =>
    intro o x _
    cases x with
    | nil => exact (oAppend_nil_right o).symm
    | cons kx vx rx => rfl
  | cons p P ih =>
    intro o x hd
    cases x with
    | nil => exact (oAppend_nil_right _).symm
    | cons kx vx rx =>
      have hd' : (match olookup o p with
          | none => true
          | some (.node s) => descends s P
          | some (.leaf _) => false) = true := hd
      show objAt (match olookup o p with
        | none => oset o p (.node (graftAt .nil P (NObj.cons kx vx rx)))
        | some (.node s) => oset o p (.node (graftAt s P (NObj.cons kx vx rx)))
        | some (.leaf _) => o) (p :: P) = oAppend (match olookup o p with
        | none => NObj.nil
        | some (.node s) => objAt s P
        | some (.leaf _) => NObj.nil) (NObj.cons kx vx rx)
      rcases hl : olookup o p with _ | ⟨w⟩ | s
      · rw [hl] at hd'
        show objAt (oset o p (.node (graftAt .nil P (NObj.cons kx vx rx))))
          (p :: P) = oAppend NObj.nil (NObj.cons kx vx rx)
        show (match olookup (oset o p (.node (graftAt .nil P (NObj.cons kx vx rx)))) p with
          | none => NObj.nil
          | some (.node s) => objAt s P
          | some (.leaf _) => NObj.nil) = oAppend NObj.nil (NObj.cons kx vx rx)
        rw [olookup_oset_self]
        show objAt (graftAt .nil P (NObj.cons kx vx rx)) P
          = oAppend NObj.nil (NObj.cons kx vx rx)
        rw [ih _ _ (descends_nil P), objAt_nil]
      · rw [hl] at hd'
        cases hd'
      · rw [hl] at hd'
        show objAt (oset o p (.node (graftAt s P (NObj.cons kx vx rx))))
          (p :: P) = oAppend (objAt s P) (NObj.cons kx vx rx)
        show (match olookup (oset o p (.node (graftAt s P (NObj.cons kx vx rx)))) p with
          | none => NObj.nil
          | some (.node s) => objAt s P
          | some (.leaf _) => NObj.nil) = oAppend (objAt s P) (NObj.cons kx vx rx)
        rw [olookup_oset_self]
        show objAt (graftAt s P (NObj.cons kx vx rx)) P
          = oAppend (objAt s P) (NObj.cons kx vx rx)
        rw [ih _ _ hd']

theorem descends_graftAt : ∀ (P : List String) (o x : NObj),
    descends o P = true → descends (graftAt o P x) P = true := by
  intro P
  induction P with
  | nil => intro o x _; rfl
  | cons p P ih =>
    intro o x hd
    cases x with
    | nil => exact hd
    | cons kx vx rx =>
      have hd' : (match olookup o p with
          | none => true
          | some (.node s) => descends s P
          | some (.leaf _) => false) = true := hd
      show descends (match olookup o p with
        | none => oset o p (.node (graftAt .nil P (NObj.cons kx vx rx)))
        | some (.node s) => oset o p (.node (graftAt s P (NObj.cons kx vx rx)))
        | some (.leaf _) => o) (p :: P) = true
      rcases hl : olookup o p with _ | ⟨w⟩ | s
      · show descends (oset o p (.node (graftAt .nil P (NObj.cons kx vx rx))))
          (p :: P) = true
        show (match olookup (oset o p (.node (graftAt .nil P (NObj.cons kx vx rx)))) p with
          | none => true
          | some (.node s) => descends s P
          | some (.leaf _) => false) = true
        rw [olookup_oset_self]
        exact ih _ _ (descends_nil P)
      · rw [hl] at hd'
        cases hd'
      · rw [hl] at hd'
        show descends (oset o p (.node (graftAt s P (NObj.cons kx vx rx))))
          (p :: P) = true
        show (match olookup (oset o p (.node (graftAt s P (NObj.cons kx vx rx)))) p with
          | none => true
          | some (.node s) => descends s P
          | some (.leaf _) => false) = true
        rw [olookup_oset_self]
        exact ih _ _ hd'

theorem graftAt_snoc : ∀ (P : List String) (o : NObj) (k : String) (x : NObj),
    descends o P = true → olookup (objAt o P) k = none → x ≠ .nil →
    graftAt o (P ++ [k]) x = graftAt o P (.cons k (.node x) .nil) := by
  intro P
  induction P with
  | nil =>
    intro o k x _ hlk hx
    have hlk0 : olookup o k = none := hlk
    cases x with
    | nil => exact absurd rfl hx
    | cons kx vx rx =>
      show (match olookup o k with
        | none => oset o k (.node (graftAt .nil [] (NObj.cons kx vx rx)))
        | some (.node s) => oset o k (.node (graftAt s [] (NObj.cons kx vx rx)))
        | some (.leaf _) => o) = _
      rw [hlk0]
      show oset o k (.node (oAppend .nil (NObj.cons kx vx rx))) = _
      show oset o k (.node (NObj.cons kx vx rx)) = _
      rw [oset_absent _ hlk0]
      rfl
  | cons p P ih =>
    intro o k x hd hlk hx
    cases x with
    | nil => exact absurd rfl hx
    | cons kx vx rx =>
      have hd' : (match olookup o p with
          | none => true
          | some (.node s) => descends s P
          | some (.leaf _) => false) = true := hd
      have hlk' : olookup (match olookup o p with
          | none => NObj.nil
          | some (.node s) => objAt s P
          | some (.leaf _) => NObj.nil) k = none := hlk
      show (match olookup o p with
        | none => oset o p (.node (graftAt .nil (P ++ [k]) (NObj.cons kx vx rx)))
        | some (.node s) => oset o p (.node (graftAt s (P ++ [k]) (NObj.cons kx vx rx)))
        | some (.leaf _) => o) = graftAt o (p :: P)
          (NObj.cons k (.node (NObj.cons kx vx rx)) NObj.nil)
      rcases hl : olookup o p with _ | ⟨w⟩ | s
      · rw [hl] at hlk'
        show oset o p (.node (graftAt .nil (P ++ [k]) (NObj.cons kx vx rx))) = _
        rw [ih .nil k _ (descends_nil P) (by rw [objAt_nil]; rfl) hx]
        show _ = (match olookup o p with
          | none => oset o p (.node (graftAt .nil P (NObj.cons k (.node (NObj.cons kx vx rx)) NObj.nil)))
          | some (.node s) => oset o p (.node (graftAt s P (NObj.cons k (.node (NObj.cons kx vx rx)) NObj.nil)))
          | some (.leaf _) => o)
        rw [hl]
      · rw [hl] at hd'
        cases hd'
      · rw [hl] at hd' hlk'
        show oset o p (.node (graftAt s (P ++ [k]) (NObj.cons kx vx rx))) = _
        rw [ih s k _ hd' hlk' hx]
        show _ = (match olookup o p with
          | none => oset o p (.node (graftAt .nil P (NObj.cons k (.node (NObj.cons kx vx rx)) NObj.nil)))
          | some (.node s) => oset o p (.node (graftAt s P (NObj.cons k (.node (NObj.cons kx vx rx)) NObj.nil)))
          | some (.leaf _) => o)
        rw [hl]

theorem descends_snoc : ∀ (P : List String) (o : NObj) (k : String),
    descends o P = true → olookup (objAt o P) k = none →
    descends o (P ++ [k]) = true := by
  intro P
  induction P with
  | nil =>
    intro o k _ hlk
    have hlk0 : olookup o k = none := hlk
    show (match olookup o k with
      | none => true
      | some (.node s) => descends s []
      | some (.leaf _) => false) = true
    rw [hlk0]
  | cons p P ih =>
    intro o k hd hlk
    have hd' : (match olookup o p with
        | none => true
        | some (.node s) => descends s P
        | some (.leaf _) => false) = true := hd
    have hlk' : olookup (match olookup o p with
        | none => NObj.nil
        | some (.node s) => objAt s P
        | some (.leaf _) => NObj.nil) k = none := hlk
    show (match olookup o p with
      | none => true
      | some (.node s) => descends s (P ++ [k])
      | some (.leaf _) => false) = true
    rcases hl : olookup o p with _ | ⟨w⟩ | s
    · rfl
    · rw [hl] at hd'
      cases hd'
    · rw [hl] at hd' hlk'
      exact ih s k hd' hlk'

theorem objAt_snoc_absent : ∀ (P : List String) (o : NObj) (k : String),
    descends o P = true → olookup (objAt o P) k = none →
    objAt o (P ++ [k]) = .nil := by
  intro P
  induction P with
  | nil =>
    intro o k _ hlk
    have hlk0 : olookup o k = none := hlk
    show (match olookup o k with
      | none => NObj.nil
      | some (.node s) => objAt s []
      | some (.leaf _) => NObj.nil) = NObj.nil
    rw [hlk0]
  | cons p P ih =>
    intro o k hd hlk
    have hd' : (match olookup o p with
        | none => true
        | some (.node s) => descends s P
        | some (.leaf _) => false) = true := hd
    have hlk' : olookup (match olookup o p with
        | none => NObj.nil
        | some (.node s) => objAt s P
        | some (.leaf _) => NObj.nil) k = none := hlk
    show (match olookup o p with
      | none => NObj.nil
      | some (.node s) => objAt s (P ++ [k])
      | some (.leaf _) => NObj.nil) = NObj.nil
    rcases hl : olookup o p with _ | ⟨w⟩ | s
    · rfl
    · rfl
    · rw [hl] at hd' hlk'
      exact ih s k hd' hlk'

theorem insertPath_graft : ∀ (P : List String) (o : NObj) (k : String) (w : Val),
    descends o P = true → olookup (objAt o P) k = none →
    insertPath o P k w = .ok (graftAt o P (.cons k (.leaf w) .nil)) := by
  intro P
  induction P with
  | nil =>
    intro o k w _ hlk
    have hlk0 : olookup o k = none := hlk
    show Except.ok (oset o k (.leaf w)) = _
    rw [oset_absent _ hlk0]
    rfl
  | cons p P ih =>
    intro o k w hd hlk
    have hd' : (match olookup o p with
        | none => true
        | some (.node s) => descends s P
        | some (.leaf _) => false) = true := hd
    have hlk' : olookup (match olookup o p with
        | none => NObj.nil
        | some (.node s) => objAt s P
        | some (.leaf _) => NObj.nil) k = none := hlk
    show (match olookup o p with
      | none => bind (insertPath .nil P k w) fun s => Except.ok (oset o p (.node s))
      | some (.node s) => bind (insertPath s P k w) fun s' => Except.ok (oset o p (.node s'))
      | some (.leaf _) => Except.error (.typeErr "item assignment on non-dict"))
      = Except.ok (graftAt o (p :: P) (NObj.cons k (.leaf w) NObj.nil))
    rcases hl : olookup o p with _ | ⟨w0⟩ | s
    · rw [ih .nil k w (descends_nil P) (by rw [objAt_nil]; rfl)]
      show Except.ok (oset o p (.node (graftAt .nil P (NObj.cons k (.leaf w) NObj.nil)))) = _
      show _ = Except.ok (match olookup o p with
        | none => oset o p (.node (graftAt .nil P (NObj.cons k (.leaf w) NObj.nil)))
        | some (.node s) => oset o p (.node (graftAt s P (NObj.cons k (.leaf w) NObj.nil)))
        | some (.leaf _) => o)
      rw [hl]
    · rw [hl] at hd'
      cases hd'
    · rw [hl] at hd' hlk'
      show (bind (insertPath s P k w) fun pr => Except.ok (oset o p (.node pr)))
        = Except.ok (graftAt o (p :: P) (NObj.cons k (.leaf w) NObj.nil))
      rw [ih s k w hd' hlk']
      show Except.ok (oset o p (.node (graftAt s P (NObj.cons k (.leaf w) NObj.nil)))) = _
      show _ = Except.ok (match olookup o p with
        | none => oset o p (.node (graftAt .nil P (NObj.cons k (.leaf w) NObj.nil)))
        | some (.node s) => oset o p (.node (graftAt s P (NObj.cons k (.leaf w) NObj.nil)))
        | some (.leaf _) => o)
      rw [hl]

theorem splitDot_ne_nil : ∀ l : List Char, splitDot l ≠ []
  | [] => by simp [splitDot]
  | c :: rest => by
    simp only [splitDot]
    rcases h : splitDot rest with _ | ⟨h1, t⟩
    · simp
    · by_cases hc : c = '.' <;> simp [hc]

theorem splitDot_append : ∀ xs ys : List Char,
    splitDot (xs ++ '.' :: ys) = splitDot xs ++ splitDot ys
  | [], ys => by
    rcases h : splitDot ys with _ | ⟨h1, t⟩
    · exact absurd h (splitDot_ne_nil ys)
    · simp only [List.nil_append, splitDot, h]
      simp
  | c :: xs, ys => by
    rcases h : splitDot xs with _ | ⟨h1, t⟩
    · exact absurd h (splitDot_ne_nil xs)
    · have hrec := splitDot_append xs ys
      rw [h] at hrec
      show (match splitDot (xs ++ '.' :: ys) with
        | [] => [[c]]
        | hh :: tt => if c = '.' then [] :: hh :: tt else (c :: hh) :: tt)
        = (match splitDot xs with
        | [] => [[c]]
        | hh :: tt => if c = '.' then [] :: hh :: tt else (c :: hh) :: tt)
          ++ splitDot ys
      rw [hrec, h]
      show (if c = '.' then [] :: h1 :: (t ++ splitDot ys)
          else (c :: h1) :: (t ++ splitDot ys))
        = (if c = '.' then [] :: h1 :: t else (c :: h1) :: t) ++ splitDot ys
      by_cases hc : c = '.' <;> simp [hc]

theorem splitDot_nodot : ∀ l : List Char, '.' ∉ l → splitDot l = [l]
  | [], _ => rfl
  | c :: rest, h => by
    have hc : ¬ (c = '.') := fun hc => h (by simp [hc])
    have hr : '.' ∉ rest := fun hr => h (by simp [hr])
    simp only [splitDot, splitDot_nodot rest hr, if_neg hc]

theorem splitDotStr_joinDots : ∀ Q : List String, Q ≠ [] →
    (∀ c ∈ Q, '.' ∉ c.data) → splitDotStr (joinDots Q) = Q
  | [], h, _ => absurd rfl h
  | [a], _, hdf => by
    simp only [joinDots, splitDotStr]
    rw [splitDot_nodot a.data (hdf a (by simp))]
    simp [string_mk_data]
  | a :: b :: rest, _, hdf => by
    have hdata : (joinDots (a :: b :: rest)).data
        = a.data ++ '.' :: (joinDots (b :: rest)).data := by
      show ((a ++ ".") ++ joinDots (b :: rest)).data = _
      simp [String.data_append]
    simp only [splitDotStr, hdata, splitDot_append,
      splitDot_nodot a.data (hdf a (by simp))]
    have ih := splitDotStr_joinDots (b :: rest) (by simp)
      (fun c hc => hdf c (by simp [hc]))
    simp only [splitDotStr] at ih
    simp [string_mk_data, ih]

theorem joinDots_snoc : ∀ (P : List String), P ≠ [] → ∀ k : String,
    joinDots (P ++ [k]) = joinDots P ++ "." ++ k
  | [], h, _ => absurd rfl h
  | [a], _, k => rfl
  | a :: b :: rest, _, k => by
    show a ++ "." ++ joinDots ((b :: rest) ++ [k]) = (a ++ "." ++ joinDots (b :: rest)) ++ "." ++ k
    rw [joinDots_snoc (b :: rest) (by simp) k]
    simp [String.append_assoc]

theorem joinDots_ne_empty : ∀ (P : List String), P ≠ [] →
    (∀ c ∈ P, ¬ c = "") → ¬ joinDots P = ""
  | [], h, _ => absurd rfl h
  | [a], _, hc => by
    simpa [joinDots] using hc a (by simp)
  | a :: b :: rest, _, hc => by
    intro he
    have hd : ((a ++ ".") ++ joinDots (b :: rest)).data = "".data :=
      congrArg String.data he
    simp [String.data_append] at hd

theorem joinDots_inj {Q1 Q2 : List String} (h1 : Q1 ≠ []) (h2 : Q2 ≠ [])
    (hd1 : ∀ c ∈ Q1, '.' ∉ c.data) (hd2 : ∀ c ∈ Q2, '.' ∉ c.data)
    (h : joinDots Q1 = joinDots Q2) : Q1 = Q2 := by
  rw [← splitDotStr_joinDots Q1 h1 hd1, ← splitDotStr_joinDots Q2 h2 hd2, h]

theorem goodKey_elim {k : String} (h : goodKey k = true) :
    ¬ k = "" ∧ '.' ∉ k.data ∧ k ∉ internal_keys := by
  simp only [goodKey, Bool.and_eq_true, Bool.not_eq_true', beq_eq_false_iff_ne,
    ne_eq] at h
  refine ⟨h.1.1, ?_, ?_⟩
  · intro hc
    have h2 : k.data.contains '.' = true := List.elem_eq_true_of_mem hc
    rw [h.1.2] at h2
    cases h2
  · intro hc
    have h2 : internal_keys.contains k = true := List.elem_eq_true_of_mem hc
    rw [h.2] at h2
    cases h2

theorem goodNObj_cons_elim {k : String} {v : NVal} {rest : NObj}
    (h : goodNObj (.cons k v rest) = true) :
    goodKey k = true ∧ k ∉ okeys rest ∧ goodNVal v = true ∧
      goodNObj rest = true := by
  have h' : (goodKey k && !((okeys rest).contains k) && goodNVal v &&
      goodNObj rest) = true := h
  simp only [Bool.and_eq_true, Bool.not_eq_true'] at h'
  refine ⟨h'.1.1.1, ?_, h'.1.2, h'.2⟩
  intro hc
  have h2 : (okeys rest).contains k = true := List.elem_eq_true_of_mem hc
  rw [h'.1.1.2] at h2
  cases h2

theorem goodNVal_node_elim {sub : NObj} (h : goodNVal (.node sub) = true) :
    goodNObj sub = true ∧ sub ≠ .nil := by
  cases sub with
  | nil => cases h
  | cons k v rest => exact ⟨h, by simp⟩

theorem goodPath_snoc {P : List String} {k : String} (hP : goodPath P)
    (hk : goodKey k = true) : goodPath (P ++ [k]) := by
  intro c hc
  rcases List.mem_append.1 hc with h1 | h1
  · exact hP c h1
  · rcases List.mem_singleton.1 h1 with rfl
    exact ⟨(goodKey_elim hk).1, (goodKey_elim hk).2.1⟩

theorem olookup_none_iff : ∀ {o : NObj} {k : String},
    olookup o k = none ↔ k ∉ okeys o
  | .nil, k => by simp [olookup, okeys]
  | .cons k' v rest, k => by
    by_cases h : k' = k
    · subst h
      simp [olookup, okeys]
    · simp only [olookup, if_neg h, okeys, List.mem_cons]
      rw [olookup_none_iff]
      constructor
      · rintro hm (rfl | hm2)
        · exact h rfl
        · exact hm hm2
      · intro hm hm2
        exact hm (Or.inr hm2)

theorem pre_key {P : List String} (hP : goodPath P) (k : String) :
    (if joinDots P = "" then "" else joinDots P ++ ".") ++ k
      = joinDots (P ++ [k]) := by
  rcases P with _ | ⟨a, rest⟩
  · show (if "" = "" then "" else _) ++ k = joinDots [k]
    rw [if_pos rfl]
    show "" ++ k = k
    simp
  · rw [if_neg (joinDots_ne_empty (a :: rest) (by simp)
      (fun c hc => (hP c hc).1))]
    rw [joinDots_snoc (a :: rest) (by simp) k]

theorem runpackStep_reduce {P : List String} (hP : goodPath P) {k : String}
    (hk : goodKey k = true) (o : NObj) (w : Val) :
    runpackStep o (joinDots (P ++ [k]), w) = insertPath o P k w := by
  have hsplit : splitDotStr (joinDots (P ++ [k])) = P ++ [k] :=
    splitDotStr_joinDots (P ++ [k]) (by simp)
      (fun c hc => ((goodPath_snoc hP hk) c hc).2)
  simp only [runpackStep, hsplit]
  split
  · rename_i heq
    simp at heq
  · rename_i q0 qs heq
    simp only [← heq, List.dropLast_concat]
    congr 1
    exact List.getLast_concat P

theorem akeys_append (a b : Dict) : akeys (a ++ b) = akeys a ++ akeys b :=
  List.map_append _ _ _

theorem flat_key_shape : ∀ (n : Nat) (x : NObj), NObj.osize x ≤ n →
    goodNObj x = true → ∀ (P : List String) (key : String),
    key ∈ akeys (flatEntries P x) →
    ∃ k q, k ∈ okeys x ∧ key = joinDots (P ++ (k :: q)) ∧ goodPath (k :: q) := by
  intro n
  induction n with
  | zero =>
    intro x hx _ P key hk
    cases x with
    | nil => simp [flatEntries, akeys] at hk
    | cons k v rest =>
      simp only [NObj.osize] at hx
      omega
  | succ n ih =>
    intro x hx hg P key hk
    cases x with
    | nil => simp [flatEntries, akeys] at hk
    | cons k v rest =>
      obtain ⟨hgk, hknr, hgv, hgr⟩ := goodNObj_cons_elim hg
      have hsr : NObj.osize rest ≤ n := by
        simp only [NObj.osize] at hx
        omega
      have hk' : key ∈ akeys (flatEntriesVal P k v) ∨
          key ∈ akeys (flatEntries P rest) := by
        rw [show flatEntries P (NObj.cons k v rest)
          = flatEntriesVal P k v ++ flatEntries P rest from rfl, akeys_append] at hk
        exact List.mem_append.1 hk
      rcases hk' with h1 | h1
      · cases v with
        | leaf w =>
          simp only [flatEntriesVal, akeys, List.map_cons, List.map_nil,
            List.mem_singleton] at h1
          refine ⟨k, [], by simp [okeys], by rw [h1], ?_⟩
          intro c hc
          rcases List.mem_singleton.1 hc with rfl
          exact ⟨(goodKey_elim hgk).1, (goodKey_elim hgk).2.1⟩
        | node sub =>
          obtain ⟨hgs, hsne⟩ := goodNVal_node_elim hgv
          have hss : NObj.osize sub ≤ n := by
            simp only [NObj.osize, NVal.osize] at hx
            omega
          obtain ⟨k', q', hk'm, hkey, hgq⟩ := ih sub hss hgs (P ++ [k]) key
            (by simpa [flatEntriesVal] using h1)
          refine ⟨k, k' :: q', by simp [okeys], ?_, ?_⟩
          · rw [hkey]
            congr 1
            simp
          · intro c hc
            rcases List.mem_cons.1 hc with rfl | hc2
            · exact ⟨(goodKey_elim hgk).1, (goodKey_elim hgk).2.1⟩
            · exact hgq c hc2
      · obtain ⟨k', q', hk'm, hkey, hgq⟩ := ih rest hsr hgr P key h1
        exact ⟨k', q', by simp [okeys, hk'm], hkey, hgq⟩

theorem flat_nodup : ∀ (n : Nat) (x : NObj), NObj.osize x ≤ n →
    goodNObj x = true → ∀ P : List String, goodPath P →
    (akeys (flatEntries P x)).Nodup := by
  intro n
  induction n with
  | zero =>
    intro x hx _ P _
    cases x with
    | nil => simp [flatEntries, akeys]
    | cons k v rest =>
      simp only [NObj.osize] at hx
      omega
  | succ n ih =>
    intro x hx hg P hP
    cases x with
    | nil => simp [flatEntries, akeys]
    | cons k v rest =>
      obtain ⟨hgk, hknr, hgv, hgr⟩ := goodNObj_cons_elim hg
      have hsr : NObj.osize rest ≤ n := by
        simp only [NObj.osize] at hx
        omega
      rw [show flatEntries P (NObj.cons k v rest)
        = flatEntriesVal P k v ++ flatEntries P rest from rfl, akeys_append]
      refine List.nodup_append.2 ⟨?_, ih rest hsr hgr P hP, ?_⟩
      · cases v with
        | leaf w => simp [flatEntriesVal, akeys]
        | node sub =>
          obtain ⟨hgs, _⟩ := goodNVal_node_elim hgv
          have hss : NObj.osize sub ≤ n := by
            simp only [NObj.osize, NVal.osize] at hx
            omega
          exact ih sub hss hgs (P ++ [k]) (goodPath_snoc hP hgk)
      · intro key h1 h2
        obtain ⟨k2, q2, hk2, hkey2, hgq2⟩ :=
          flat_key_shape (NObj.osize rest) rest le_rfl hgr P key h2
        have hshape1 : ∃ qb, key = joinDots (P ++ (k :: qb)) ∧
            goodPath (k :: qb) := by
          cases v with
          | leaf w =>
            simp only [flatEntriesVal, akeys, List.map_cons, List.map_nil,
              List.mem_singleton] at h1
            refine ⟨[], by rw [h1], ?_⟩
            intro c hc
            rcases List.mem_singleton.1 hc with rfl
            exact ⟨(goodKey_elim hgk).1, (goodKey_elim hgk).2.1⟩
          | node sub =>
            obtain ⟨hgs, _⟩ := goodNVal_node_elim hgv
            obtain ⟨k', q', _, hkey1, hgq1⟩ :=
              flat_key_shape (NObj.osize sub) sub le_rfl hgs (P ++ [k]) key h1
            refine ⟨k' :: q', ?_, ?_⟩
            · rw [hkey1]
              congr 1
              simp
            · intro c hc
              rcases List.mem_cons.1 hc with rfl | hc2
              · exact ⟨(goodKey_elim hgk).1, (goodKey_elim hgk).2.1⟩
              · exact hgq1 c hc2
        obtain ⟨qb, hkey1, hgq1⟩ := hshape1
        have hdf1 : ∀ c ∈ P ++ (k :: qb), '.' ∉ c.data := by
          intro c hc
          rcases List.mem_append.1 hc with hc | hc
          · exact (hP c hc).2
          · exact (hgq1 c hc).2
        have hdf2 : ∀ c ∈ P ++ (k2 :: q2), '.' ∉ c.data := by
          intro c hc
          rcases List.mem_append.1 hc with hc | hc
          · exact (hP c hc).2
          · exact (hgq2 c hc).2
        have heq : P ++ (k :: qb) = P ++ (k2 :: q2) :=
          joinDots_inj (by simp) (by simp) hdf1 hdf2
            (by rw [← hkey1, ← hkey2])
        have hkk : k = k2 := by
          have h3 := List.append_cancel_left heq
          exact (List.cons_eq_cons.1 h3).1
        rw [← hkk] at hk2
        exact hknr hk2

theorem dupdate_fresh : ∀ {u acc : Dict}, NodupKeys u →
    (∀ k ∈ akeys u, k ∉ akeys acc) → dupdate acc u = acc ++ u := by
  intro u
  induction u with
  | nil =>
    intro acc _ _
    simp [dupdate]
  | cons e u ih =>
    intro acc hn hf
    obtain ⟨k, v⟩ := e
    rw [dupdate_cons]
    have hkn : aget? acc k = none :=
      aget?_eq_none_iff.2 (hf k (by simp [akeys]))
    rw [aset_fresh v hkn]
    rw [ih (nodupKeys_cons.1 hn).2 ?_]
    · simp
    · intro k' hk'
      rw [akeys_append]
      intro hc
      rcases List.mem_append.1 hc with hc | hc
      · exact hf k' (show k' ∈ k :: akeys u from List.mem_cons_of_mem _ hk') hc
      · simp only [akeys, List.map_cons, List.map_nil, List.mem_singleton] at hc
        rw [hc] at hk'
        exact (nodupKeys_cons.1 hn).1 hk'

theorem unpack_flat : ∀ (n : Nat) (x : NObj), NObj.osize x ≤ n →
    goodNObj x = true → ∀ (P : List String) (acc : Dict), goodPath P →
    (∀ key ∈ akeys (flatEntries P x), key ∉ akeys acc) →
    unpackGo (joinDots P) x acc = acc ++ flatEntries P x := by
  intro n
  induction n with
  | zero =>
    intro x hx _ P acc _ _
    cases x with
    | nil => simp [unpackGo, flatEntries]
    | cons k v rest =>
      simp only [NObj.osize] at hx
      omega
  | succ n ih =>
    intro x hx hg P acc hP hfresh
    cases x with
    | nil => simp [unpackGo, flatEntries]
    | cons k v rest =>
      obtain ⟨hgk, hknr, hgv, hgr⟩ := goodNObj_cons_elim hg
      have hsr : NObj.osize rest ≤ n := by
        simp only [NObj.osize] at hx
        omega
      have hkey : (if joinDots P = "" then "" else joinDots P ++ ".") ++ k
          = joinDots (P ++ [k]) := pre_key hP k
      have hndx : (akeys (flatEntries P (NObj.cons k v rest))).Nodup :=
        flat_nodup (NObj.osize (NObj.cons k v rest)) _ le_rfl hg P hP
      cases v with
      | leaf w =>
        show unpackGo (joinDots P) rest
          (aset acc ((if joinDots P = "" then "" else joinDots P ++ ".") ++ k) w)
          = acc ++ flatEntries P (NObj.cons k (.leaf w) rest)
        rw [hkey]
        have hm : joinDots (P ++ [k])
            ∈ akeys (flatEntries P (NObj.cons k (.leaf w) rest)) := by
          show joinDots (P ++ [k]) ∈ joinDots (P ++ [k]) :: _
          simp
        rw [aset_fresh w (aget?_eq_none_iff.2 (hfresh _ hm))]
        rw [ih rest hsr hgr P (acc ++ [(joinDots (P ++ [k]), w)]) hP ?_]
        · show (acc ++ [(joinDots (P ++ [k]), w)]) ++ flatEntries P rest
            = acc ++ (joinDots (P ++ [k]), w) :: flatEntries P rest
          simp
        · intro key hkm
          rw [akeys_append]
          intro hc
          rcases List.mem_append.1 hc with hc | hc
          · refine hfresh key ?_ hc
            show key ∈ joinDots (P ++ [k]) :: akeys (flatEntries P rest)
            simp [hkm]
          · simp only [akeys, List.map_cons, List.map_nil,
              List.mem_singleton] at hc
            have hnd' : (joinDots (P ++ [k])
                :: akeys (flatEntries P rest)).Nodup := hndx
            rw [hc] at hkm
            exact (List.nodup_cons.1 hnd').1 hkm
      | node sub =>
        obtain ⟨hgs, hsne⟩ := goodNVal_node_elim hgv
        have hss : NObj.osize sub ≤ n := by
          simp only [NObj.osize, NVal.osize] at hx
          omega
        show unpackGo (joinDots P) rest
          (dupdate acc (unpackGo
            ((if joinDots P = "" then "" else joinDots P ++ ".") ++ k) sub []))
          = acc ++ flatEntries P (NObj.cons k (.node sub) rest)
        rw [hkey]
        rw [ih sub hss hgs (P ++ [k]) [] (goodPath_snoc hP hgk)
          (by intro key _; simp [akeys])]
        rw [List.nil_append]
        have hbsub : ∀ key ∈ akeys (flatEntries (P ++ [k]) sub),
            key ∈ akeys (flatEntries P (NObj.cons k (.node sub) rest)) := by
          intro key hkm
          show key ∈ akeys (flatEntries (P ++ [k]) sub ++ flatEntries P rest)
          rw [akeys_append]
          exact List.mem_append.2 (Or.inl hkm)
        rw [dupdate_fresh
          (flat_nodup (NObj.osize sub) sub le_rfl hgs (P ++ [k])
            (goodPath_snoc hP hgk))
          (fun key hkm => hfresh key (hbsub key hkm))]
        have hdisj : ∀ key ∈ akeys (flatEntries P rest),
            key ∉ akeys (flatEntries (P ++ [k]) sub) := by
          have hnd' : (akeys (flatEntries (P ++ [k]) sub)
              ++ akeys (flatEntries P rest)).Nodup := by
            have : akeys (flatEntries P (NObj.cons k (.node sub) rest))
                = akeys (flatEntries (P ++ [k]) sub)
                  ++ akeys (flatEntries P rest) := by
              show akeys (flatEntries (P ++ [k]) sub ++ flatEntries P rest) = _
              rw [akeys_append]
            rw [this] at hndx
            exact hndx
          intro key hkm hc
          exact (List.nodup_append.1 hnd').2.2 hc hkm
        rw [ih rest hsr hgr P (acc ++ flatEntries (P ++ [k]) sub) hP ?_]
        · show (acc ++ flatEntries (P ++ [k]) sub) ++ flatEntries P rest
            = acc ++ (flatEntries (P ++ [k]) sub ++ flatEntries P rest)
          simp
        · intro key hkm
          rw [akeys_append]
          intro hc
          rcases List.mem_append.1 hc with hc | hc
          · refine hfresh key ?_ hc
            show key ∈ akeys (flatEntries (P ++ [k]) sub ++ flatEntries P rest)
            rw [akeys_append]
            exact List.mem_append.2 (Or.inr hkm)
          · exact hdisj key hkm hc

theorem graftAt_nil_right : ∀ (o : NObj) (P : List String),
    graftAt o P .nil = o
  | _, [] => rfl
  | _, _ :: _ => rfl

theorem olookup_single_ne {k k' : String} {v : NVal} (h : k' ≠ k) :
    olookup (.cons k v .nil) k' = none := by
  show (if k = k' then some v else olookup .nil k') = none
  rw [if_neg (fun hc => h hc.symm)]
  rfl

theorem rebuild_graft : ∀ (n : Nat) (x : NObj), NObj.osize x ≤ n →
    goodNObj x = true → ∀ (P : List String) (o : NObj), goodPath P →
    descends o P = true →
    (∀ k ∈ okeys x, olookup (objAt o P) k = none) →
    (flatEntries P x).foldlM runpackStep o = .ok (graftAt o P x) := by
  intro n
  induction n with
  | zero =>
    intro x hx _ P o _ _ _
    cases x with
    | nil =>
      rw [graftAt_nil_right]
      simp [flatEntries, List.foldlM_nil, pure, Except.pure]
    | cons k v rest =>
      simp only [NObj.osize] at hx
      omega
  | succ n ih =>
    intro x hx hg P o hP hd hnone
    cases x with
    | nil =>
      rw [graftAt_nil_right]
      simp [flatEntries, List.foldlM_nil, pure, Except.pure]
    | cons k v rest =>
      obtain ⟨hgk, hknr, hgv, hgr⟩ := goodNObj_cons_elim hg
      have hsr : NObj.osize rest ≤ n := by
        simp only [NObj.osize] at hx
        omega
      have hk0 : olookup (objAt o P) k = none :=
        hnone k (by simp [okeys])
      rw [show flatEntries P (NObj.cons k v rest)
        = flatEntriesVal P k v ++ flatEntries P rest from rfl,
        List.foldlM_append]
      cases v with
      | leaf w =>
        have hblock : (flatEntriesVal P k (.leaf w)).foldlM runpackStep o
            = .ok (graftAt o P (.cons k (.leaf w) .nil)) := by
          show [(joinDots (P ++ [k]), w)].foldlM runpackStep o = _
          rw [List.foldlM_cons]
          rw [runpackStep_reduce hP hgk o w]
          rw [insertPath_graft P o k w hd hk0]
          simp [List.foldlM_nil, bind, Except.bind, pure, Except.pure]
        rw [hblock]
        simp only [bind, Except.bind]
        have hrest := ih rest hsr hgr P
          (graftAt o P (.cons k (.leaf w) .nil)) hP
          (descends_graftAt P o _ hd) ?_
        · rw [hrest, graftAt_merge]
          rfl
        · intro k' hk'
          rw [objAt_graftAt P o _ hd]
          refine olookup_oAppend_none (hnone k' (by simp [okeys, hk'])) ?_
          exact olookup_single_ne (fun hc => hknr (hc ▸ hk'))
      | node sub =>
        obtain ⟨hgs, hsne⟩ := goodNVal_node_elim hgv
        have hss : NObj.osize sub ≤ n := by
          simp only [NObj.osize, NVal.osize] at hx
          omega
        have hblock : (flatEntriesVal P k (.node sub)).foldlM runpackStep o
            = .ok (graftAt o P (.cons k (.node sub) .nil)) := by
          show (flatEntries (P ++ [k]) sub).foldlM runpackStep o = _
          rw [ih sub hss hgs (P ++ [k]) o (goodPath_snoc hP hgk)
            (descends_snoc P o k hd hk0) ?_]
          · rw [graftAt_snoc P o k sub hd hk0 hsne]
          · intro k' _
            rw [objAt_snoc_absent P o k hd hk0]
            rfl
        rw [hblock]
        simp only [bind, Except.bind]
        have hrest := ih rest hsr hgr P
          (graftAt o P (.cons k (.node sub) .nil)) hP
          (descends_graftAt P o _ hd) ?_
        · rw [hrest, graftAt_merge]
          rfl
        · intro k' hk'
          rw [objAt_graftAt P o _ hd]
          refine olookup_oAppend_none (hnone k' (by simp [okeys, hk'])) ?_
          exact olookup_single_ne (fun hc => hknr (hc ▸ hk'))

/-- C7 (counterexample): the key `"a.b"` is non-blank and not reserved, yet
the nested mapping `{"a.b": 1}` does not round-trip: flattening and
unflattening yields the two-level `{"a": {"b": 1}}` because
`reverse_unpack` splits keys on dots. -/
theorem C7_counterexample :
    unpack (NObj.cons "a.b" (NVal.leaf (Val.int 1)) NObj.nil) ""
      = [("a.b", Val.int 1)] ∧
    reverse_unpack [("a.b", Val.int 1)]
      = .ok (NObj.cons "a"
          (NVal.node (NObj.cons "b" (NVal.leaf (Val.int 1)) NObj.nil))
          NObj.nil) ∧
    NObj.cons "a" (NVal.node (NObj.cons "b" (NVal.leaf (Val.int 1)) NObj.nil))
        NObj.nil
      ≠ NObj.cons "a.b" (NVal.leaf (Val.int 1)) NObj.nil ∧
    ¬ "a.b" = "" ∧ "a.b" ∉ internal_keys :=
  ⟨rfl, rfl, by decide, by decide, by decide⟩

/-- C7 (amended): for a nested mapping whose keys at every level are
non-blank, dot-free, pairwise distinct and not reserved, and which has no
empty sub-mappings, unflatten(flatten(x)) = x. -/
theorem C7_roundtrip (x : NObj) (hg : goodNObj x = true) :
    reverse_unpack (unpack x "") = .ok x := by
  have hu : unpack x "" = flatEntries [] x := by
    show unpackGo "" x [] = _
    have h := unpack_flat (NObj.osize x) x le_rfl hg [] []
      (fun c hc => absurd hc (List.not_mem_nil c))
      (by intro key _ hc; simp [akeys] at hc)
    simpa using h
  show (unpack x "").foldlM runpackStep .nil = .ok x
  rw [hu]
  rw [rebuild_graft (NObj.osize x) x le_rfl hg [] .nil
    (fun c hc => absurd hc (List.not_mem_nil c)) rfl (fun k _ => rfl)]
  cases x with
  | nil => rfl
  | cons k v rest => rfl

theorem C7_roundtrip_witness :
    goodNObj (NObj.cons "a"
      (NVal.node (NObj.cons "b" (NVal.leaf (Val.int 1)) NObj.nil))
      (NObj.cons "c" (NVal.leaf (Val.str "x")) NObj.nil)) = true ∧
    reverse_unpack (unpack (NObj.cons "a"
      (NVal.node (NObj.cons "b" (NVal.leaf (Val.int 1)) NObj.nil))
      (NObj.cons "c" (NVal.leaf (Val.str "x")) NObj.nil)) "")
      = .ok (NObj.cons "a"
          (NVal.node (NObj.cons "b" (NVal.leaf (Val.int 1)) NObj.nil))
          (NObj.cons "c" (NVal.leaf (Val.str "x")) NObj.nil)) :=
  ⟨by decide, C7_roundtrip _ (by decide)⟩
